import Mathlib

/-!
# ExtSort: external k-way merge sort over fixed-size records

A shallow embedding of `record.h`, `buffer.h`, `fileSorter.h` and `main.cpp`.

* A file is the list of its records; record `index` lives at byte offset
  `index * SIZE_OF_REC`.
* What the C++ standard leaves to the implementation (signedness of plain `char`,
  the bytes of a `new char[]` array after a short `fread`, the tie behaviour of
  `std::sort` and of `std::priority_queue`) is collected in the structure `Cxx`;
  the contracts the standard does fix are the predicates `SortLawful` and `PQLawful`.
* Record counts and indices are unbounded naturals: a file holds far fewer than
  `2^63` records, so `long` and `size_t` arithmetic on them does not wrap.
-/

namespace ExtSort

/-! ## record.h -/

/-- One byte of file content. -/
abbrev Byte := Fin 256

/-- The class `Record`: the owned array `m_chdata`. -/
structure Record where
  m_chdata : List Byte
deriving DecidableEq

/-- The globals of `main.cpp`, set once from the command line. -/
structure Globals where
  KEY_SIZE : Int
  SIZE_OF_REC : Int
  SORTING_ORDER : Int
deriving DecidableEq

/-- The struct `RecWithBlockIndex<Rec>`: a record and the block it came from. -/
structure RecWithBlockIndex where
  value : Record
  index : Nat
deriving DecidableEq

/-- The implementation-defined side of the C++ toolchain the program is built with. -/
structure Cxx where
  /-- whether plain `char` is a signed type (it is on x86-64 Linux) -/
  char_signed : Bool
  /-- the content a `Record(FILE*)` is left with when `fread` hits end of file,
  by record index -/
  uninit : Nat → Record
  /-- the algorithm `std::sort(first, last, comp)` on the range it is given -/
  sort : (Record → Record → Bool) → List Record → List Record
  /-- the member `std::priority_queue::push` on the underlying vector -/
  pq_push : (RecWithBlockIndex → RecWithBlockIndex → Bool) →
    List RecWithBlockIndex → RecWithBlockIndex → List RecWithBlockIndex
  /-- the member `std::priority_queue::pop` on the underlying vector -/
  pq_pop : (RecWithBlockIndex → RecWithBlockIndex → Bool) →
    List RecWithBlockIndex → List RecWithBlockIndex

/-- The value of a byte held in a plain `char`. -/
def Cxx.toChar (C : Cxx) (b : Byte) : Int :=
  if C.char_signed = true ∧ 128 ≤ b.val then (b.val : Int) - 256 else (b.val : Int)

/-- The member `Record::operator[]`: the `char` at `index`. -/
def Record.index (C : Cxx) (r : Record) (index : Nat) : Int :=
  C.toChar (r.m_chdata.getD index 0)

/-- The loop of `operator==`, at position `i` with `n` iterations left. -/
def Record.eqLoop (C : Cxx) (r1 r2 : Record) : Nat → Nat → Bool
  | _, 0 => true
  | i, n + 1 =>
    if Record.index C r1 i ≠ Record.index C r2 i then false
    else Record.eqLoop C r1 r2 (i + 1) n

/-- The free function `operator==(const Record&, const Record&)`. -/
def Record.eq (C : Cxx) (G : Globals) (r1 r2 : Record) : Bool :=
  Record.eqLoop C r1 r2 0 G.KEY_SIZE.toNat

/-- The loop of `operator<`, at position `i` with `n` iterations left. -/
def Record.ltLoop (C : Cxx) (r1 r2 : Record) : Nat → Nat → Bool
  | _, 0 => false
  | i, n + 1 =>
    if Record.index C r1 i < Record.index C r2 i then true
    else if Record.index C r1 i > Record.index C r2 i then false
    else Record.ltLoop C r1 r2 (i + 1) n

/-- The free function `operator<(const Record&, const Record&)`. -/
def Record.lt (C : Cxx) (G : Globals) (r1 r2 : Record) : Bool :=
  Record.ltLoop C r1 r2 0 G.KEY_SIZE.toNat

/-- The free function `operator>(const Record&, const Record&)`. -/
def Record.gt (C : Cxx) (G : Globals) (r1 r2 : Record) : Bool :=
  !(Record.lt C G r1 r2 || Record.eq C G r1 r2)

/-- The default constructor `Record()`: `SIZE_OF_REC` zero bytes. -/
def Record.zero (G : Globals) : Record :=
  ⟨List.replicate G.SIZE_OF_REC.toNat 0⟩

/-- The key of a record as the comparison operators see it: the first `KEY_SIZE`
bytes, each as a `char` value. -/
def Record.key (C : Cxx) (G : Globals) (r : Record) : List Int :=
  (r.m_chdata.take G.KEY_SIZE.toNat).map C.toChar

/-- The key of a record read as unsigned byte values `0..255`. -/
def Record.ukey (G : Globals) (r : Record) : List Nat :=
  (r.m_chdata.take G.KEY_SIZE.toNat).map (fun b => b.val)

/-! ## buffer.h -/

/-- The free function `operator<` on `RecWithBlockIndex`, the order `less<>` uses. -/
def RecWithBlockIndex.lt (C : Cxx) (G : Globals) (r1 r2 : RecWithBlockIndex) : Bool :=
  Record.lt C G r1.value r2.value

/-- The free function `operator>` on `RecWithBlockIndex`, the order `greater<>` uses. -/
def RecWithBlockIndex.gt (C : Cxx) (G : Globals) (r1 r2 : RecWithBlockIndex) : Bool :=
  Record.gt C G r1.value r2.value

/-- The class `Buffer<RecWithBlockIndex<Record>>`; a heap is the vector underlying its
`std::priority_queue`, whose `top()` is the front element. -/
structure Buffer where
  m_min_heap : List RecWithBlockIndex
  m_max_heap : List RecWithBlockIndex
  m_max_size : Nat
  m_sorting_order : Int
deriving DecidableEq

/-- The constructor `Buffer(size, order)`. -/
def Buffer.ctor (size : Nat) (order : Int) : Buffer :=
  { m_min_heap := [], m_max_heap := [], m_max_size := size, m_sorting_order := order }

/-- The member `Buffer::push`: the buffer afterwards and the returned flag. -/
def Buffer.push (C : Cxx) (G : Globals) (b : Buffer) (val : RecWithBlockIndex) :
    Buffer × Bool :=
  if b.m_sorting_order = 1 then
    if b.m_min_heap.length < b.m_max_size then
      ({ b with m_min_heap := C.pq_push (RecWithBlockIndex.gt C G) b.m_min_heap val }, true)
    else (b, false)
  else
    if b.m_max_heap.length < b.m_max_size then
      ({ b with m_max_heap := C.pq_push (RecWithBlockIndex.lt C G) b.m_max_heap val }, true)
    else (b, false)

/-- The member `Buffer::top`; `none` on an empty heap, where C++ leaves it undefined. -/
def Buffer.top (b : Buffer) : Option RecWithBlockIndex :=
  if b.m_sorting_order = 1 then b.m_min_heap.head? else b.m_max_heap.head?

/-- The member `Buffer::pop`. -/
def Buffer.pop (C : Cxx) (G : Globals) (b : Buffer) : Buffer :=
  if b.m_sorting_order = 1 then
    { b with m_min_heap := C.pq_pop (RecWithBlockIndex.gt C G) b.m_min_heap }
  else
    { b with m_max_heap := C.pq_pop (RecWithBlockIndex.lt C G) b.m_max_heap }

/-- The member `Buffer::empty`. -/
def Buffer.empty (b : Buffer) : Bool :=
  if b.m_sorting_order = 1 then b.m_min_heap.isEmpty else b.m_max_heap.isEmpty

/-- The heap the buffer's sorting order selects. -/
def Buffer.active (b : Buffer) : List RecWithBlockIndex :=
  if b.m_sorting_order = 1 then b.m_min_heap else b.m_max_heap

/-- The comparator of the heap selected by sorting order `order`. -/
def heapComp (C : Cxx) (G : Globals) (order : Int) :
    RecWithBlockIndex → RecWithBlockIndex → Bool :=
  if order = 1 then RecWithBlockIndex.gt C G else RecWithBlockIndex.lt C G

/-! ## What the C++ standard guarantees of the library -/

/-- The contract of `std::sort` for comparator `comp`: the result is a permutation of the
range and no element is `comp`-before an element that precedes it. -/
def SortLawful (C : Cxx) (comp : Record → Record → Bool) : Prop :=
  ∀ l : List Record, (C.sort comp l).Perm l ∧
    (C.sort comp l).Pairwise (fun a b => comp b a = false)

/-- The contract of `std::priority_queue` for comparator `comp`, over the vectors `inv`
that `push` and `pop` produce from the empty one: `push` adds its argument, the front is
not `comp`-before any other element, and `pop` removes the front. -/
structure PQLawful (C : Cxx) (comp : RecWithBlockIndex → RecWithBlockIndex → Bool)
    (inv : List RecWithBlockIndex → Prop) : Prop where
  inv_nil : inv []
  push_inv : ∀ c x, inv c → inv (C.pq_push comp c x)
  push_perm : ∀ c x, inv c → (C.pq_push comp c x).Perm (x :: c)
  top_max : ∀ t c, inv (t :: c) → ∀ x ∈ c, comp t x = false
  pop_inv : ∀ t c, inv (t :: c) → inv (C.pq_pop comp (t :: c))
  pop_perm : ∀ t c, inv (t :: c) → (C.pq_pop comp (t :: c)).Perm c

/-- A toolchain whose library honours the standard for the comparators of this program. -/
structure Cxx.Conforms (C : Cxx) (G : Globals) : Prop where
  sort_lt : SortLawful C (Record.lt C G)
  sort_gt : SortLawful C (Record.gt C G)
  pq_gt : ∃ inv, PQLawful C (RecWithBlockIndex.gt C G) inv
  pq_lt : ∃ inv, PQLawful C (RecWithBlockIndex.lt C G) inv

/-! ## fileSorter.h -/

/-- One observable action of a `FileSorter`. -/
inductive Event where
  | read (index : Nat)
  | write (index : Nat)
  | perror (x : Int)
deriving DecidableEq

/-- The class `FileSorter<Record>`. The two file handles are the record lists of the
files they are open on; `m_buffer_size` is the value `GetBufferSize()` returns, fixed at
construction by `m_i_amt_of_mem` and `SIZE_OF_REC`; `trace` records the reads, writes
and `perror` calls made so far. -/
structure FileSorter where
  m_h_inpfile : List Record
  m_h_outfile : List Record
  m_lnrecords : Nat
  m_buffer_size : Nat
  m_sorting_order : Int
  trace : List Event
deriving DecidableEq

/-- The byte `'\n'`. -/
def newline : Byte := 10

/-- One call of `getline(stream, line)` on the unread bytes: `none` when nothing can be
extracted, else the line and the bytes left after its terminator. -/
def getline (s : List Byte) : Option (List Byte × List Byte) :=
  match s with
  | [] => none
  | _ => some (s.takeWhile (fun b => b ≠ newline), (s.dropWhile (fun b => b ≠ newline)).drop 1)

/-- The `while (getline(...)) ++num_of_records` loop of `CountRecords`. -/
def CountRecords.loop : Nat → List Byte → Nat → Nat
  | 0, _, num_of_records => num_of_records
  | fuel + 1, s, num_of_records =>
    match getline s with
    | none => num_of_records
    | some (_, rest) => CountRecords.loop fuel rest (num_of_records + 1)

/-- The member `FileSorter::CountRecords` on the bytes of the input file (every `getline`
that succeeds consumes a byte, so `length + 1` iterations reach the end of the file). -/
def CountRecords (inFile : List Byte) : Nat :=
  CountRecords.loop (inFile.length + 1) inFile 0

/-- The bytes of a file of records. -/
def fileBytes (f : List Record) : List Byte :=
  (f.map (fun r => r.m_chdata)).flatten

/-- The value `static_cast<size_t>(m_i_amt_of_mem) * 1024 * 1024 / (SIZE_OF_REC * 2)` of
`GetBufferSize`, in 64-bit unsigned arithmetic. -/
def GetBufferSize (amt_of_mem : Int) (G : Globals) : Nat :=
  (((amt_of_mem % 2 ^ 64).toNat * 1024 * 1024) % 2 ^ 64) /
    ((G.SIZE_OF_REC * 2) % 2 ^ 64).toNat

/-- The constructor `FileSorter(inFile, outFile, amt_of_mem, sorting_order)` with both
files opening: the output file is truncated and the input lines are counted.
`buffer_size` is `GetBufferSize amt_of_mem G`. -/
def FileSorter.ctor (inFile : List Record) (buffer_size : Nat) (sorting_order : Int) :
    FileSorter :=
  { m_h_inpfile := inFile, m_h_outfile := [], m_lnrecords := CountRecords (fileBytes inFile),
    m_buffer_size := buffer_size, m_sorting_order := sorting_order, trace := [] }

/-- The member `FileSorter::GetNumRecords`. -/
def FileSorter.GetNumRecords (s : FileSorter) : Nat := s.m_lnrecords

/-- The member `FileSorter::perror`: prints the message of code `x`. -/
def FileSorter.perror (s : FileSorter) (x : Int) : FileSorter :=
  { s with trace := s.trace ++ [Event.perror x] }

/-- The member `FileSorter::ReadRecord`: the record at `index` of the input file; past
the end of the file `fread` stores nothing and the record keeps what `new char[]` held. -/
def FileSorter.ReadRecord (C : Cxx) (s : FileSorter) (index : Nat) : Record × FileSorter :=
  (s.m_h_inpfile.getD index (C.uninit index), { s with trace := s.trace ++ [Event.read index] })

/-- A file after `fseek` to record `index` and `fwrite` of one record: a position inside
the file is overwritten, a position past its end extends it, the gap reading as zeros. -/
def writeAt (G : Globals) (f : List Record) (index : Nat) (value : Record) : List Record :=
  if index < f.length then f.set index value
  else f ++ List.replicate (index - f.length) (Record.zero G) ++ [value]

/-- The member `FileSorter::WriteRecord`. -/
def FileSorter.WriteRecord (G : Globals) (s : FileSorter) (index : Nat) (value : Record) :
    FileSorter :=
  { s with m_h_outfile := writeAt G s.m_h_outfile index value,
           trace := s.trace ++ [Event.write index] }

/-- The member `FileSorter::GetRecordIndex`. -/
def FileSorter.GetRecordIndex (start_block end_block : Nat) (block_sizes : List Nat)
    (start_record end_block_offset : Nat) : Nat :=
  (List.range' start_block (end_block - start_block)).foldl
    (fun record_index i => record_index + block_sizes.getD i 0) start_record
    + end_block_offset

/-- The member `FileSorter::CreateRecWithBlockIndex`. -/
def FileSorter.CreateRecWithBlockIndex (value : Record) (index : Nat) : RecWithBlockIndex :=
  { value := value, index := index }

/-- The first loop of `TwoPassMergeSort(i, j)`: with `n` iterations left, reads record
`cur_record_idx` into `buffer[records_read]`. -/
def FileSorter.readLoop (C : Cxx) :
    Nat → Nat → Nat → FileSorter → List Record → FileSorter × List Record
  | 0, _, _, s, buffer => (s, buffer)
  | n + 1, cur_record_idx, records_read, s, buffer =>
    let rs := s.ReadRecord C cur_record_idx
    FileSorter.readLoop C n (cur_record_idx + 1) (records_read + 1) rs.2
      (buffer.set records_read rs.1)

/-- The last loop of `TwoPassMergeSort(i, j)`: with `n` iterations left, writes
`buffer[cur_record_idx - i]` to position `cur_record_idx`. -/
def FileSorter.writeLoop (G : Globals) (i : Nat) (buffer : List Record) :
    Nat → Nat → FileSorter → FileSorter
  | 0, _, s => s
  | n + 1, cur_record_idx, s =>
    FileSorter.writeLoop G i buffer n (cur_record_idx + 1)
      (s.WriteRecord G cur_record_idx (buffer.getD (cur_record_idx - i) (Record.zero G)))

/-- The member `TwoPassMergeSort(long i, long j)`: sorts the records `i..j` in memory and
writes them back. `i` is a natural number: `pass0`, the only caller, starts at `0` and
adds block sizes. Returns the sorter afterwards and the result code. -/
def FileSorter.TwoPassMergeSort_range (C : Cxx) (G : Globals) (s : FileSorter)
    (i : Nat) (j : Int) : FileSorter × Int :=
  let buffer := List.replicate s.m_buffer_size (Record.zero G)
  let n := (j - (i : Int) + 1).toNat
  let rd := FileSorter.readLoop C n i 0 s buffer
  let records_read := n
  let buffer := rd.2
  let buffer :=
    if s.m_sorting_order = 1 then
      C.sort (Record.lt C G) (buffer.take records_read) ++ buffer.drop records_read
    else
      C.sort (Record.gt C G) (buffer.take records_read) ++ buffer.drop records_read
  (FileSorter.writeLoop G i buffer n i rd.1, 1)

/-- The copy loop of the one-block case: with `n` iterations left, reads and rewrites
record `i`. -/
def FileSorter.copyLoop (C : Cxx) (G : Globals) : Nat → Nat → FileSorter → FileSorter
  | 0, _, s => s
  | n + 1, i, s =>
    let rs := s.ReadRecord C i
    FileSorter.copyLoop C G n (i + 1) (rs.2.WriteRecord G i rs.1)

/-- The locals of the merging `TwoPassMergeSort` together with the sorter; `failed` is
set when the function has returned `-1`. -/
structure MergeState where
  sorter : FileSorter
  buffer : Buffer
  current_block_record_indices : List Nat
  record_index : Nat
  current_record : Nat
  failed : Bool
deriving DecidableEq

/-- The body of the loop that fills the buffer with the first record of each block, for
iteration `i`; the `return -1` of a refused push sets `failed`. -/
def FileSorter.seedBody (C : Cxx) (G : Globals) (start_block : Nat) (block_sizes : List Nat)
    (i : Nat) (st : MergeState) : MergeState :=
  let rs := st.sorter.ReadRecord C st.record_index
  let record_with_block_index := FileSorter.CreateRecWithBlockIndex rs.1 (i + start_block)
  let indices := st.current_block_record_indices.set (i + start_block)
    (st.current_block_record_indices.getD (i + start_block) 0 + 1)
  let pushed := st.buffer.push C G record_with_block_index
  if pushed.2 = false then
    { st with sorter := rs.2.perror (-3), buffer := pushed.1,
              current_block_record_indices := indices, failed := true }
  else
    { st with sorter := rs.2, buffer := pushed.1,
              current_block_record_indices := indices,
              record_index := st.record_index + block_sizes.getD (i + start_block) 0 }

/-- The loop `for (i = 0; i < num_of_blocks_to_merge; i++)` that fills the buffer: at
iteration `i` with `n` iterations left; it ends early when the body has returned. -/
def FileSorter.seedLoop (C : Cxx) (G : Globals) (start_block : Nat) (block_sizes : List Nat) :
    Nat → Nat → MergeState → MergeState
  | 0, _, st => st
  | n + 1, i, st =>
    let st1 := FileSorter.seedBody C G start_block block_sizes i st
    if st1.failed = true then st1
    else FileSorter.seedLoop C G start_block block_sizes n (i + 1) st1

/-- The body of the merge loop once `r = buffer.top()` is taken; the `return -1` of a
refused push sets `failed`. -/
def FileSorter.mergeBody (C : Cxx) (G : Globals) (start_block : Nat) (block_sizes : List Nat)
    (start_record : Nat) (st : MergeState) (r : RecWithBlockIndex) : MergeState :=
  let s1 := st.sorter.WriteRecord G st.current_record r.value
  let buffer := st.buffer.pop C G
  let current_record := st.current_record + 1
  let block_index := r.index
  let current_block_record_index := st.current_block_record_indices.getD block_index 0
  if current_block_record_index < block_sizes.getD block_index 0 then
    let r_index := FileSorter.GetRecordIndex start_block block_index block_sizes
      start_record current_block_record_index
    let rs := s1.ReadRecord C r_index
    let record_with_block_index := FileSorter.CreateRecWithBlockIndex rs.1 block_index
    let pushed := buffer.push C G record_with_block_index
    if pushed.2 = false then
      { st with sorter := rs.2.perror (-3), buffer := pushed.1,
                current_record := current_record, failed := true }
    else
      { st with sorter := rs.2, buffer := pushed.1,
                current_block_record_indices :=
                  st.current_block_record_indices.set block_index
                    (current_block_record_index + 1),
                current_record := current_record }
  else
    { st with sorter := s1, buffer := buffer, current_record := current_record }

/-- The `while (current_record < end_record && !buffer.empty())` loop. Every iteration
advances `current_record`, so `end_record - current_record` bounds the iterations left
and is the `fuel` the loop is started with; it ends early when the body has returned. -/
def FileSorter.mergeLoop (C : Cxx) (G : Globals) (start_block : Nat) (block_sizes : List Nat)
    (start_record end_record : Nat) : Nat → MergeState → MergeState
  | 0, st => st
  | fuel + 1, st =>
    if st.current_record < end_record ∧ st.buffer.empty = false then
      match st.buffer.top with
      | none => st
      | some r =>
        let st1 := FileSorter.mergeBody C G start_block block_sizes start_record st r
        if st1.failed = true then st1
        else FileSorter.mergeLoop C G start_block block_sizes start_record end_record fuel st1
    else st

/-- The states the seeding loop passes through: the state after each iteration, in
order. -/
def FileSorter.seedStates (C : Cxx) (G : Globals) (start_block : Nat) (block_sizes : List Nat) :
    Nat → Nat → MergeState → List MergeState
  | 0, _, _ => []
  | n + 1, i, st =>
    let st1 := FileSorter.seedBody C G start_block block_sizes i st
    if st1.failed = true then [st1]
    else st1 :: FileSorter.seedStates C G start_block block_sizes n (i + 1) st1

/-- The states the merge loop passes through: the state after each iteration, in order. -/
def FileSorter.mergeStates (C : Cxx) (G : Globals) (start_block : Nat) (block_sizes : List Nat)
    (start_record end_record : Nat) : Nat → MergeState → List MergeState
  | 0, _ => []
  | fuel + 1, st =>
    if st.current_record < end_record ∧ st.buffer.empty = false then
      match st.buffer.top with
      | none => []
      | some r =>
        let st1 := FileSorter.mergeBody C G start_block block_sizes start_record st r
        if st1.failed = true then [st1]
        else st1 :: FileSorter.mergeStates C G start_block block_sizes start_record
          end_record fuel st1
    else []

/-- Every state of a run of the merging `TwoPassMergeSort` for two or more blocks: the
initial one, those of the seeding loop and those of the merge loop. -/
def FileSorter.mergeRunStates (C : Cxx) (G : Globals) (s : FileSorter) (start_block : Nat)
    (block_sizes : List Nat) (num_of_blocks_to_merge start_record end_record : Nat) :
    List MergeState :=
  let st0 : MergeState :=
    { sorter := s, buffer := Buffer.ctor num_of_blocks_to_merge s.m_sorting_order,
      current_block_record_indices := List.replicate block_sizes.length 0,
      record_index := start_record, current_record := start_record, failed := false }
  let st1 := FileSorter.seedLoop C G start_block block_sizes num_of_blocks_to_merge 0 st0
  st0 :: FileSorter.seedStates C G start_block block_sizes num_of_blocks_to_merge 0 st0 ++
    (if st1.failed = true then []
     else FileSorter.mergeStates C G start_block block_sizes start_record end_record
      (end_record - start_record) st1)

/-- The body of the merging `TwoPassMergeSort` for two or more blocks, up to its
`return`: the state the function ends in. -/
def FileSorter.mergeRun (C : Cxx) (G : Globals) (s : FileSorter) (start_block : Nat)
    (block_sizes : List Nat) (num_of_blocks_to_merge start_record end_record : Nat) :
    MergeState :=
  let st0 : MergeState :=
    { sorter := s, buffer := Buffer.ctor num_of_blocks_to_merge s.m_sorting_order,
      current_block_record_indices := List.replicate block_sizes.length 0,
      record_index := start_record, current_record := start_record, failed := false }
  let st1 := FileSorter.seedLoop C G start_block block_sizes num_of_blocks_to_merge 0 st0
  if st1.failed = true then st1
  else
    FileSorter.mergeLoop C G start_block block_sizes start_record end_record
      (end_record - start_record) st1

/-- The member `TwoPassMergeSort(start_block, block_sizes, num_of_blocks_to_merge,
start_record, end_record)`: the sorter afterwards and the result code. -/
def FileSorter.TwoPassMergeSort_merge (C : Cxx) (G : Globals) (s : FileSorter)
    (start_block : Nat) (block_sizes : List Nat)
    (num_of_blocks_to_merge start_record end_record : Nat) : FileSorter × Int :=
  if num_of_blocks_to_merge = 0 then (s, 1)
  else if num_of_blocks_to_merge = 1 then
    (FileSorter.copyLoop C G (end_record - start_record) start_record s, 1)
  else
    let st := FileSorter.mergeRun C G s start_block block_sizes num_of_blocks_to_merge
      start_record end_record
    (st.sorter, if st.failed = true then -1 else 1)

/-! ## main.cpp -/

/-- The function `get_num_blocks`: `ceil(num_of_entities / num_of_buffers)`. The double
quotient of two integers below `2^53` never rounds across an integer, so its `ceil` is
the integer ceiling. -/
def get_num_blocks (num_of_entities num_of_buffers : Nat) : Nat :=
  (num_of_entities + num_of_buffers - 1) / num_of_buffers

/-- The search behind `get_num_passes`: with `fuel` steps left, `k` is the candidate
exponent and `p = num_of_buffers ^ k`. -/
def get_num_passes.loop (num_of_buffers records_per_buffer : Nat) : Nat → Nat → Nat → Nat
  | 0, k, _ => k
  | fuel + 1, k, p =>
    if records_per_buffer ≤ p then k
    else get_num_passes.loop num_of_buffers records_per_buffer fuel (k + 1) (p * num_of_buffers)

/-- The function `get_num_passes` in exact arithmetic:
`ceil(log(records_per_buffer) / log(num_of_buffers))` for
`records_per_buffer = ceil(num_of_records / num_of_buffers)`, which is the least `k` with
`records_per_buffer ≤ num_of_buffers ^ k`. `main.cpp` computes the quotient of the two
logarithms in `double`, where it is rounded: when `records_per_buffer` is a power of
`num_of_buffers` the quotient may come out just above the exponent and its `ceil` one
higher than this value (for 125 blocks and 5 buffers, 4 where this is 3).
`main_with_passes` leaves the value open. -/
def get_num_passes (num_of_records num_of_buffers : Nat) : Int :=
  let records_per_buffer := get_num_blocks num_of_records num_of_buffers
  (get_num_passes.loop num_of_buffers records_per_buffer records_per_buffer 0 1 : Nat)

/-- The block sizes `pass0` computes before it sorts anything. -/
def pass0_block_sizes (num_of_records num_of_buffers : Nat) : List Nat :=
  let num_of_blocks := get_num_blocks num_of_records num_of_buffers
  let block_sizes := List.replicate num_of_blocks 0
  let block_sizes := (List.range (num_of_blocks - 1)).foldl
    (fun bs i => bs.set i num_of_buffers) block_sizes
  block_sizes.set (num_of_blocks - 1) (num_of_records % num_of_buffers)

/-- One iteration of the sorting loop of `pass0`, on the sorter and `start_record`. -/
def pass0_step (C : Cxx) (G : Globals) (block_sizes : List Nat)
    (acc : FileSorter × Nat) (i : Nat) : FileSorter × Nat :=
  let block_size := block_sizes.getD i 0
  let res := acc.1.TwoPassMergeSort_range C G acc.2 ((acc.2 : Int) + (block_size : Int) - 1)
  let sorter := if res.2 = 0 then res.1.perror (-4) else res.1
  (sorter, acc.2 + block_size)

/-- The function `pass0`: the block sizes it returns and the sorter at its end, whose
output file is `out_file`. `num_of_buffers` is the value of `sorter.GetBufferSize()`. -/
def pass0 (C : Cxx) (G : Globals) (in_file : List Record) (num_of_buffers : Nat) :
    List Nat × FileSorter :=
  let sorter := FileSorter.ctor in_file num_of_buffers G.SORTING_ORDER
  let num_of_records := sorter.GetNumRecords
  let num_of_blocks := get_num_blocks num_of_records num_of_buffers
  let block_sizes := pass0_block_sizes num_of_records num_of_buffers
  let fin := (List.range num_of_blocks).foldl (pass0_step C G block_sizes) (sorter, 0)
  (block_sizes, fin.1)

/-- The function `merge_blocks`: the size it returns and the sorter afterwards. -/
def merge_blocks (C : Cxx) (G : Globals) (sorter : FileSorter) (block_sizes : List Nat)
    (start_block num_of_blocks_to_merge : Nat) : Nat × FileSorter :=
  let start_record := (List.range start_block).foldl
    (fun acc i => acc + block_sizes.getD i 0) 0
  let end_record := (List.range' start_block num_of_blocks_to_merge).foldl
    (fun acc i => acc + block_sizes.getD i 0) start_record
  let res := sorter.TwoPassMergeSort_merge C G start_block block_sizes
    num_of_blocks_to_merge start_record end_record
  let sorter := if res.2 = 0 then res.1.perror (-4) else res.1
  (end_record - start_record, sorter)

/-- The check `if (!sorted) sorter.perror(-4);` that `merge_blocks` and `pass0` make on
the result code `sorted` of a sort step. -/
def sort_step_check (sorter : FileSorter) (sorted : Int) : FileSorter :=
  if sorted = 0 then sorter.perror (-4) else sorter

/-- The locals the loop of `pass` carries. -/
structure PassState where
  sorter : FileSorter
  new_block_sizes : List Nat
  num_of_blocks : Nat
  start_block : Nat
deriving DecidableEq

/-- One iteration of the loop of `pass`. -/
def pass_step (C : Cxx) (G : Globals) (block_sizes : List Nat) (num_of_buffers : Nat)
    (st : PassState) (i : Nat) : PassState :=
  let n := min st.num_of_blocks num_of_buffers
  let merged := merge_blocks C G st.sorter block_sizes st.start_block n
  { sorter := merged.2, new_block_sizes := st.new_block_sizes.set i merged.1,
    num_of_blocks := st.num_of_blocks - n, start_block := st.start_block + n }

/-- The function `pass`: the new block sizes and the sorter at its end, whose output
file is `out_file`. `num_of_buffers` is the value of `sorter.GetBufferSize()`. -/
def pass (C : Cxx) (G : Globals) (in_file : List Record) (num_of_buffers : Nat)
    (block_sizes : List Nat) : List Nat × FileSorter :=
  let sorter := FileSorter.ctor in_file num_of_buffers G.SORTING_ORDER
  let num_of_blocks := block_sizes.length
  let num_of_new_blocks := get_num_blocks num_of_blocks num_of_buffers
  let st0 : PassState :=
    { sorter := sorter, new_block_sizes := List.replicate num_of_new_blocks 0,
      num_of_blocks := num_of_blocks, start_block := 0 }
  let fin := (List.range num_of_new_blocks).foldl (pass_step C G block_sizes num_of_buffers) st0
  (fin.new_block_sizes, fin.sorter)

/-- The loop of `main` over the intermediate passes: with `n` iterations left, from the
file `tmp_file_name` names and the current block sizes. -/
def main_loop (C : Cxx) (G : Globals) (num_of_buffers : Nat) :
    Nat → List Record → List Nat → List Record × List Nat
  | 0, tmp_file, block_sizes => (tmp_file, block_sizes)
  | n + 1, tmp_file, block_sizes =>
    let res := pass C G tmp_file num_of_buffers block_sizes
    main_loop C G num_of_buffers n res.2.m_h_outfile res.1

/-- The function `main` after its argument parsing, for the buffer size `num_of_buffers`
that `GetBufferSize()` yields: the block sizes of the last pass and the file left at
`out_file_name`. -/
def main (C : Cxx) (G : Globals) (in_file : List Record) (num_of_buffers : Nat) :
    List Nat × List Record :=
  let p0 := pass0 C G in_file num_of_buffers
  let num_of_records := p0.2.GetNumRecords
  let num_of_passes := get_num_passes num_of_records num_of_buffers
  let mid := main_loop C G num_of_buffers (num_of_passes - 1).toNat p0.2.m_h_outfile p0.1
  let res := pass C G mid.1 num_of_buffers mid.2
  (res.1, res.2.m_h_outfile)

/-- The function `main` from the call of `get_num_passes` on, for the value
`num_of_passes` that this call returned, whatever the `double` arithmetic made it. -/
def main_with_passes (C : Cxx) (G : Globals) (in_file : List Record) (num_of_buffers : Nat)
    (num_of_passes : Int) : List Nat × List Record :=
  let p0 := pass0 C G in_file num_of_buffers
  let mid := main_loop C G num_of_buffers (num_of_passes - 1).toNat p0.2.m_h_outfile p0.1
  let res := pass C G mid.1 num_of_buffers mid.2
  (res.1, res.2.m_h_outfile)

/-! ## A reference toolchain -/

/-- An insertion sort that meets the contract of `std::sort`. -/
def refSort (comp : Record → Record → Bool) (l : List Record) : List Record :=
  l.insertionSort (fun a b => comp b a = false)

/-- A `push` that keeps the vector ordered with the `comp`-greatest element in front. -/
def refPush (comp : RecWithBlockIndex → RecWithBlockIndex → Bool)
    (c : List RecWithBlockIndex) (x : RecWithBlockIndex) : List RecWithBlockIndex :=
  c.orderedInsert (fun a b => comp a b = false) x

/-- A `pop` for `refPush`: drops the front element. -/
def refPop (_comp : RecWithBlockIndex → RecWithBlockIndex → Bool)
    (c : List RecWithBlockIndex) : List RecWithBlockIndex :=
  c.tail

/-- A conforming toolchain, for a given `char` signedness and a given content of
records read past the end of a file. -/
def refCxx (char_signed : Bool) (garbage : Record) : Cxx :=
  { char_signed := char_signed, uninit := fun _ => garbage, sort := refSort,
    pq_push := refPush, pq_pop := refPop }

/-! ## Sample data -/

/-- A conforming toolchain with signed `char`, as on x86-64 Linux. -/
def demoCxx : Cxx := refCxx true ⟨[0, 0]⟩

/-- Two-byte records with a one-byte key, ascending order. -/
def demoGlobals : Globals := { KEY_SIZE := 1, SIZE_OF_REC := 2, SORTING_ORDER := 1 }

/-- The two-byte record with key byte `k` and a newline as payload. -/
def demoRecord (k : Nat) : Record := ⟨[Fin.ofNat k, newline]⟩

/-- A file of the records with the given key bytes. -/
def demoFile (keys : List Nat) : List Record := keys.map demoRecord

/-- Eight-byte records with a four-byte key, ascending order. -/
def fiveGlobals : Globals := { KEY_SIZE := 4, SIZE_OF_REC := 8, SORTING_ORDER := 1 }

/-- The eight-byte record with the key bytes `0 0 0 k` and the payload `tag`, two blanks
and a newline. -/
def fiveRecord (k tag : Nat) : Record :=
  ⟨[0, 0, 0, Fin.ofNat k, Fin.ofNat tag, 32, 32, newline]⟩

/-- A file of five such records with the keys 3, 1, 4, 1, 5. -/
def fiveFile : List Record :=
  [fiveRecord 3 97, fiveRecord 1 98, fiveRecord 4 99, fiveRecord 1 100, fiveRecord 5 101]

/-- Three-byte records with a one-byte key, ascending order. -/
def tieGlobals : Globals := { KEY_SIZE := 1, SIZE_OF_REC := 3, SORTING_ORDER := 1 }

/-- The three-byte record with key byte `k`, payload byte `tag` and a newline. -/
def tieRecord (k tag : Nat) : Record := ⟨[Fin.ofNat k, Fin.ofNat tag, newline]⟩
/-! ## Vocabulary of the statements -/

/-- The position of the first record of block `b`: the sum of the sizes before it. -/
def blockStart (block_sizes : List Nat) (b : Nat) : Nat :=
  (block_sizes.take b).sum

/-- The record `ReadRecord(p)` yields on input file `inp`. -/
def recordAt (C : Cxx) (inp : List Record) (p : Nat) : Record :=
  inp.getD p (C.uninit p)

/-- That `a` may stand before `b` in a file sorted for `order`: `b` is not `<` `a` when
`order` is `1` (ascending), `a` is not `<` `b` otherwise (descending). -/
def ordLe (C : Cxx) (G : Globals) (order : Int) (a b : Record) : Bool :=
  if order = 1 then !Record.lt C G b a else !Record.lt C G a b

/-- The `k`-th record of block `b` of the input file. -/
def blockRecord (C : Cxx) (inp : List Record) (block_sizes : List Nat) (b k : Nat) : Record :=
  recordAt C inp (blockStart block_sizes b + k)

/-- The records of block `b` of the input file, in file order. -/
def blockRecords (C : Cxx) (inp : List Record) (block_sizes : List Nat) (b : Nat) :
    List Record :=
  (List.range (block_sizes.getD b 0)).map (blockRecord C inp block_sizes b)

/-- What the buffer holds for block `b` once `k` of its records have been written: its
next record, tagged `b`, if it has one left. -/
def blockHead (C : Cxx) (inp : List Record) (block_sizes : List Nat) (b k : Nat) :
    Multiset RecWithBlockIndex :=
  if k < block_sizes.getD b 0 then {⟨blockRecord C inp block_sizes b k, b⟩} else 0

/-- The state of the merge loop after some iterations, for the blocks
`start_block .. start_block + n - 1` of input `inp`: `popped b` records of block `b` have
been written, and `W` is what positions `start_record ..` of the output now hold. -/
structure MergeInv (C : Cxx) (G : Globals) (inv : List RecWithBlockIndex → Prop)
    (inp : List Record) (order : Int) (block_sizes : List Nat) (start_block n : Nat)
    (start_record : Nat) (st : MergeState) (popped : Nat → Nat) (W : List Record) : Prop where
  not_failed : st.failed = false
  order_eq : st.buffer.m_sorting_order = order
  cap_eq : st.buffer.m_max_size = n
  inp_eq : st.sorter.m_h_inpfile = inp
  heap_inv : inv st.buffer.active
  heap_eq : (st.buffer.active : Multiset RecWithBlockIndex) =
    ∑ b in Finset.Ico start_block (start_block + n),
      blockHead C inp block_sizes b (popped b)
  counts_eq : ∀ b, start_block ≤ b → b < start_block + n →
    st.current_block_record_indices.getD b 0 = min (popped b + 1) (block_sizes.getD b 0)
  counts_len : st.current_block_record_indices.length = block_sizes.length
  popped_le : ∀ b, start_block ≤ b → b < start_block + n → popped b ≤ block_sizes.getD b 0
  cur_eq : st.current_record = start_record +
    ∑ b in Finset.Ico start_block (start_block + n), popped b
  out_eq : ∀ t, t < W.length → st.sorter.m_h_outfile[start_record + t]? = W[t]?
  len_eq : W.length = st.current_record - start_record
  written : (W : Multiset Record) =
    ∑ b in Finset.Ico start_block (start_block + n),
      (((blockRecords C inp block_sizes b).take (popped b) : List Record) : Multiset Record)
  sorted : (∀ b, start_block ≤ b → b < start_block + n → ∀ k1 k2, k1 < k2 →
      k2 < block_sizes.getD b 0 →
      ordLe C G order (blockRecord C inp block_sizes b k1)
        (blockRecord C inp block_sizes b k2) = true) →
    W.Pairwise (fun a b => ordLe C G order a b = true) ∧
    ∀ w ∈ W, ∀ b, start_block ≤ b → b < start_block + n → ∀ k, popped b ≤ k →
      k < block_sizes.getD b 0 →
      ordLe C G order w (blockRecord C inp block_sizes b k) = true

/-- The state of the loop that fills the buffer once blocks
`start_block .. start_block + i - 1` have been seeded. -/
structure SeedInv (C : Cxx) (inv : List RecWithBlockIndex → Prop)
    (inp out : List Record) (order : Int) (block_sizes : List Nat) (start_block n : Nat)
    (start_record : Nat) (i : Nat) (st : MergeState) : Prop where
  not_failed : st.failed = false
  order_eq : st.buffer.m_sorting_order = order
  cap_eq : st.buffer.m_max_size = n
  inp_eq : st.sorter.m_h_inpfile = inp
  out_eq : st.sorter.m_h_outfile = out
  heap_inv : inv st.buffer.active
  heap_eq : (st.buffer.active : Multiset RecWithBlockIndex) =
    ∑ b in Finset.Ico start_block (start_block + i),
      {(⟨blockRecord C inp block_sizes b 0, b⟩ : RecWithBlockIndex)}
  counts_len : st.current_block_record_indices.length = block_sizes.length
  counts_eq : ∀ b, st.current_block_record_indices.getD b 0 =
    if start_block ≤ b ∧ b < start_block + i then 1 else 0
  index_eq : st.record_index = blockStart block_sizes (start_block + i)
  cur_eq : st.current_record = start_record

/-- That sorter `t` differs from sorter `s` in its output file and trace at most. -/
structure SameConfig (s t : FileSorter) : Prop where
  inp_eq : t.m_h_inpfile = s.m_h_inpfile
  count_eq : t.m_lnrecords = s.m_lnrecords
  size_eq : t.m_buffer_size = s.m_buffer_size
  order_eq : t.m_sorting_order = s.m_sorting_order

/-- That `file` is made of the consecutive runs with sizes `block_sizes`: the sizes are
positive and add up to the length of the file, and every run is sorted for `order`. -/
structure RunFile (C : Cxx) (G : Globals) (order : Int) (file : List Record)
    (block_sizes : List Nat) : Prop where
  sum_eq : blockStart block_sizes block_sizes.length = file.length
  pos : ∀ b, b < block_sizes.length → 0 < block_sizes.getD b 0
  sorted : ∀ b, b < block_sizes.length →
    ((file.drop (blockStart block_sizes b)).take (block_sizes.getD b 0)).Pairwise
      (fun x y => ordLe C G order x y = true)

/-- The number of runs left after `t` merge passes over `runs` runs with buffer size
`num_of_buffers`. -/
def runsAfter (num_of_buffers : Nat) : Nat → Nat → Nat
  | 0, runs => runs
  | t + 1, runs => runsAfter num_of_buffers t (get_num_blocks runs num_of_buffers)


/-- That the buffer of merge state `st` has capacity `n` and the order `order`, that its
heap is one `push` and `pop` produce, holds at most `k` elements, each tagged with the
index of a block below `blocks`, and that no push has been refused. -/
structure BufferInv (inv : List RecWithBlockIndex → Prop) (order : Int) (n blocks k : Nat)
    (st : MergeState) : Prop where
  size_eq : st.buffer.m_max_size = n
  order_eq : st.buffer.m_sorting_order = order
  heap : inv st.buffer.active
  len_le : st.buffer.active.length ≤ k
  index_lt : ∀ x ∈ st.buffer.active, x.index < blocks
  ok : st.failed = false

/-! ## Accesses to the files and to the buffer -/

/-- The record index of a `ReadRecord` event. -/
def Event.readIndex : Event → Option Nat
  | Event.read index => some index
  | _ => none

/-- The record index of a `WriteRecord` event. -/
def Event.writeIndex : Event → Option Nat
  | Event.write index => some index
  | _ => none

/-- One iteration of the sorting loop of `pass0`, on `start_record` and the arguments
`(i, j)` of the calls `TwoPassMergeSort(i, j)` made so far. -/
def pass0_calls_step (block_sizes : List Nat) (acc : Nat × List (Nat × Int)) (i : Nat) :
    Nat × List (Nat × Int) :=
  let block_size := block_sizes.getD i 0
  (acc.1 + block_size, acc.2 ++ [(acc.1, (acc.1 : Int) + (block_size : Int) - 1)])

/-- The arguments `(i, j)` of the calls `TwoPassMergeSort(i, j)` that `pass0` makes, in
order. -/
def pass0_calls (num_of_records num_of_buffers : Nat) : List (Nat × Int) :=
  let num_of_blocks := get_num_blocks num_of_records num_of_buffers
  let block_sizes := pass0_block_sizes num_of_records num_of_buffers
  ((List.range num_of_blocks).foldl (pass0_calls_step block_sizes) (0, [])).2

/-- A step of the merging `TwoPassMergeSort` on its buffer: the `buffer.pop()` of a record
tagged `tag`, or the `ReadRecord(index)` of a record that is then pushed with tag `tag`. -/
inductive MergeAccess where
  | pop (tag : Nat)
  | read (index tag : Nat)
deriving DecidableEq

/-- The record index of a read. -/
def MergeAccess.readIndex : MergeAccess → Option Nat
  | MergeAccess.read index _ => some index
  | MergeAccess.pop _ => none

/-- The number of pops of records tagged `b` in a list of accesses. -/
def popCount (l : List MergeAccess) (b : Nat) : Nat :=
  l.countP (fun a => match a with
    | MergeAccess.pop tag => tag = b
    | MergeAccess.read _ _ => false)

/-- The number of reads of records tagged `b` in a list of accesses. -/
def readCount (l : List MergeAccess) (b : Nat) : Nat :=
  l.countP (fun a => match a with
    | MergeAccess.pop _ => false
    | MergeAccess.read _ tag => tag = b)

/-- The accesses of the seeding loop, in order: iteration `i` reads record `record_index`
and pushes it with tag `i + start_block`. -/
def FileSorter.seedAccesses (C : Cxx) (G : Globals) (start_block : Nat)
    (block_sizes : List Nat) : Nat → Nat → MergeState → List MergeAccess
  | 0, _, _ => []
  | n + 1, i, st =>
    let st1 := FileSorter.seedBody C G start_block block_sizes i st
    MergeAccess.read st.record_index (i + start_block) ::
      (if st1.failed = true then []
       else FileSorter.seedAccesses C G start_block block_sizes n (i + 1) st1)

/-- The accesses of one iteration of the merge loop with `r = buffer.top()`: the pop of
`r`, and the read of the next record of its block when that block has one left. -/
def FileSorter.mergeBodyAccesses (start_block : Nat) (block_sizes : List Nat)
    (start_record : Nat) (st : MergeState) (r : RecWithBlockIndex) : List MergeAccess :=
  let block_index := r.index
  let current_block_record_index := st.current_block_record_indices.getD block_index 0
  if current_block_record_index < block_sizes.getD block_index 0 then
    [MergeAccess.pop block_index,
      MergeAccess.read
        (FileSorter.GetRecordIndex start_block block_index block_sizes start_record
          current_block_record_index) block_index]
  else [MergeAccess.pop block_index]

/-- The accesses of the merge loop, in order. -/
def FileSorter.mergeAccesses (C : Cxx) (G : Globals) (start_block : Nat)
    (block_sizes : List Nat) (start_record end_record : Nat) :
    Nat → MergeState → List MergeAccess
  | 0, _ => []
  | fuel + 1, st =>
    if st.current_record < end_record ∧ st.buffer.empty = false then
      match st.buffer.top with
      | none => []
      | some r =>
        let st1 := FileSorter.mergeBody C G start_block block_sizes start_record st r
        FileSorter.mergeBodyAccesses start_block block_sizes start_record st r ++
          (if st1.failed = true then []
           else FileSorter.mergeAccesses C G start_block block_sizes start_record
            end_record fuel st1)
    else []

/-- The accesses of a run of the merging `TwoPassMergeSort` for two or more blocks: those
of the seeding loop, then those of the merge loop. -/
def FileSorter.mergeRunAccesses (C : Cxx) (G : Globals) (s : FileSorter) (start_block : Nat)
    (block_sizes : List Nat) (num_of_blocks_to_merge start_record end_record : Nat) :
    List MergeAccess :=
  let st0 : MergeState :=
    { sorter := s, buffer := Buffer.ctor num_of_blocks_to_merge s.m_sorting_order,
      current_block_record_indices := List.replicate block_sizes.length 0,
      record_index := start_record, current_record := start_record, failed := false }
  let st1 := FileSorter.seedLoop C G start_block block_sizes num_of_blocks_to_merge 0 st0
  FileSorter.seedAccesses C G start_block block_sizes num_of_blocks_to_merge 0 st0 ++
    (if st1.failed = true then []
     else FileSorter.mergeAccesses C G start_block block_sizes start_record end_record
      (end_record - start_record) st1)

/-- That sorter `t` comes from sorter `s` by reads, error messages and the writes of the
output positions `start, start + 1, .., start + w - 1` in this order: the trace grew by
these events, an output position outside this range holds what it held, and a position
that a write past the end of the file brought into being reads as zeros. -/
structure WriteInv (G : Globals) (s t : FileSorter) (start w : Nat) : Prop where
  trace_eq : ∃ T, t.trace = s.trace ++ T ∧ T.filterMap Event.writeIndex = List.range' start w
  length_eq : t.m_h_outfile.length =
    if w = 0 then s.m_h_outfile.length else max s.m_h_outfile.length (start + w)
  kept : ∀ p, p < s.m_h_outfile.length → (p < start ∨ start + w ≤ p) →
    t.m_h_outfile[p]? = s.m_h_outfile[p]?
  gap : ∀ p, s.m_h_outfile.length ≤ p → p < start → p < t.m_h_outfile.length →
    t.m_h_outfile[p]? = some (Record.zero G)

/-- The state of the merging `TwoPassMergeSort` after the accesses `log`, for the blocks
`start_block .. start_block + n - 1`: the buffer is in order (`BufferInv`), the counter of
block `b` is the number of reads tagged `b`, the buffer holds the records read and not
popped, at most one of a block, only blocks of the group were read, and every read tagged
`b` was made at the start of block `b` plus the number of pops tagged `b` before it, which
is also the number of reads tagged `b` before it and is below the size of block `b`.
`reads` are the record indices read before the call. -/
structure AccessInv (inv : List RecWithBlockIndex → Prop) (order : Int)
    (block_sizes : List Nat) (start_block n k : Nat) (reads : List Nat) (st : MergeState)
    (log : List MergeAccess) : Prop where
  buf : BufferInv inv order n block_sizes.length k st
  counts_len : st.current_block_record_indices.length = block_sizes.length
  counts_eq : ∀ b, st.current_block_record_indices.getD b 0 = readCount log b
  held : ∀ b, (st.buffer.active.map (fun x => x.index)).count b + popCount log b =
    readCount log b
  held_le : ∀ b, (st.buffer.active.map (fun x => x.index)).count b ≤ 1
  group : ∀ b, 0 < readCount log b → start_block ≤ b ∧ b < start_block + n
  log_ok : ∀ l1 index b l2, log = l1 ++ MergeAccess.read index b :: l2 →
    start_block ≤ b ∧ b < start_block + n ∧
    index = blockStart block_sizes b + popCount l1 b ∧
    popCount l1 b = readCount l1 b ∧ readCount l1 b < block_sizes.getD b 0
  reads_eq : st.sorter.trace.filterMap Event.readIndex =
    reads ++ log.filterMap MergeAccess.readIndex
/-! ## Order facts about the record comparison -/

theorem Record.ltLoop_irrefl (C : Cxx) (r : Record) (i n : Nat) :
    Record.ltLoop C r r i n = false := by
  induction n generalizing i with
  | zero => rfl
  | succ n ih => simp [Record.ltLoop, ih]

theorem Record.ltLoop_trans (C : Cxx) (a b c : Record) (i n : Nat)
    (hab : Record.ltLoop C a b i n = true) (hbc : Record.ltLoop C b c i n = true) :
    Record.ltLoop C a c i n = true := by
  induction n generalizing i with
  | zero => simp [Record.ltLoop] at hab
  | succ n ih =>
    simp only [Record.ltLoop] at hab hbc ⊢
    split_ifs at hab hbc ⊢ <;> first | rfl | omega | (exact ih _ hab hbc)

theorem Record.ltLoop_negtrans (C : Cxx) (a b c : Record) (i n : Nat)
    (hab : Record.ltLoop C a b i n = false) (hbc : Record.ltLoop C b c i n = false) :
    Record.ltLoop C a c i n = false := by
  induction n generalizing i with
  | zero => rfl
  | succ n ih =>
    simp only [Record.ltLoop] at hab hbc ⊢
    split_ifs at hab hbc ⊢ <;> first | rfl | omega | (exact ih _ hab hbc)

theorem Record.ltLoop_flip (C : Cxx) (a b : Record) (i n : Nat) :
    Record.ltLoop C b a i n = (!(Record.ltLoop C a b i n || Record.eqLoop C a b i n)) := by
  induction n generalizing i with
  | zero => simp [Record.ltLoop, Record.eqLoop]
  | succ n ih =>
    simp only [Record.ltLoop, Record.eqLoop, ih]
    split_ifs <;> first | rfl | omega

theorem Record.eqLoop_lt (C : Cxx) (a b : Record) (i n : Nat)
    (h : Record.eqLoop C a b i n = true) : Record.ltLoop C a b i n = false := by
  induction n generalizing i with
  | zero => rfl
  | succ n ih =>
    simp only [Record.ltLoop, Record.eqLoop] at h ⊢
    split_ifs at h ⊢ <;> first | rfl | omega | (exact ih _ h)


theorem Record.ltLoop_asymm (C : Cxx) (a b : Record) (i n : Nat)
    (h : Record.ltLoop C a b i n = true) : Record.ltLoop C b a i n = false := by
  rw [Record.ltLoop_flip, h]; rfl

theorem lex_cons_cons_iff (a b : Int) (l1 l2 : List Int) :
    List.Lex (· < ·) (a :: l1) (b :: l2) ↔ a < b ∨ (a = b ∧ List.Lex (· < ·) l1 l2) := by
  constructor
  · intro h
    cases h with
    | cons h => exact Or.inr ⟨rfl, h⟩
    | rel h => exact Or.inl h
  · rintro (h | ⟨rfl, h⟩)
    · exact List.Lex.rel h
    · exact List.Lex.cons h

theorem Record.ltLoop_iff_lex (C : Cxx) (r1 r2 : Record) (i n : Nat)
    (h1 : i + n ≤ r1.m_chdata.length) (h2 : i + n ≤ r2.m_chdata.length) :
    Record.ltLoop C r1 r2 i n = true ↔
      List.Lex (· < ·) (((r1.m_chdata.drop i).take n).map C.toChar)
        (((r2.m_chdata.drop i).take n).map C.toChar) := by
  induction n generalizing i with
  | zero => simp [Record.ltLoop, List.Lex.not_nil_right]
  | succ n ih =>
    have hi1 : i < r1.m_chdata.length := by omega
    have hi2 : i < r2.m_chdata.length := by omega
    rw [List.drop_eq_getElem_cons hi1, List.drop_eq_getElem_cons hi2]
    simp only [List.take_succ_cons, List.map_cons, Record.ltLoop, Record.index,
      List.getD_eq_getElem _ _ hi1, List.getD_eq_getElem _ _ hi2, lex_cons_cons_iff]
    have ih1 := ih (i + 1) (by omega) (by omega)
    split_ifs with hlt hgt
    · simp [hlt]
    · simp only [Bool.false_eq_true, false_iff]
      omega
    · rw [ih1]
      constructor
      · intro h; exact Or.inr ⟨by omega, h⟩
      · rintro (h | ⟨-, h⟩)
        · omega
        · exact h

/-- C9 as stated fails where `char` is signed: the record with the one-byte key `0x80` is
`<` the record with the key `0x00`, though `128` does not precede `0` as an unsigned
byte value. -/
theorem Record.lt_unsigned_lex_fails :
    ¬ (Record.lt (refCxx true ⟨[0, 0]⟩) ⟨1, 2, 1⟩ ⟨[0x80, 10]⟩ ⟨[0x00, 10]⟩ = true ↔
        List.Lex (· < ·) (Record.ukey ⟨1, 2, 1⟩ ⟨[0x80, 10]⟩)
          (Record.ukey ⟨1, 2, 1⟩ ⟨[0x00, 10]⟩)) := by
  decide

/-- C9, as amended: `r1 < r2` holds exactly when the first `KEY_SIZE` bytes of `r1`, read
as plain `char` values, precede those of `r2` lexicographically. Where `char` is unsigned
these are the byte values `0..255`; where it is signed a byte `0x80..0xFF` has the value
`byte - 256` and compares less than every byte `0x00..0x7F`. -/
theorem Record.lt_iff_lex_char (C : Cxx) (G : Globals) (r1 r2 : Record)
    (h1 : G.KEY_SIZE.toNat ≤ r1.m_chdata.length)
    (h2 : G.KEY_SIZE.toNat ≤ r2.m_chdata.length) :
    (Record.lt C G r1 r2 = true ↔
      List.Lex (· < ·) (Record.key C G r1) (Record.key C G r2)) ∧
    (C.char_signed = false → ∀ b : Byte, C.toChar b = (b.val : Int)) ∧
    (C.char_signed = true → ∀ b : Byte,
      C.toChar b = if b.val < 128 then (b.val : Int) else (b.val : Int) - 256) := by
  refine ⟨?_, ?_, ?_⟩
  · have h := Record.ltLoop_iff_lex C r1 r2 0 G.KEY_SIZE.toNat (by omega) (by omega)
    simpa [Record.lt, Record.key] using h
  · intro hs b
    simp [Cxx.toChar, hs]
  · intro hs b
    simp only [Cxx.toChar, hs, true_and]
    split_ifs <;> first | rfl | omega

theorem Record.lt_iff_lex_char_witness :
    (Record.lt (refCxx true ⟨[0, 0]⟩) ⟨1, 2, 1⟩ ⟨[0x80, 10]⟩ ⟨[0x00, 10]⟩ = true ↔
      List.Lex (· < ·) (Record.key (refCxx true ⟨[0, 0]⟩) ⟨1, 2, 1⟩ ⟨[0x80, 10]⟩)
        (Record.key (refCxx true ⟨[0, 0]⟩) ⟨1, 2, 1⟩ ⟨[0x00, 10]⟩)) :=
  (Record.lt_iff_lex_char (refCxx true ⟨[0, 0]⟩) ⟨1, 2, 1⟩ ⟨[0x80, 10]⟩ ⟨[0x00, 10]⟩
    (by decide) (by decide)).1

/-- C10: `operator<` is irreflexive and transitive, incomparability under it is
transitive, exactly one of `r1 < r2`, `r1 == r2`, `r1 > r2` holds, `r1 > r2` holds iff
`r2 < r1`, and records that compare equal are neither `<` nor `>`. -/
theorem Record.strict_weak_order (C : Cxx) (G : Globals) (r1 r2 r3 : Record) :
    Record.lt C G r1 r1 = false ∧
    (Record.lt C G r1 r2 = true → Record.lt C G r2 r3 = true →
      Record.lt C G r1 r3 = true) ∧
    (Record.lt C G r1 r2 = false → Record.lt C G r2 r3 = false →
      Record.lt C G r1 r3 = false) ∧
    ((Record.lt C G r1 r2 = true ∧ Record.eq C G r1 r2 = false ∧
        Record.gt C G r1 r2 = false) ∨
      (Record.lt C G r1 r2 = false ∧ Record.eq C G r1 r2 = true ∧
        Record.gt C G r1 r2 = false) ∨
      (Record.lt C G r1 r2 = false ∧ Record.eq C G r1 r2 = false ∧
        Record.gt C G r1 r2 = true)) ∧
    (Record.gt C G r1 r2 = true ↔ Record.lt C G r2 r1 = true) ∧
    (Record.eq C G r1 r2 = true →
      Record.lt C G r1 r2 = false ∧ Record.gt C G r1 r2 = false) := by
  have hflip : Record.gt C G r1 r2 = Record.lt C G r2 r1 := by
    simp only [Record.gt, Record.lt, Record.eq, Record.ltLoop_flip C r1 r2]
  have heq : Record.eq C G r1 r2 = true → Record.lt C G r1 r2 = false :=
    fun h => Record.eqLoop_lt C r1 r2 _ _ h
  refine ⟨Record.ltLoop_irrefl C r1 _ _, Record.ltLoop_trans C r1 r2 r3 _ _,
    Record.ltLoop_negtrans C r1 r2 r3 _ _, ?_, by rw [hflip], ?_⟩
  · simp only [Record.gt] at hflip ⊢
    cases hl : Record.lt C G r1 r2 <;> cases he : Record.eq C G r1 r2 <;> simp_all
  · intro h
    simp [Record.gt, h, heq h]

/-! ## The reference toolchain conforms -/

theorem Record.gt_eq_lt_flip (C : Cxx) (G : Globals) (a b : Record) :
    Record.gt C G a b = Record.lt C G b a := by
  simp only [Record.gt, Record.lt, Record.eq, Record.ltLoop_flip C a b]

theorem Record.lt_asymm (C : Cxx) (G : Globals) (a b : Record)
    (h : Record.lt C G a b = true) : Record.lt C G b a = false :=
  Record.ltLoop_asymm C a b _ _ h

theorem Record.lt_negtrans (C : Cxx) (G : Globals) (a b c : Record)
    (hab : Record.lt C G a b = false) (hbc : Record.lt C G b c = false) :
    Record.lt C G a c = false :=
  Record.ltLoop_negtrans C a b c _ _ hab hbc

theorem Record.lt_total (C : Cxx) (G : Globals) (a b : Record) :
    Record.lt C G a b = false ∨ Record.lt C G b a = false := by
  cases h : Record.lt C G a b
  · exact Or.inl rfl
  · exact Or.inr (Record.lt_asymm C G a b h)

theorem refSort_lawful {comp : Record → Record → Bool}
    (htot : ∀ a b, comp a b = false ∨ comp b a = false)
    (hneg : ∀ a b c, comp a b = false → comp b c = false → comp a c = false)
    (l : List Record) :
    (refSort comp l).Perm l ∧ (refSort comp l).Pairwise (fun a b => comp b a = false) := by
  haveI : IsTotal Record (fun a b => comp b a = false) := ⟨fun a b => htot b a⟩
  haveI : IsTrans Record (fun a b => comp b a = false) :=
    ⟨fun a b c hab hbc => hneg c b a hbc hab⟩
  exact ⟨List.perm_insertionSort _ l, List.sorted_insertionSort _ l⟩

theorem refPQ_lawful (s : Bool) (g : Record)
    {comp : RecWithBlockIndex → RecWithBlockIndex → Bool}
    (htot : ∀ a b, comp a b = false ∨ comp b a = false)
    (hneg : ∀ a b c, comp a b = false → comp b c = false → comp a c = false) :
    PQLawful (refCxx s g) comp (fun c => c.Sorted (fun a b => comp a b = false)) := by
  haveI : IsTotal RecWithBlockIndex (fun a b => comp a b = false) := ⟨htot⟩
  haveI : IsTrans RecWithBlockIndex (fun a b => comp a b = false) := ⟨hneg⟩
  exact
    { inv_nil := List.sorted_nil
      push_inv := fun c x hc => List.Sorted.orderedInsert x c hc
      push_perm := fun c x _ => List.perm_orderedInsert _ x c
      top_max := fun t c hc x hx => List.rel_of_sorted_cons hc x hx
      pop_inv := fun t c hc => List.Sorted.of_cons hc
      pop_perm := fun t c _ => List.Perm.refl c }

theorem refCxx_conforms (s : Bool) (g : Record) (G : Globals) : (refCxx s g).Conforms G where
  sort_lt := fun l => refSort_lawful (Record.lt_total _ G)
    (Record.lt_negtrans _ G) l
  sort_gt := fun l => refSort_lawful
    (fun a b => by
      rw [Record.gt_eq_lt_flip, Record.gt_eq_lt_flip]; exact Record.lt_total _ G b a)
    (fun a b c hab hbc => by
      rw [Record.gt_eq_lt_flip] at hab hbc ⊢
      exact Record.lt_negtrans _ G c b a hbc hab) l
  pq_gt := ⟨_, refPQ_lawful s g
    (fun a b => by
      simp only [RecWithBlockIndex.gt, Record.gt_eq_lt_flip]
      exact Record.lt_total _ G b.value a.value)
    (fun a b c hab hbc => by
      simp only [RecWithBlockIndex.gt, Record.gt_eq_lt_flip] at hab hbc ⊢
      exact Record.lt_negtrans _ G c.value b.value a.value hbc hab)⟩
  pq_lt := ⟨_, refPQ_lawful s g
    (fun a b => Record.lt_total _ G a.value b.value)
    (fun a b c hab hbc => Record.lt_negtrans _ G a.value b.value c.value hab hbc)⟩

/-! ## Block sizes of pass 0 -/

theorem foldl_set_replicate (B n m : Nat) (h : m ≤ n) :
    (List.range m).foldl (fun bs i => bs.set i B) (List.replicate n 0) =
      List.replicate m B ++ List.replicate (n - m) 0 := by
  induction m with
  | zero => simp
  | succ m ih =>
    rw [List.range_succ, List.foldl_append, ih (by omega)]
    simp only [List.foldl_cons, List.foldl_nil]
    have h1 : n - m = (n - (m + 1)) + 1 := by omega
    rw [h1, List.replicate_succ, List.set_append_right _ _ (by simp)]
    simp [List.replicate_succ', List.append_assoc]

theorem pass0_block_sizes_eq (N B : Nat) (h : 0 < get_num_blocks N B) :
    pass0_block_sizes N B = List.replicate (get_num_blocks N B - 1) B ++ [N % B] := by
  unfold pass0_block_sizes
  simp only
  rw [foldl_set_replicate B _ _ (by omega)]
  have h1 : get_num_blocks N B - (get_num_blocks N B - 1) = 1 := by omega
  rw [h1, List.set_append_right _ _ (by simp)]
  simp

theorem get_num_blocks_remainder (B k r : Nat) (hr : 0 < r) (hrB : r < B) :
    get_num_blocks (k * B + r) B = k + 1 := by
  unfold get_num_blocks
  apply Nat.div_eq_of_lt_le
  · rw [Nat.succ_mul]; omega
  · rw [Nat.succ_mul, Nat.succ_mul]; omega

theorem get_num_blocks_divisible (B k : Nat) (hB : 0 < B) :
    get_num_blocks (k * B) B = k := by
  unfold get_num_blocks
  apply Nat.div_eq_of_lt_le
  · omega
  · rw [Nat.succ_mul]; omega

theorem pass0_block_sizes_rem_eq (N B k r : Nat) (hN : N = k * B + r)
    (hr : 0 < r) (hrB : r < B) :
    pass0_block_sizes N B = List.replicate k B ++ [r] := by
  have hnb := get_num_blocks_remainder B k r hr hrB
  have hmod : (k * B + r) % B = r := by
    rw [Nat.add_comm, Nat.add_mul_mod_self_right, Nat.mod_eq_of_lt hrB]
  rw [hN, pass0_block_sizes_eq _ _ (by omega), hnb, hmod]
  simp

theorem pass0_block_sizes_divisible (C : Cxx) (G : Globals) (in_file : List Record)
    (B k : Nat) (hN : CountRecords (fileBytes in_file) = (k + 1) * B) (hB : 0 < B) :
    (pass0 C G in_file B).1 = List.replicate k B ++ [0] := by
  simp only [pass0, FileSorter.GetNumRecords, FileSorter.ctor, hN]
  rw [pass0_block_sizes_eq _ _ (by rw [get_num_blocks_divisible _ _ hB]; omega),
    get_num_blocks_divisible _ _ hB, Nat.mul_mod_left]
  simp

/-- C5, the code at a divisible record count: six newline-terminated records and a
buffer of three give the block sizes `[3, 0]`; the last block has size `0`, not `3`. -/
theorem pass0_divisible_last_block_zero (C : Cxx) :
    (pass0 C ⟨1, 2, 1⟩
      [⟨[3, 10]⟩, ⟨[1, 10]⟩, ⟨[4, 10]⟩, ⟨[1, 10]⟩, ⟨[5, 10]⟩, ⟨[9, 10]⟩] 3).1 = [3, 0] := by
  rfl

/-- C6: when the record count is `k * B + r` with `0 < r < B`, `pass0` returns `k`
entries `B` followed by one entry `r`; the list has `ceil(N / B) = k + 1` entries and they
sum to the record count. -/
theorem pass0_block_sizes_remainder (C : Cxx) (G : Globals) (in_file : List Record)
    (B k r : Nat) (hN : CountRecords (fileBytes in_file) = k * B + r)
    (hr : 0 < r) (hrB : r < B) :
    (pass0 C G in_file B).1 = List.replicate k B ++ [r] ∧
    (pass0 C G in_file B).1.length = k + 1 ∧
    ⌈((k * B + r : Nat) : ℚ) / (B : ℚ)⌉₊ = k + 1 ∧
    (pass0 C G in_file B).1.sum = k * B + r := by
  have hlist : (pass0 C G in_file B).1 = List.replicate k B ++ [r] :=
    pass0_block_sizes_rem_eq _ B k r hN hr hrB
  refine ⟨hlist, by simp [hlist], ?_, by simp [hlist]⟩
  have hB : (0 : ℚ) < (B : ℚ) := by exact_mod_cast (by omega : 0 < B)
  rw [Nat.ceil_eq_iff (by omega)]
  constructor
  · rw [lt_div_iff₀ hB]
    have : (0 : ℚ) < (r : ℚ) := by exact_mod_cast hr
    simp only [Nat.add_sub_cancel, Nat.cast_add, Nat.cast_mul]
    linarith
  · rw [div_le_iff₀ hB]
    push_cast
    have : (r : ℚ) < (B : ℚ) := by exact_mod_cast hrB
    linarith

theorem pass0_block_sizes_remainder_witness :
    (pass0 (refCxx true ⟨[0, 0]⟩) ⟨1, 2, 1⟩
      [⟨[3, 10]⟩, ⟨[1, 10]⟩, ⟨[4, 10]⟩, ⟨[1, 10]⟩, ⟨[5, 10]⟩, ⟨[9, 10]⟩, ⟨[2, 10]⟩,
        ⟨[6, 10]⟩, ⟨[5, 10]⟩, ⟨[3, 10]⟩] 3).1 = [3, 3, 3, 1] :=
  (pass0_block_sizes_remainder (refCxx true ⟨[0, 0]⟩) ⟨1, 2, 1⟩
    [⟨[3, 10]⟩, ⟨[1, 10]⟩, ⟨[4, 10]⟩, ⟨[1, 10]⟩, ⟨[5, 10]⟩, ⟨[9, 10]⟩, ⟨[2, 10]⟩,
      ⟨[6, 10]⟩, ⟨[5, 10]⟩, ⟨[3, 10]⟩] 3 3 1 (by decide) (by decide) (by decide)).1

/-! ## File writes -/

theorem writeAt_getElem?_self (G : Globals) (f : List Record) (index : Nat) (v : Record) :
    (writeAt G f index v)[index]? = some v := by
  unfold writeAt
  split_ifs with h
  · simp [List.getElem?_set, h]
  · rw [List.getElem?_append_right (by simp; omega)]
    have : index - (f ++ List.replicate (index - f.length) (Record.zero G)).length = 0 := by
      simp; omega
    rw [this]; rfl

theorem writeAt_getElem?_keep (G : Globals) (f : List Record) (index p : Nat) (v x : Record)
    (hp : p ≠ index) (hx : f[p]? = some x) : (writeAt G f index v)[p]? = some x := by
  have hlen : p < f.length := by
    rcases List.getElem?_eq_some.1 hx with ⟨h, -⟩
    exact h
  unfold writeAt
  split_ifs with h
  · rw [List.getElem?_set_ne (Ne.symm hp)]; exact hx
  · rw [List.append_assoc, List.getElem?_append_left hlen]; exact hx

theorem writeAt_length (G : Globals) (f : List Record) (index : Nat) (v : Record) :
    (writeAt G f index v).length = max f.length (index + 1) := by
  unfold writeAt
  split_ifs with h
  · simp; omega
  · simp; omega

theorem writeAt_getElem?_other (G : Globals) (f : List Record) (index p : Nat) (v : Record)
    (hp : p ≠ index) (hlen : p < f.length) : (writeAt G f index v)[p]? = f[p]? := by
  unfold writeAt
  split_ifs with h
  · rw [List.getElem?_set_ne (Ne.symm hp)]
  · rw [List.append_assoc, List.getElem?_append_left hlen]

theorem drop_take_eq_of_getElem? {l w : List Record} {i n : Nat} (hw : w.length = n)
    (h : ∀ t, t < n → l[i + t]? = w[t]?) : (l.drop i).take n = w := by
  apply List.ext_getElem?
  intro t
  rw [List.getElem?_take]
  split_ifs with ht
  · rw [List.getElem?_drop]; exact h t ht
  · rw [List.getElem?_eq_none (by omega)]

/-! ## The range overload of TwoPassMergeSort -/

@[simp] theorem FileSorter.ReadRecord_fst (C : Cxx) (s : FileSorter) (index : Nat) :
    (s.ReadRecord C index).1 = s.m_h_inpfile.getD index (C.uninit index) := rfl

@[simp] theorem FileSorter.ReadRecord_inp (C : Cxx) (s : FileSorter) (index : Nat) :
    (s.ReadRecord C index).2.m_h_inpfile = s.m_h_inpfile := rfl

@[simp] theorem FileSorter.ReadRecord_out (C : Cxx) (s : FileSorter) (index : Nat) :
    (s.ReadRecord C index).2.m_h_outfile = s.m_h_outfile := rfl

@[simp] theorem FileSorter.ReadRecord_order (C : Cxx) (s : FileSorter) (index : Nat) :
    (s.ReadRecord C index).2.m_sorting_order = s.m_sorting_order := rfl

@[simp] theorem FileSorter.WriteRecord_inp (G : Globals) (s : FileSorter) (index : Nat)
    (v : Record) : (s.WriteRecord G index v).m_h_inpfile = s.m_h_inpfile := rfl

@[simp] theorem FileSorter.WriteRecord_out (G : Globals) (s : FileSorter) (index : Nat)
    (v : Record) :
    (s.WriteRecord G index v).m_h_outfile = writeAt G s.m_h_outfile index v := rfl

@[simp] theorem FileSorter.WriteRecord_order (G : Globals) (s : FileSorter) (index : Nat)
    (v : Record) : (s.WriteRecord G index v).m_sorting_order = s.m_sorting_order := rfl

theorem take_succ_set_self (l : List Record) (k : Nat) (a : Record) (hk : k < l.length) :
    (l.set k a).take (k + 1) = l.take k ++ [a] := by
  apply List.ext_getElem?
  intro t
  rw [List.getElem?_take]
  by_cases h1 : t < k
  · rw [if_pos (by omega), List.getElem?_set_ne (by omega),
      List.getElem?_append_left (by simp; omega), List.getElem?_take, if_pos h1]
  · by_cases h2 : t = k
    · subst h2
      rw [if_pos (by omega), List.getElem?_set_self hk,
        List.getElem?_append_right (by simp)]
      simp [Nat.min_eq_left (Nat.le_of_lt hk)]
    · rw [if_neg (by omega), List.getElem?_eq_none (by simp; omega)]

theorem FileSorter.readLoop_spec (C : Cxx) (n cur k : Nat) (s : FileSorter)
    (buffer : List Record) (hk : k + n ≤ buffer.length)
    (hin : cur + n ≤ s.m_h_inpfile.length) :
    (FileSorter.readLoop C n cur k s buffer).2 =
        buffer.take k ++ (s.m_h_inpfile.drop cur).take n ++ buffer.drop (k + n) ∧
      (FileSorter.readLoop C n cur k s buffer).1.m_h_outfile = s.m_h_outfile := by
  induction n generalizing cur k s buffer with
  | zero => simp [FileSorter.readLoop]
  | succ n ih =>
    have hcur : cur < s.m_h_inpfile.length := by omega
    have hkl : k < buffer.length := by omega
    simp only [FileSorter.readLoop]
    obtain ⟨h1, h2⟩ := ih (cur + 1) (k + 1) (s.ReadRecord C cur).2
      (buffer.set k (s.ReadRecord C cur).1) (by simp; omega) (by simp; omega)
    rw [h1, h2]
    refine ⟨?_, rfl⟩
    simp only [FileSorter.ReadRecord_fst, FileSorter.ReadRecord_inp,
      List.getD_eq_getElem _ _ hcur]
    rw [List.drop_eq_getElem_cons hcur, List.take_succ_cons]
    have e1 : (buffer.set k s.m_h_inpfile[cur]).take (k + 1) =
        buffer.take k ++ [s.m_h_inpfile[cur]] := take_succ_set_self buffer k _ hkl
    have e2 : (buffer.set k s.m_h_inpfile[cur]).drop (k + 1 + n) = buffer.drop (k + (n + 1)) := by
      rw [List.drop_set_of_lt _ _ (by omega)]
      congr 1; omega
    rw [e1, e2]
    simp

theorem FileSorter.writeLoop_spec (G : Globals) (i : Nat) (buffer : List Record)
    (n cur : Nat) (s : FileSorter) :
    (∀ t, t < n → (FileSorter.writeLoop G i buffer n cur s).m_h_outfile[cur + t]? =
        some (buffer.getD (cur + t - i) (Record.zero G))) ∧
    (∀ p x, p < cur → s.m_h_outfile[p]? = some x →
        (FileSorter.writeLoop G i buffer n cur s).m_h_outfile[p]? = some x) := by
  induction n generalizing cur s with
  | zero => simp [FileSorter.writeLoop]
  | succ n ih =>
    simp only [FileSorter.writeLoop]
    obtain ⟨h1, h2⟩ := ih (cur + 1)
      (s.WriteRecord G cur (buffer.getD (cur - i) (Record.zero G)))
    constructor
    · intro t ht
      cases t with
      | zero =>
        exact h2 cur _ (by omega) (by simp [writeAt_getElem?_self])
      | succ t =>
        have := h1 t (by omega)
        rw [show cur + (t + 1) = cur + 1 + t by omega]
        exact this
    · intro p x hp hx
      exact h2 p x (by omega) (by
        simp only [FileSorter.WriteRecord_out]
        exact writeAt_getElem?_keep G _ _ _ _ _ (by omega) hx)

theorem Cxx.Conforms.sort_comp {C : Cxx} {G : Globals} (hC : C.Conforms G) (order : Int) :
    SortLawful C (if order = 1 then Record.lt C G else Record.gt C G) := by
  split_ifs
  · exact hC.sort_lt
  · exact hC.sort_gt

theorem FileSorter.TwoPassMergeSort_range_out (C : Cxx) (G : Globals) (hC : C.Conforms G)
    (s : FileSorter) (i n : Nat) (j : Int) (hn : (j - (i : Int) + 1).toNat = n)
    (hB : n ≤ s.m_buffer_size) (hin : i + n ≤ s.m_h_inpfile.length) :
    ((s.TwoPassMergeSort_range C G i j).1.m_h_outfile.drop i).take n =
      C.sort (if s.m_sorting_order = 1 then Record.lt C G else Record.gt C G)
        ((s.m_h_inpfile.drop i).take n) := by
  obtain ⟨hr, -⟩ := FileSorter.readLoop_spec C n i 0 s
    (List.replicate s.m_buffer_size (Record.zero G)) (by simpa using hB) hin
  have hRlen : ((s.m_h_inpfile.drop i).take n).length = n := by
    rw [List.length_take, List.length_drop]; omega
  have htake : (FileSorter.readLoop C n i 0 s
      (List.replicate s.m_buffer_size (Record.zero G))).2.take n =
      (s.m_h_inpfile.drop i).take n := by
    rw [hr]
    simp only [List.take_zero, List.nil_append, Nat.zero_add]
    rw [List.take_append_of_le_length (by omega), List.take_of_length_le (by omega)]
  have hSlen : (C.sort (if s.m_sorting_order = 1 then Record.lt C G else Record.gt C G)
      ((s.m_h_inpfile.drop i).take n)).length = n := by
    rw [((hC.sort_comp s.m_sorting_order) _).1.length_eq]; exact hRlen
  have hbuf : (if s.m_sorting_order = 1 then
        C.sort (Record.lt C G) ((FileSorter.readLoop C n i 0 s
          (List.replicate s.m_buffer_size (Record.zero G))).2.take n) ++
          (FileSorter.readLoop C n i 0 s
            (List.replicate s.m_buffer_size (Record.zero G))).2.drop n
      else
        C.sort (Record.gt C G) ((FileSorter.readLoop C n i 0 s
          (List.replicate s.m_buffer_size (Record.zero G))).2.take n) ++
          (FileSorter.readLoop C n i 0 s
            (List.replicate s.m_buffer_size (Record.zero G))).2.drop n) =
      C.sort (if s.m_sorting_order = 1 then Record.lt C G else Record.gt C G)
        ((s.m_h_inpfile.drop i).take n) ++
        (FileSorter.readLoop C n i 0 s
          (List.replicate s.m_buffer_size (Record.zero G))).2.drop n := by
    rw [htake]; split_ifs <;> rfl
  apply drop_take_eq_of_getElem? hSlen
  intro t ht
  simp only [FileSorter.TwoPassMergeSort_range, hn]
  rw [hbuf, (FileSorter.writeLoop_spec G i _ n i _).1 t ht]
  rw [show i + t - i = t by omega, List.getD_eq_getElem?_getD,
    List.getElem?_append_left (by omega), List.getElem?_eq_getElem (by omega)]
  rfl

/-- C7: for a record range `[i, j]` with `i ≤ j` that fits the buffer and lies inside the
input file, `TwoPassMergeSort(i, j)` returns `1` and leaves at the output positions
`i..j` a permutation of the input records `i..j`, in which no record is `<` one before it
when the sorting order is `1` and no record is `<` one after it otherwise. -/
theorem FileSorter.TwoPassMergeSort_range_sorts (C : Cxx) (G : Globals) (hC : C.Conforms G)
    (s : FileSorter) (i : Nat) (j : Int) (hij : (i : Int) ≤ j)
    (hB : j - (i : Int) + 1 ≤ (s.m_buffer_size : Int))
    (hin : j < (s.m_h_inpfile.length : Int)) :
    (s.TwoPassMergeSort_range C G i j).2 = 1 ∧
    (((s.TwoPassMergeSort_range C G i j).1.m_h_outfile.drop i).take
        (j - (i : Int) + 1).toNat).Perm
      ((s.m_h_inpfile.drop i).take (j - (i : Int) + 1).toNat) ∧
    (s.m_sorting_order = 1 →
      (((s.TwoPassMergeSort_range C G i j).1.m_h_outfile.drop i).take
        (j - (i : Int) + 1).toNat).Pairwise (fun a b => Record.lt C G b a = false)) ∧
    (s.m_sorting_order ≠ 1 →
      (((s.TwoPassMergeSort_range C G i j).1.m_h_outfile.drop i).take
        (j - (i : Int) + 1).toNat).Pairwise (fun a b => Record.lt C G a b = false)) := by
  have hout := FileSorter.TwoPassMergeSort_range_out C G hC s i (j - (i : Int) + 1).toNat j rfl
    (by omega) (by omega)
  rw [hout]
  refine ⟨rfl, ((hC.sort_comp s.m_sorting_order) _).1, ?_, ?_⟩
  · intro h
    have := ((hC.sort_comp s.m_sorting_order) ((s.m_h_inpfile.drop i).take
      (j - (i : Int) + 1).toNat)).2
    simpa [h] using this
  · intro h
    have := ((hC.sort_comp s.m_sorting_order) ((s.m_h_inpfile.drop i).take
      (j - (i : Int) + 1).toNat)).2
    simp only [h, if_false] at this ⊢
    exact this.imp (fun {a b} hab => by rwa [Record.gt_eq_lt_flip] at hab)

theorem FileSorter.TwoPassMergeSort_range_sorts_witness :
    ((((FileSorter.ctor [⟨[3, 10]⟩, ⟨[1, 10]⟩, ⟨[4, 10]⟩, ⟨[1, 10]⟩, ⟨[5, 10]⟩] 3 1
        ).TwoPassMergeSort_range (refCxx true ⟨[0, 0]⟩) ⟨1, 2, 1⟩ 1 3).1.m_h_outfile.drop 1
        ).take 3).Pairwise
      (fun a b => Record.lt (refCxx true ⟨[0, 0]⟩) ⟨1, 2, 1⟩ b a = false) :=
  (FileSorter.TwoPassMergeSort_range_sorts (refCxx true ⟨[0, 0]⟩) ⟨1, 2, 1⟩
    (refCxx_conforms true ⟨[0, 0]⟩ ⟨1, 2, 1⟩)
    (FileSorter.ctor [⟨[3, 10]⟩, ⟨[1, 10]⟩, ⟨[4, 10]⟩, ⟨[1, 10]⟩, ⟨[5, 10]⟩] 3 1) 1 3
    (by decide) (by decide) (by decide)).2.2.1 rfl

/-! ## The one-block case of the merging TwoPassMergeSort -/

theorem FileSorter.copyLoop_spec (C : Cxx) (G : Globals) (n i : Nat) (s : FileSorter) :
    (∀ t, t < n → (FileSorter.copyLoop C G n i s).m_h_outfile[i + t]? =
        some (s.m_h_inpfile.getD (i + t) (C.uninit (i + t)))) ∧
    (∀ p x, p < i → s.m_h_outfile[p]? = some x →
        (FileSorter.copyLoop C G n i s).m_h_outfile[p]? = some x) ∧
    (FileSorter.copyLoop C G n i s).m_h_inpfile = s.m_h_inpfile := by
  induction n generalizing i s with
  | zero => simp [FileSorter.copyLoop]
  | succ n ih =>
    simp only [FileSorter.copyLoop]
    obtain ⟨h1, h2, h3⟩ := ih (i + 1) ((s.ReadRecord C i).2.WriteRecord G i (s.ReadRecord C i).1)
    refine ⟨?_, ?_, ?_⟩
    · intro t ht
      cases t with
      | zero => exact h2 i _ (by omega) (by simp [writeAt_getElem?_self])
      | succ t =>
        have := h1 t (by omega)
        rw [show i + (t + 1) = i + 1 + t by omega]
        simpa using this
    · intro p x hp hx
      exact h2 p x (by omega) (by
        simp only [FileSorter.WriteRecord_out, FileSorter.ReadRecord_out]
        exact writeAt_getElem?_keep G _ _ _ _ _ (by omega) hx)
    · rw [h3]; rfl

theorem FileSorter.copyLoop_congr (C C' : Cxx) (G G' : Globals)
    (hu : C'.uninit = C.uninit) (hs : G'.SIZE_OF_REC = G.SIZE_OF_REC)
    (n i : Nat) (s : FileSorter) :
    FileSorter.copyLoop C' G' n i s = FileSorter.copyLoop C G n i s := by
  induction n generalizing i s with
  | zero => rfl
  | succ n ih =>
    simp only [FileSorter.copyLoop]
    rw [ih]
    simp only [FileSorter.ReadRecord, FileSorter.WriteRecord, writeAt, Record.zero, hu, hs]

/-- C8: a merge call with `num_of_blocks_to_merge = 1` and `start_record ≤ end_record`
returns `1` and leaves at every output position `p` of `[start_record, end_record)` the
record `ReadRecord(p)` returned, which is the input record at `p` wherever the input file
has one; and the outcome is the same under every key size, `char` signedness, sort and
heap, so no comparison enters it. -/
theorem FileSorter.TwoPassMergeSort_merge_one (C : Cxx) (G : Globals) (s : FileSorter)
    (start_block : Nat) (block_sizes : List Nat) (start_record end_record : Nat)
    (hle : start_record ≤ end_record) :
    (s.TwoPassMergeSort_merge C G start_block block_sizes 1 start_record end_record).2 = 1 ∧
    (∀ p, start_record ≤ p → p < end_record →
      (s.TwoPassMergeSort_merge C G start_block block_sizes 1 start_record
        end_record).1.m_h_outfile[p]? = some (s.ReadRecord C p).1) ∧
    (∀ p, start_record ≤ p → p < end_record → p < s.m_h_inpfile.length →
      (s.TwoPassMergeSort_merge C G start_block block_sizes 1 start_record
        end_record).1.m_h_outfile[p]? = s.m_h_inpfile[p]?) ∧
    (∀ (C' : Cxx) (G' : Globals), C'.uninit = C.uninit → G'.SIZE_OF_REC = G.SIZE_OF_REC →
      s.TwoPassMergeSort_merge C' G' start_block block_sizes 1 start_record end_record =
        s.TwoPassMergeSort_merge C G start_block block_sizes 1 start_record end_record) := by
  have key : ∀ p, start_record ≤ p → p < end_record →
      (s.TwoPassMergeSort_merge C G start_block block_sizes 1 start_record
        end_record).1.m_h_outfile[p]? = some (s.ReadRecord C p).1 := by
    intro p hp1 hp2
    have := (FileSorter.copyLoop_spec C G (end_record - start_record) start_record s).1
      (p - start_record) (by omega)
    rw [show start_record + (p - start_record) = p by omega] at this
    simpa [FileSorter.TwoPassMergeSort_merge] using this
  refine ⟨by simp [FileSorter.TwoPassMergeSort_merge], key, ?_, ?_⟩
  · intro p hp1 hp2 hp3
    rw [key p hp1 hp2, FileSorter.ReadRecord_fst, List.getD_eq_getElem _ _ hp3,
      List.getElem?_eq_getElem hp3]
  · intro C' G' hu hs
    simp [FileSorter.TwoPassMergeSort_merge, FileSorter.copyLoop_congr C C' G G' hu hs]

theorem FileSorter.TwoPassMergeSort_merge_one_witness :
    ((FileSorter.ctor [⟨[3, 10]⟩, ⟨[1, 10]⟩, ⟨[4, 10]⟩] 2 1).TwoPassMergeSort_merge
      (refCxx true ⟨[0, 0]⟩) ⟨1, 2, 1⟩ 0 [3] 1 0 3).2 = 1 :=
  (FileSorter.TwoPassMergeSort_merge_one (refCxx true ⟨[0, 0]⟩) ⟨1, 2, 1⟩
    (FileSorter.ctor [⟨[3, 10]⟩, ⟨[1, 10]⟩, ⟨[4, 10]⟩] 2 1) 0 [3] 0 3 (by decide)).1

/-! ## The buffer under a lawful priority queue -/

theorem Buffer.empty_eq (b : Buffer) : b.empty = b.active.isEmpty := by
  unfold Buffer.empty Buffer.active; split_ifs <;> rfl

theorem Buffer.top_eq (b : Buffer) : b.top = b.active.head? := by
  unfold Buffer.top Buffer.active; split_ifs <;> rfl

theorem Buffer.pop_active (C : Cxx) (G : Globals) (b : Buffer) :
    (b.pop C G).active = C.pq_pop (heapComp C G b.m_sorting_order) b.active ∧
    (b.pop C G).m_sorting_order = b.m_sorting_order ∧
    (b.pop C G).m_max_size = b.m_max_size := by
  unfold Buffer.pop Buffer.active heapComp
  split_ifs with h <;> simp [h]

theorem Buffer.push_ok (C : Cxx) (G : Globals) (b : Buffer) (x : RecWithBlockIndex)
    (h : b.active.length < b.m_max_size) :
    (b.push C G x).2 = true ∧
    (b.push C G x).1.active = C.pq_push (heapComp C G b.m_sorting_order) b.active x ∧
    (b.push C G x).1.m_sorting_order = b.m_sorting_order ∧
    (b.push C G x).1.m_max_size = b.m_max_size := by
  unfold Buffer.active at h
  unfold Buffer.push Buffer.active heapComp
  split_ifs at h ⊢ with h1 <;> simp [h1]

theorem Cxx.Conforms.pq_comp {C : Cxx} {G : Globals} (hC : C.Conforms G) (order : Int) :
    ∃ inv, PQLawful C (heapComp C G order) inv := by
  unfold heapComp
  split_ifs
  · exact hC.pq_gt
  · exact hC.pq_lt

theorem heapComp_false_iff (C : Cxx) (G : Globals) (order : Int) (t x : RecWithBlockIndex) :
    heapComp C G order t x = false ↔ ordLe C G order t.value x.value = true := by
  unfold heapComp ordLe
  split_ifs
  · simp [RecWithBlockIndex.gt, Record.gt_eq_lt_flip]
  · simp [RecWithBlockIndex.lt]

theorem ordLe_refl (C : Cxx) (G : Globals) (order : Int) (a : Record) :
    ordLe C G order a a = true := by
  unfold ordLe
  split_ifs <;> simp [Record.lt, Record.ltLoop_irrefl]

theorem ordLe_trans (C : Cxx) (G : Globals) (order : Int) (a b c : Record)
    (hab : ordLe C G order a b = true) (hbc : ordLe C G order b c = true) :
    ordLe C G order a c = true := by
  unfold ordLe at *
  split_ifs at * with h
  · simp only [Bool.not_eq_true'] at *
    exact Record.lt_negtrans C G c b a hbc hab
  · simp only [Bool.not_eq_true'] at *
    exact Record.lt_negtrans C G a b c hab hbc

/-! ## Prefix sums and record indices -/

theorem blockStart_succ (bs : List Nat) (b : Nat) :
    blockStart bs (b + 1) = blockStart bs b + bs.getD b 0 := by
  unfold blockStart
  by_cases h : b < bs.length
  · rw [List.take_succ, List.sum_append, List.getD_eq_getElem _ _ h,
      List.getElem?_eq_getElem h]
    simp
  · rw [List.take_of_length_le (by omega), List.take_of_length_le (by omega),
      List.getD_eq_default _ _ (by omega)]
    rfl

theorem foldl_add_getD (bs : List Nat) (a m acc : Nat) :
    (List.range' a m).foldl (fun r i => r + bs.getD i 0) acc + blockStart bs a =
      acc + blockStart bs (a + m) := by
  induction m generalizing a acc with
  | zero => simp
  | succ m ih =>
    rw [List.range'_succ, List.foldl_cons]
    have := ih (a + 1) (acc + bs.getD a 0)
    rw [blockStart_succ] at this
    rw [show a + (m + 1) = a + 1 + m by omega]
    omega

theorem FileSorter.GetRecordIndex_eq (bs : List Nat) (start_block b off : Nat)
    (h : start_block ≤ b) :
    FileSorter.GetRecordIndex start_block b bs (blockStart bs start_block) off =
      blockStart bs b + off := by
  unfold FileSorter.GetRecordIndex
  have := foldl_add_getD bs start_block (b - start_block) (blockStart bs start_block)
  rw [show start_block + (b - start_block) = b by omega] at this
  omega

theorem sum_Ico_sizes (bs : List Nat) (a m : Nat) :
    blockStart bs a + ∑ b in Finset.Ico a (a + m), bs.getD b 0 = blockStart bs (a + m) := by
  induction m with
  | zero => simp
  | succ m ih =>
    rw [← Nat.add_assoc, Finset.sum_Ico_succ_top (by omega), blockStart_succ, ← ih]
    omega

/-! ## One iteration of the merge loop -/

theorem sum_update_one {M : Type*} [AddCommMonoid M] (S : Finset Nat) (b0 : Nat)
    (hb0 : b0 ∈ S) (f : Nat → Nat → M) (p : Nat → Nat) (v : Nat) :
    ∑ b in S, f b (if b = b0 then v else p b) = f b0 v + ∑ b in S.erase b0, f b (p b) := by
  rw [← Finset.add_sum_erase S _ hb0]
  simp only [if_true]
  congr 1
  apply Finset.sum_congr rfl
  intro b hb
  rw [if_neg (Finset.ne_of_mem_erase hb)]

theorem sum_split_one {M : Type*} [AddCommMonoid M] (S : Finset Nat) (b0 : Nat)
    (hb0 : b0 ∈ S) (f : Nat → Nat → M) (p : Nat → Nat) :
    ∑ b in S, f b (p b) = f b0 (p b0) + ∑ b in S.erase b0, f b (p b) :=
  (Finset.add_sum_erase S _ hb0).symm

theorem blockRecords_take_succ (C : Cxx) (inp : List Record) (bs : List Nat) (b k : Nat)
    (hk : k < bs.getD b 0) :
    (((blockRecords C inp bs b).take (k + 1) : List Record) : Multiset Record) =
      (((blockRecords C inp bs b).take k : List Record) : Multiset Record) +
        {blockRecord C inp bs b k} := by
  unfold blockRecords
  rw [← List.map_take, ← List.map_take, List.take_range, List.take_range,
    Nat.min_eq_left (by omega), Nat.min_eq_left (by omega), List.range_succ, List.map_append]
  rw [← Multiset.coe_add]
  rfl

theorem blockHead_card_le (C : Cxx) (inp : List Record) (bs : List Nat) (b k : Nat) :
    Multiset.card (blockHead C inp bs b k) ≤ 1 := by
  unfold blockHead
  split_ifs <;> simp

theorem sum_blockHead_card_le (C : Cxx) (inp : List Record) (bs : List Nat)
    (S : Finset Nat) (p : Nat → Nat) :
    Multiset.card (∑ b in S, blockHead C inp bs b (p b)) ≤ S.card := by
  rw [map_sum]
  calc ∑ b in S, Multiset.card (blockHead C inp bs b (p b))
      ≤ ∑ _b in S, 1 := Finset.sum_le_sum (fun b _ => blockHead_card_le C inp bs b (p b))
    _ = S.card := by simp

theorem MergeInv.top_block {C : Cxx} {G : Globals} {inv : List RecWithBlockIndex → Prop}
    {inp : List Record} {order : Int} {bs : List Nat} {sb n start : Nat} {st : MergeState}
    {popped : Nat → Nat} {W : List Record}
    (hI : MergeInv C G inv inp order bs sb n start st popped W)
    (t : RecWithBlockIndex) (c : List RecWithBlockIndex) (hact : st.buffer.active = t :: c) :
    ∃ b0, b0 ∈ Finset.Ico sb (sb + n) ∧ popped b0 < bs.getD b0 0 ∧
      t = ⟨blockRecord C inp bs b0 (popped b0), b0⟩ ∧
      (c : Multiset RecWithBlockIndex) =
        ∑ b in (Finset.Ico sb (sb + n)).erase b0, blockHead C inp bs b (popped b) := by
  have hmem : t ∈ ∑ b in Finset.Ico sb (sb + n), blockHead C inp bs b (popped b) := by
    rw [← hI.heap_eq, hact]; simp
  obtain ⟨b0, hb0, htb⟩ := (Finset.mem_sum _ _).1 hmem
  have hlt : popped b0 < bs.getD b0 0 := by
    by_contra hcon
    unfold blockHead at htb
    rw [if_neg hcon] at htb
    simp at htb
  have ht : t = ⟨blockRecord C inp bs b0 (popped b0), b0⟩ := by
    unfold blockHead at htb
    rw [if_pos hlt] at htb
    simpa using htb
  refine ⟨b0, hb0, hlt, ht, ?_⟩
  have h1 := hI.heap_eq
  rw [hact, sum_split_one _ b0 hb0 (fun b k => blockHead C inp bs b k) popped] at h1
  unfold blockHead at h1
  rw [if_pos hlt, ← ht, ← Multiset.cons_coe, ← Multiset.singleton_add] at h1
  exact add_left_cancel h1


theorem MergeInv.merge_step {C : Cxx} {G : Globals} {inv : List RecWithBlockIndex → Prop}
    {inp : List Record} {order : Int} {bs : List Nat} {sb n start : Nat} {st : MergeState}
    {popped : Nat → Nat} {W : List Record}
    (hQ : PQLawful C (heapComp C G order) inv)
    (hI : MergeInv C G inv inp order bs sb n start st popped W)
    (hstart : start = blockStart bs sb) (hlen : sb + n ≤ bs.length)
    (t : RecWithBlockIndex) (c : List RecWithBlockIndex) (hact : st.buffer.active = t :: c) :
    ∃ popped' W', MergeInv C G inv inp order bs sb n start
      (FileSorter.mergeBody C G sb bs start st t) popped' W' := by
  obtain ⟨b0, hb0, hlt, ht, hc⟩ := hI.top_block t c hact
  have hb0' := Finset.mem_Ico.1 hb0
  have hcnt : st.current_block_record_indices.getD b0 0 = popped b0 + 1 := by
    rw [hI.counts_eq b0 hb0'.1 hb0'.2]; omega
  have htidx : t.index = b0 := by rw [ht]
  have htval : t.value = blockRecord C inp bs b0 (popped b0) := by rw [ht]
  have hinvtc : inv (t :: c) := by rw [← hact]; exact hI.heap_inv
  obtain ⟨hpop_act, hpop_ord, hpop_cap⟩ := Buffer.pop_active C G st.buffer
  rw [hI.order_eq, hact] at hpop_act
  rw [hI.order_eq] at hpop_ord
  rw [hI.cap_eq] at hpop_cap
  have hpop_perm := hQ.pop_perm t c hinvtc
  have hpop_inv := hQ.pop_inv t c hinvtc
  have hclen : c.length + 1 ≤ n := by
    have h1 := congrArg Multiset.card hI.heap_eq
    rw [hact] at h1
    have h2 := sum_blockHead_card_le C inp bs (Finset.Ico sb (sb + n)) popped
    rw [← h1] at h2
    simpa using h2
  have hcur : st.current_record = start + W.length := by
    have h1 := hI.len_eq
    have h2 := hI.cur_eq
    omega
  -- what the output file holds after the write
  have hout' : ∀ k, k < (W ++ [t.value]).length →
      (writeAt G st.sorter.m_h_outfile st.current_record t.value)[start + k]? =
        (W ++ [t.value])[k]? := by
    intro k hk
    simp only [List.length_append, List.length_singleton] at hk
    by_cases hkW : k < W.length
    · have h1 := hI.out_eq k hkW
      rw [List.getElem?_append_left hkW]
      rw [List.getElem?_eq_getElem hkW] at h1 ⊢
      exact writeAt_getElem?_keep G _ _ _ _ _ (by omega) h1
    · have hk' : k = W.length := by omega
      subst hk'
      rw [← hcur, writeAt_getElem?_self, List.getElem?_append_right (le_refl _)]
      simp
  have hlen' : (W ++ [t.value]).length = st.current_record + 1 - start := by
    simp; omega
  have hple' : ∀ b, sb ≤ b → b < sb + n →
      (if b = b0 then popped b0 + 1 else popped b) ≤ bs.getD b 0 := by
    intro b h1 h2
    split_ifs with hb
    · subst hb; omega
    · exact hI.popped_le b h1 h2
  have hcur' : st.current_record + 1 = start +
      ∑ b in Finset.Ico sb (sb + n), (if b = b0 then popped b0 + 1 else popped b) := by
    rw [sum_update_one _ b0 hb0 (fun _ k => k) popped (popped b0 + 1), hI.cur_eq,
      sum_split_one _ b0 hb0 (fun _ k => k) popped]
    omega
  have hwritten' : ((W ++ [t.value] : List Record) : Multiset Record) =
      ∑ b in Finset.Ico sb (sb + n),
        (((blockRecords C inp bs b).take (if b = b0 then popped b0 + 1 else popped b) :
          List Record) : Multiset Record) := by
    rw [sum_update_one _ b0 hb0
      (fun b k => (((blockRecords C inp bs b).take k : List Record) : Multiset Record))
      popped (popped b0 + 1), blockRecords_take_succ C inp bs b0 _ hlt,
      ← Multiset.coe_add, hI.written,
      sum_split_one _ b0 hb0
        (fun b k => (((blockRecords C inp bs b).take k : List Record) : Multiset Record))
        popped, htval, Multiset.coe_singleton]
    abel
  have hsorted' : (∀ b, sb ≤ b → b < sb + n → ∀ k1 k2, k1 < k2 → k2 < bs.getD b 0 →
        ordLe C G order (blockRecord C inp bs b k1) (blockRecord C inp bs b k2) = true) →
      (W ++ [t.value]).Pairwise (fun a b => ordLe C G order a b = true) ∧
      ∀ w ∈ W ++ [t.value], ∀ b, sb ≤ b → b < sb + n → ∀ k,
        (if b = b0 then popped b0 + 1 else popped b) ≤ k → k < bs.getD b 0 →
        ordLe C G order w (blockRecord C inp bs b k) = true := by
    intro hruns
    obtain ⟨hWs, hWb⟩ := hI.sorted hruns
    constructor
    · rw [List.pairwise_append]
      refine ⟨hWs, List.pairwise_singleton _ _, ?_⟩
      intro w hw v hv
      rw [List.mem_singleton] at hv
      rw [hv, htval]
      exact hWb w hw b0 hb0'.1 hb0'.2 (popped b0) (le_refl _) hlt
    · intro w hw b h1 h2 k hk1 hk2
      rcases List.mem_append.1 hw with hw | hw
      · apply hWb w hw b h1 h2 k _ hk2
        split_ifs at hk1 with hb
        · subst hb; omega
        · exact hk1
      · rw [List.mem_singleton] at hw
        rw [hw, htval]
        by_cases hb : b = b0
        · subst hb
          rw [if_pos rfl] at hk1
          exact hruns b h1 h2 (popped b) k (by omega) hk2
        · rw [if_neg hb] at hk1
          have hmem : (⟨blockRecord C inp bs b (popped b), b⟩ : RecWithBlockIndex) ∈ c := by
            rw [← Multiset.mem_coe, hc, Finset.mem_sum]
            refine ⟨b, Finset.mem_erase.2 ⟨hb, Finset.mem_Ico.2 ⟨h1, h2⟩⟩, ?_⟩
            unfold blockHead
            rw [if_pos (by omega)]
            simp
          have htop := (heapComp_false_iff C G order _ _).1 (hQ.top_max t c hinvtc _ hmem)
          rw [htval] at htop
          simp only at htop
          rcases Nat.eq_or_lt_of_le hk1 with hk | hk
          · rw [← hk]; exact htop
          · exact ordLe_trans C G order _ _ _ htop (hruns b h1 h2 (popped b) k hk hk2)
  have hb0len : b0 < st.current_block_record_indices.length := by
    rw [hI.counts_len]; omega
  refine ⟨fun b => if b = b0 then popped b0 + 1 else popped b, W ++ [t.value], ?_⟩
  by_cases hcase : popped b0 + 1 < bs.getD b0 0
  · -- the block has a next record: it is read and pushed
    have hpush := Buffer.push_ok C G (st.buffer.pop C G)
      ⟨blockRecord C inp bs b0 (popped b0 + 1), b0⟩
      (by rw [hpop_act, hpop_cap, hpop_perm.length_eq]; omega)
    obtain ⟨hp2, hpact, hpord, hpcap⟩ := hpush
    rw [hpop_act, hpop_ord] at hpact
    have hbody : FileSorter.mergeBody C G sb bs start st t =
        { st with
          sorter := ((st.sorter.WriteRecord G st.current_record t.value).ReadRecord C
            (blockStart bs b0 + (popped b0 + 1))).2,
          buffer := ((st.buffer.pop C G).push C G
            ⟨blockRecord C inp bs b0 (popped b0 + 1), b0⟩).1,
          current_block_record_indices :=
            st.current_block_record_indices.set b0 (popped b0 + 1 + 1),
          current_record := st.current_record + 1 } := by
      unfold FileSorter.mergeBody
      simp only [htidx, hcnt]
      rw [if_pos hcase, hstart, FileSorter.GetRecordIndex_eq bs sb b0 _ hb0'.1]
      have hrd : ((st.sorter.WriteRecord G st.current_record t.value).ReadRecord C
          (blockStart bs b0 + (popped b0 + 1))).1 =
          blockRecord C inp bs b0 (popped b0 + 1) := by
        simp [blockRecord, recordAt, hI.inp_eq]
      simp only [FileSorter.CreateRecWithBlockIndex, hrd]
      rw [if_neg (by rw [hp2]; simp)]
    rw [hbody]
    exact
      { not_failed := hI.not_failed
        order_eq := by rw [hpord, hpop_ord]
        cap_eq := by rw [hpcap, hpop_cap]
        inp_eq := by simp [hI.inp_eq]
        heap_inv := by
          simp only [hpact]
          exact hQ.push_inv _ _ hpop_inv
        heap_eq := by
          simp only [hpact]
          rw [Multiset.coe_eq_coe.2 (hQ.push_perm _ _ hpop_inv), ← Multiset.cons_coe,
            Multiset.coe_eq_coe.2 hpop_perm, hc,
            sum_update_one _ b0 hb0 (fun b k => blockHead C inp bs b k) popped (popped b0 + 1),
            ← Multiset.singleton_add]
          congr 1
          unfold blockHead
          rw [if_pos hcase]
        counts_eq := by
          intro b h1 h2
          simp only
          by_cases hb : b = b0
          · subst hb
            rw [if_pos rfl, List.getD_eq_getElem _ _ (by simpa using hb0len)]
            simp only [List.getElem_set_self]
            omega
          · rw [if_neg hb, List.getD_eq_getElem?_getD, List.getElem?_set_ne (Ne.symm hb),
              ← List.getD_eq_getElem?_getD]
            exact hI.counts_eq b h1 h2
        counts_len := by simp [hI.counts_len]
        popped_le := hple'
        cur_eq := hcur'
        out_eq := by
          intro k hk
          exact hout' k hk
        len_eq := hlen'
        written := hwritten'
        sorted := hsorted' }
  · -- the block is exhausted: nothing is pushed
    have hbody : FileSorter.mergeBody C G sb bs start st t =
        { st with
          sorter := st.sorter.WriteRecord G st.current_record t.value,
          buffer := st.buffer.pop C G,
          current_record := st.current_record + 1 } := by
      unfold FileSorter.mergeBody
      simp only [htidx, hcnt]
      rw [if_neg hcase]
    rw [hbody]
    exact
      { not_failed := hI.not_failed
        order_eq := hpop_ord
        cap_eq := hpop_cap
        inp_eq := by simp [hI.inp_eq]
        heap_inv := by
          simp only [hpop_act]
          exact hpop_inv
        heap_eq := by
          simp only [hpop_act]
          rw [Multiset.coe_eq_coe.2 hpop_perm, hc,
            sum_update_one _ b0 hb0 (fun b k => blockHead C inp bs b k) popped (popped b0 + 1)]
          unfold blockHead
          rw [if_neg hcase, zero_add]
        counts_eq := by
          intro b h1 h2
          simp only
          by_cases hb : b = b0
          · subst hb
            rw [if_pos rfl, hcnt]
            omega
          · rw [if_neg hb]
            exact hI.counts_eq b h1 h2
        counts_len := hI.counts_len
        popped_le := hple'
        cur_eq := hcur'
        out_eq := by
          intro k hk
          exact hout' k hk
        len_eq := hlen'
        written := hwritten'
        sorted := hsorted' }

/-! ## The loops of the merge -/

theorem FileSorter.mergeBody_current_record (C : Cxx) (G : Globals) (sb : Nat) (bs : List Nat)
    (start : Nat) (st : MergeState) (r : RecWithBlockIndex) :
    (FileSorter.mergeBody C G sb bs start st r).current_record = st.current_record + 1 := by
  unfold FileSorter.mergeBody
  simp only
  split_ifs <;> rfl

theorem MergeInv.merge_loop {C : Cxx} {G : Globals} {inv : List RecWithBlockIndex → Prop}
    {inp : List Record} {order : Int} {bs : List Nat} {sb n start : Nat}
    (hQ : PQLawful C (heapComp C G order) inv)
    (hstart : start = blockStart bs sb) (hlen : sb + n ≤ bs.length) (end_record : Nat)
    (fuel : Nat) (st : MergeState) (popped : Nat → Nat) (W : List Record)
    (hI : MergeInv C G inv inp order bs sb n start st popped W)
    (hfuel : end_record ≤ st.current_record + fuel) :
    ∃ popped' W',
      MergeInv C G inv inp order bs sb n start
        (FileSorter.mergeLoop C G sb bs start end_record fuel st) popped' W' ∧
      ¬ ((FileSorter.mergeLoop C G sb bs start end_record fuel st).current_record < end_record ∧
        (FileSorter.mergeLoop C G sb bs start end_record fuel st).buffer.empty = false) := by
  induction fuel generalizing st popped W with
  | zero =>
    refine ⟨popped, W, hI, ?_⟩
    simp only [FileSorter.mergeLoop]
    omega
  | succ fuel ih =>
    unfold FileSorter.mergeLoop
    by_cases hcond : st.current_record < end_record ∧ st.buffer.empty = false
    · rw [if_pos hcond]
      have hne : st.buffer.active ≠ [] := by
        have := hcond.2
        rw [Buffer.empty_eq] at this
        intro h
        rw [h] at this
        simp at this
      obtain ⟨t, c, hact⟩ := List.exists_cons_of_ne_nil hne
      have htop : st.buffer.top = some t := by rw [Buffer.top_eq, hact]; rfl
      rw [htop]
      obtain ⟨p1, W1, hI1⟩ := hI.merge_step hQ hstart hlen t c hact
      simp only
      rw [if_neg (by rw [hI1.not_failed]; simp)]
      exact ih _ p1 W1 hI1 (by rw [FileSorter.mergeBody_current_record]; omega)
    · rw [if_neg hcond]
      exact ⟨popped, W, hI, hcond⟩

theorem SeedInv.seed_step {C : Cxx} {G : Globals} {inv : List RecWithBlockIndex → Prop}
    {inp out : List Record} {order : Int} {bs : List Nat} {sb n start i : Nat}
    {st : MergeState}
    (hQ : PQLawful C (heapComp C G order) inv)
    (hS : SeedInv C inv inp out order bs sb n start i st)
    (hi : i < n) (hlen : sb + n ≤ bs.length) :
    SeedInv C inv inp out order bs sb n start (i + 1)
      (FileSorter.seedBody C G sb bs i st) := by
  have hal : st.buffer.active.length = i := by
    have h1 := congrArg Multiset.card hS.heap_eq
    rw [map_sum] at h1
    simpa using h1
  obtain ⟨hp2, hpact, hpord, hpcap⟩ := Buffer.push_ok C G st.buffer
    ⟨blockRecord C inp bs (sb + i) 0, sb + i⟩ (by rw [hal, hS.cap_eq]; exact hi)
  rw [hS.order_eq] at hpact hpord
  have hrd : (st.sorter.ReadRecord C st.record_index).1 = blockRecord C inp bs (sb + i) 0 := by
    simp [blockRecord, recordAt, hS.inp_eq, hS.index_eq]
  have hbody : FileSorter.seedBody C G sb bs i st =
      { st with
        sorter := (st.sorter.ReadRecord C st.record_index).2,
        buffer := (st.buffer.push C G ⟨blockRecord C inp bs (sb + i) 0, sb + i⟩).1,
        current_block_record_indices := st.current_block_record_indices.set (sb + i) 1,
        record_index := st.record_index + bs.getD (sb + i) 0 } := by
    unfold FileSorter.seedBody
    simp only [FileSorter.CreateRecWithBlockIndex, hrd, Nat.add_comm i sb]
    rw [if_neg (by rw [hp2]; simp), hS.counts_eq (sb + i), if_neg (by omega)]
  rw [hbody]
  exact
    { not_failed := hS.not_failed
      order_eq := hpord
      cap_eq := by rw [hpcap, hS.cap_eq]
      inp_eq := by simp [hS.inp_eq]
      out_eq := by simp [hS.out_eq]
      heap_inv := by
        simp only [hpact]
        exact hQ.push_inv _ _ hS.heap_inv
      heap_eq := by
        simp only [hpact]
        rw [Multiset.coe_eq_coe.2 (hQ.push_perm _ _ hS.heap_inv), ← Multiset.cons_coe,
          hS.heap_eq, ← Nat.add_assoc, Finset.sum_Ico_succ_top (by omega),
          ← Multiset.singleton_add, add_comm]
      counts_len := by simp [hS.counts_len]
      counts_eq := by
        intro b
        simp only
        by_cases hb : b = sb + i
        · subst hb
          rw [List.getD_eq_getElem _ _ (by simp [hS.counts_len]; omega)]
          simp
        · rw [List.getD_eq_getElem?_getD, List.getElem?_set_ne (Ne.symm hb),
            ← List.getD_eq_getElem?_getD, hS.counts_eq b]
          by_cases h1 : sb ≤ b ∧ b < sb + i
          · rw [if_pos h1, if_pos (by omega)]
          · rw [if_neg h1, if_neg (by omega)]
      index_eq := by
        simp only
        rw [hS.index_eq, ← Nat.add_assoc, blockStart_succ]
      cur_eq := hS.cur_eq }

theorem SeedInv.seed_loop {C : Cxx} {G : Globals} {inv : List RecWithBlockIndex → Prop}
    {inp out : List Record} {order : Int} {bs : List Nat} {sb n start : Nat}
    (hQ : PQLawful C (heapComp C G order) inv) (hlen : sb + n ≤ bs.length)
    (m i : Nat) (st : MergeState) (hm : i + m = n)
    (hS : SeedInv C inv inp out order bs sb n start i st) :
    SeedInv C inv inp out order bs sb n start n (FileSorter.seedLoop C G sb bs m i st) := by
  induction m generalizing i st with
  | zero =>
    have : i = n := by omega
    subst this
    exact hS
  | succ m ih =>
    unfold FileSorter.seedLoop
    have h1 := hS.seed_step (G := G) hQ (by omega) hlen
    simp only
    rw [if_neg (by rw [h1.not_failed]; simp)]
    exact ih (i + 1) _ (by omega) h1

/-! ## The merge of a group of blocks -/

theorem map_recordAt_range (C : Cxx) (inp : List Record) (a m : Nat)
    (h : a + m ≤ inp.length) :
    (List.range m).map (fun k => recordAt C inp (a + k)) = (inp.drop a).take m := by
  apply List.ext_getElem?
  intro t
  rw [List.getElem?_take]
  by_cases ht : t < m
  · rw [if_pos ht, List.getElem?_drop, List.getElem?_map, List.getElem?_range ht,
      List.getElem?_eq_getElem (by omega)]
    simp only [Option.map_some', recordAt]
    rw [List.getD_eq_getElem _ _ (show a + t < inp.length by omega)]
  · rw [if_neg ht, List.getElem?_eq_none (by simp; omega)]

theorem blockRecords_eq (C : Cxx) (inp : List Record) (bs : List Nat) (b : Nat)
    (h : blockStart bs b + bs.getD b 0 ≤ inp.length) :
    blockRecords C inp bs b = (inp.drop (blockStart bs b)).take (bs.getD b 0) :=
  map_recordAt_range C inp _ _ h

theorem sum_blockRecords (C : Cxx) (inp : List Record) (bs : List Nat) (a m : Nat) :
    ∑ b in Finset.Ico a (a + m),
        ((blockRecords C inp bs b : List Record) : Multiset Record) =
      (((List.range (blockStart bs (a + m) - blockStart bs a)).map
        (fun k => recordAt C inp (blockStart bs a + k)) : List Record) : Multiset Record) := by
  induction m with
  | zero => simp
  | succ m ih =>
    have hmono : blockStart bs a ≤ blockStart bs (a + m) := by
      have := sum_Ico_sizes bs a m; omega
    rw [← Nat.add_assoc, Finset.sum_Ico_succ_top (by omega), ih, blockStart_succ,
      show blockStart bs (a + m) + bs.getD (a + m) 0 - blockStart bs a =
        (blockStart bs (a + m) - blockStart bs a) + bs.getD (a + m) 0 by omega,
      List.range_add, List.map_append, ← Multiset.coe_add]
    congr 2
    unfold blockRecords blockRecord
    rw [List.map_map]
    apply List.map_congr_left
    intro k _
    simp only [Function.comp]
    congr 1
    omega

theorem MergeInv.of_seed {C : Cxx} {G : Globals} {inv : List RecWithBlockIndex → Prop}
    {inp out : List Record} {order : Int} {bs : List Nat} {sb n start : Nat}
    {st : MergeState}
    (hS : SeedInv C inv inp out order bs sb n start n st)
    (hpos : ∀ b, sb ≤ b → b < sb + n → 0 < bs.getD b 0) :
    MergeInv C G inv inp order bs sb n start st (fun _ => 0) [] :=
  { not_failed := hS.not_failed
    order_eq := hS.order_eq
    cap_eq := hS.cap_eq
    inp_eq := hS.inp_eq
    heap_inv := hS.heap_inv
    heap_eq := by
      rw [hS.heap_eq]
      apply Finset.sum_congr rfl
      intro b hb
      have hb' := Finset.mem_Ico.1 hb
      unfold blockHead
      rw [if_pos (hpos b hb'.1 hb'.2)]
    counts_eq := by
      intro b h1 h2
      rw [hS.counts_eq b, if_pos ⟨h1, h2⟩]
      have := hpos b h1 h2
      omega
    counts_len := hS.counts_len
    popped_le := fun b _ _ => Nat.zero_le _
    cur_eq := by rw [hS.cur_eq]; simp
    out_eq := by intro t ht; simp at ht
    len_eq := by rw [hS.cur_eq]; simp
    written := by simp
    sorted := by
      intro _
      exact ⟨List.Pairwise.nil, fun w hw => by simp at hw⟩ }

theorem MergeInv.at_exit {C : Cxx} {G : Globals} {inv : List RecWithBlockIndex → Prop}
    {inp : List Record} {order : Int} {bs : List Nat} {sb n start : Nat} {st : MergeState}
    {popped : Nat → Nat} {W : List Record}
    (hI : MergeInv C G inv inp order bs sb n start st popped W)
    (hstart : start = blockStart bs sb) (end_record : Nat)
    (hend : end_record = blockStart bs (sb + n))
    (hexit : ¬ (st.current_record < end_record ∧ st.buffer.empty = false)) :
    (∀ b, sb ≤ b → b < sb + n → popped b = bs.getD b 0) ∧
    st.current_record = end_record ∧ st.buffer.active = [] := by
  have hsz := sum_Ico_sizes bs sb n
  have hle : ∑ b in Finset.Ico sb (sb + n), popped b ≤
      ∑ b in Finset.Ico sb (sb + n), bs.getD b 0 :=
    Finset.sum_le_sum (fun b hb => hI.popped_le b (Finset.mem_Ico.1 hb).1 (Finset.mem_Ico.1 hb).2)
  have hall : ∀ b, sb ≤ b → b < sb + n → popped b = bs.getD b 0 := by
    by_cases h1 : st.current_record < end_record
    · have hemp : st.buffer.empty = true := by
        cases h : st.buffer.empty
        · exact absurd ⟨h1, h⟩ hexit
        · rfl
      rw [Buffer.empty_eq] at hemp
      have hnil : st.buffer.active = [] := by simpa using hemp
      intro b hb1 hb2
      by_contra hne
      have hlt : popped b < bs.getD b 0 := by
        have := hI.popped_le b hb1 hb2
        omega
      have hmem : (⟨blockRecord C inp bs b (popped b), b⟩ : RecWithBlockIndex) ∈
          ∑ b in Finset.Ico sb (sb + n), blockHead C inp bs b (popped b) := by
        rw [Finset.mem_sum]
        refine ⟨b, Finset.mem_Ico.2 ⟨hb1, hb2⟩, ?_⟩
        unfold blockHead
        rw [if_pos hlt]
        simp
      rw [← hI.heap_eq, hnil] at hmem
      simp at hmem
    · have hsum : ∑ b in Finset.Ico sb (sb + n), popped b =
          ∑ b in Finset.Ico sb (sb + n), bs.getD b 0 := by
        have := hI.cur_eq
        omega
      have := (Finset.sum_eq_sum_iff_of_le
        (fun b hb => hI.popped_le b (Finset.mem_Ico.1 hb).1 (Finset.mem_Ico.1 hb).2)).1 hsum
      intro b hb1 hb2
      exact this b (Finset.mem_Ico.2 ⟨hb1, hb2⟩)
  refine ⟨hall, ?_, ?_⟩
  · have hsum : ∑ b in Finset.Ico sb (sb + n), popped b =
        ∑ b in Finset.Ico sb (sb + n), bs.getD b 0 :=
      Finset.sum_congr rfl (fun b hb => hall b (Finset.mem_Ico.1 hb).1 (Finset.mem_Ico.1 hb).2)
    have := hI.cur_eq
    omega
  · have hz : ∑ b in Finset.Ico sb (sb + n), blockHead C inp bs b (popped b) = 0 := by
      apply Finset.sum_eq_zero
      intro b hb
      unfold blockHead
      rw [if_neg (by rw [hall b (Finset.mem_Ico.1 hb).1 (Finset.mem_Ico.1 hb).2]; omega)]
    have := hI.heap_eq
    rw [hz] at this
    simpa using this

theorem Buffer.ctor_active (size : Nat) (order : Int) : (Buffer.ctor size order).active = [] := by
  unfold Buffer.active Buffer.ctor
  split_ifs <;> rfl

theorem FileSorter.mergeRun_spec (C : Cxx) (G : Globals) (hC : C.Conforms G) (s : FileSorter)
    (sb : Nat) (bs : List Nat) (n start end_record : Nat)
    (hlen : sb + n ≤ bs.length)
    (hpos : ∀ b, sb ≤ b → b < sb + n → 0 < bs.getD b 0)
    (hstart : start = blockStart bs sb) (hend : end_record = blockStart bs (sb + n)) :
    ∃ inv popped W,
      MergeInv C G inv s.m_h_inpfile s.m_sorting_order bs sb n start
        (s.mergeRun C G sb bs n start end_record) popped W ∧
      (∀ b, sb ≤ b → b < sb + n → popped b = bs.getD b 0) ∧
      (s.mergeRun C G sb bs n start end_record).current_record = end_record ∧
      (s.mergeRun C G sb bs n start end_record).buffer.active = [] := by
  obtain ⟨inv, hQ⟩ := hC.pq_comp s.m_sorting_order
  have h0 : SeedInv C inv s.m_h_inpfile s.m_h_outfile s.m_sorting_order bs sb n start 0
      { sorter := s, buffer := Buffer.ctor n s.m_sorting_order,
        current_block_record_indices := List.replicate bs.length 0,
        record_index := start, current_record := start, failed := false } :=
    { not_failed := rfl
      order_eq := rfl
      cap_eq := rfl
      inp_eq := rfl
      out_eq := rfl
      heap_inv := by
        simp only [Buffer.ctor_active]
        exact hQ.inv_nil
      heap_eq := by simp [Buffer.ctor_active]
      counts_len := by simp
      counts_eq := by
        intro b
        rw [if_neg (by omega), List.getD_eq_getElem?_getD, List.getElem?_replicate]
        split_ifs <;> rfl
      index_eq := by simp [hstart]
      cur_eq := rfl }
  have h1 := SeedInv.seed_loop (G := G) hQ hlen n 0 _ (by omega) h0
  have h2 : MergeInv C G inv s.m_h_inpfile s.m_sorting_order bs sb n start _ (fun _ => 0) [] :=
    MergeInv.of_seed h1 hpos
  obtain ⟨popped, W, h3, hexit⟩ := MergeInv.merge_loop hQ hstart hlen end_record
    (end_record - start) _ _ _ h2 (by rw [h1.cur_eq]; omega)
  have hrun : s.mergeRun C G sb bs n start end_record =
      FileSorter.mergeLoop C G sb bs start end_record (end_record - start)
        (FileSorter.seedLoop C G sb bs n 0
          { sorter := s, buffer := Buffer.ctor n s.m_sorting_order,
            current_block_record_indices := List.replicate bs.length 0,
            record_index := start, current_record := start, failed := false }) := by
    unfold FileSorter.mergeRun
    simp only
    rw [if_neg (by rw [h1.not_failed]; simp)]
  rw [hrun]
  obtain ⟨ha, hb, hc⟩ := h3.at_exit hstart end_record hend hexit
  exact ⟨inv, popped, W, h3, ha, hb, hc⟩

theorem FileSorter.mergeRun_out (C : Cxx) (G : Globals) (hC : C.Conforms G) (s : FileSorter)
    (sb : Nat) (bs : List Nat) (n start end_record : Nat)
    (hlen : sb + n ≤ bs.length)
    (hpos : ∀ b, sb ≤ b → b < sb + n → 0 < bs.getD b 0)
    (hstart : start = blockStart bs sb) (hend : end_record = blockStart bs (sb + n))
    (hin : end_record ≤ s.m_h_inpfile.length) :
    (((s.mergeRun C G sb bs n start end_record).sorter.m_h_outfile.drop start).take
        (end_record - start)).Perm ((s.m_h_inpfile.drop start).take (end_record - start)) ∧
    ((∀ b, sb ≤ b → b < sb + n →
        ((s.m_h_inpfile.drop (blockStart bs b)).take (bs.getD b 0)).Pairwise
          (fun x y => ordLe C G s.m_sorting_order x y = true)) →
      (((s.mergeRun C G sb bs n start end_record).sorter.m_h_outfile.drop start).take
        (end_record - start)).Pairwise (fun x y => ordLe C G s.m_sorting_order x y = true)) ∧
    (s.mergeRun C G sb bs n start end_record).failed = false := by
  obtain ⟨inv, popped, W, hI, hall, hcur, -⟩ :=
    FileSorter.mergeRun_spec C G hC s sb bs n start end_record hlen hpos hstart hend
  have hmono : blockStart bs sb ≤ blockStart bs (sb + n) := by
    have := sum_Ico_sizes bs sb n; omega
  have hWlen : W.length = end_record - start := by rw [hI.len_eq, hcur]
  have hout : ((s.mergeRun C G sb bs n start end_record).sorter.m_h_outfile.drop start).take
      (end_record - start) = W := by
    apply drop_take_eq_of_getElem? hWlen
    intro t ht
    exact hI.out_eq t (by omega)
  rw [hout]
  refine ⟨?_, ?_, hI.not_failed⟩
  · rw [← Multiset.coe_eq_coe, hI.written]
    have h1 : ∑ b in Finset.Ico sb (sb + n),
        (((blockRecords C s.m_h_inpfile bs b).take (popped b) : List Record) :
          Multiset Record) =
        ∑ b in Finset.Ico sb (sb + n),
          ((blockRecords C s.m_h_inpfile bs b : List Record) : Multiset Record) := by
      apply Finset.sum_congr rfl
      intro b hb
      have hb' := Finset.mem_Ico.1 hb
      rw [hall b hb'.1 hb'.2, List.take_of_length_le (by simp [blockRecords])]
    rw [h1, sum_blockRecords, ← hstart, ← hend,
      map_recordAt_range C s.m_h_inpfile start (end_record - start) (by omega)]
  · intro hruns
    apply (hI.sorted ?_).1
    intro b hb1 hb2 k1 k2 hk12 hk2
    have hbin : blockStart bs b + bs.getD b 0 ≤ s.m_h_inpfile.length := by
      have h1 := sum_Ico_sizes bs b (sb + n - b)
      rw [show b + (sb + n - b) = sb + n by omega] at h1
      have h2 : bs.getD b 0 ≤ ∑ x in Finset.Ico b (sb + n), bs.getD x 0 :=
        Finset.single_le_sum (f := fun x => bs.getD x 0) (fun _ _ => Nat.zero_le _)
          (Finset.mem_Ico.2 ⟨le_refl b, hb2⟩)
      omega
    have hp := hruns b hb1 hb2
    rw [← blockRecords_eq C _ bs b hbin, List.pairwise_iff_getElem] at hp
    have hl : (blockRecords C s.m_h_inpfile bs b).length = bs.getD b 0 := by
      simp [blockRecords]
    have := hp k1 k2 (by omega) (by omega) hk12
    simpa [blockRecords] using this

/-- C3: a merge call for two or more blocks, each non-empty and sorted for the sorter's
order, with `start_record` and `end_record` the prefix sums that bound the group, leaves
the output positions `[start_record, end_record)` sorted for that order: no record is
`<` one before it when the order is `1`, no record is `<` one after it otherwise. -/
theorem FileSorter.TwoPassMergeSort_merge_sorted (C : Cxx) (G : Globals) (hC : C.Conforms G)
    (s : FileSorter) (start_block : Nat) (block_sizes : List Nat)
    (num_of_blocks_to_merge start_record end_record : Nat)
    (hn : 2 ≤ num_of_blocks_to_merge)
    (hlen : start_block + num_of_blocks_to_merge ≤ block_sizes.length)
    (hpos : ∀ b, start_block ≤ b → b < start_block + num_of_blocks_to_merge →
      0 < block_sizes.getD b 0)
    (hstart : start_record = (block_sizes.take start_block).sum)
    (hend : end_record = (block_sizes.take (start_block + num_of_blocks_to_merge)).sum)
    (hin : end_record ≤ s.m_h_inpfile.length)
    (hruns : ∀ b, start_block ≤ b → b < start_block + num_of_blocks_to_merge →
      ((s.m_h_inpfile.drop (block_sizes.take b).sum).take (block_sizes.getD b 0)).Pairwise
        (fun x y => ordLe C G s.m_sorting_order x y = true)) :
    (((s.TwoPassMergeSort_merge C G start_block block_sizes num_of_blocks_to_merge
        start_record end_record).1.m_h_outfile.drop start_record).take
        (end_record - start_record)).Pairwise
      (fun x y => ordLe C G s.m_sorting_order x y = true) := by
  have h := (FileSorter.mergeRun_out C G hC s start_block block_sizes num_of_blocks_to_merge
    start_record end_record hlen hpos hstart hend hin).2.1 hruns
  unfold FileSorter.TwoPassMergeSort_merge
  rw [if_neg (by omega), if_neg (by omega)]
  exact h

theorem FileSorter.TwoPassMergeSort_merge_sorted_witness :
    ((((FileSorter.ctor (demoFile [1, 4, 3, 5]) 2 1).TwoPassMergeSort_merge demoCxx demoGlobals
        0 [2, 2] 2 0 4).1.m_h_outfile.drop 0).take (4 - 0)).Pairwise
      (fun x y => ordLe demoCxx demoGlobals 1 x y = true) :=
  FileSorter.TwoPassMergeSort_merge_sorted demoCxx demoGlobals
    (refCxx_conforms true ⟨[0, 0]⟩ demoGlobals)
    (FileSorter.ctor (demoFile [1, 4, 3, 5]) 2 1) 0 [2, 2] 2 0 4
    (by decide) (by decide)
    (by intro b _ h2; interval_cases b <;> decide)
    (by decide) (by decide) (by decide)
    (by intro b _ h2; interval_cases b <;> decide)

/-- C4: a merge call for two or more non-empty blocks, with `start_record` and
`end_record` the prefix sums that bound the group, returns `1` and leaves at the output
positions `[start_record, end_record)` a permutation of the input records at these
positions; when it returns the buffer is empty, `current_record` equals `end_record` and
the consumed count of every block of the group equals the block's size. -/
theorem FileSorter.TwoPassMergeSort_merge_permutation (C : Cxx) (G : Globals)
    (hC : C.Conforms G) (s : FileSorter) (start_block : Nat) (block_sizes : List Nat)
    (num_of_blocks_to_merge start_record end_record : Nat)
    (hn : 2 ≤ num_of_blocks_to_merge)
    (hlen : start_block + num_of_blocks_to_merge ≤ block_sizes.length)
    (hpos : ∀ b, start_block ≤ b → b < start_block + num_of_blocks_to_merge →
      0 < block_sizes.getD b 0)
    (hstart : start_record = (block_sizes.take start_block).sum)
    (hend : end_record = (block_sizes.take (start_block + num_of_blocks_to_merge)).sum)
    (hin : end_record ≤ s.m_h_inpfile.length) :
    (s.TwoPassMergeSort_merge C G start_block block_sizes num_of_blocks_to_merge
      start_record end_record).2 = 1 ∧
    (((s.TwoPassMergeSort_merge C G start_block block_sizes num_of_blocks_to_merge
        start_record end_record).1.m_h_outfile.drop start_record).take
        (end_record - start_record)).Perm
      ((s.m_h_inpfile.drop start_record).take (end_record - start_record)) ∧
    (s.mergeRun C G start_block block_sizes num_of_blocks_to_merge start_record
      end_record).buffer.empty = true ∧
    (s.mergeRun C G start_block block_sizes num_of_blocks_to_merge start_record
      end_record).current_record = end_record ∧
    (∀ b, start_block ≤ b → b < start_block + num_of_blocks_to_merge →
      (s.mergeRun C G start_block block_sizes num_of_blocks_to_merge start_record
        end_record).current_block_record_indices.getD b 0 = block_sizes.getD b 0) := by
  obtain ⟨hperm, -, hnf⟩ := FileSorter.mergeRun_out C G hC s start_block block_sizes
    num_of_blocks_to_merge start_record end_record hlen hpos hstart hend hin
  obtain ⟨inv, popped, W, hI, hall, hcur, hnil⟩ := FileSorter.mergeRun_spec C G hC s
    start_block block_sizes num_of_blocks_to_merge start_record end_record hlen hpos
    hstart hend
  unfold FileSorter.TwoPassMergeSort_merge
  rw [if_neg (by omega), if_neg (by omega)]
  refine ⟨by simp [hnf], hperm, ?_, hcur, ?_⟩
  · rw [Buffer.empty_eq, hnil]; rfl
  · intro b h1 h2
    rw [hI.counts_eq b h1 h2, hall b h1 h2]
    omega

theorem FileSorter.TwoPassMergeSort_merge_permutation_witness :
    ((((FileSorter.ctor (demoFile [1, 4, 3, 5]) 2 1).TwoPassMergeSort_merge demoCxx demoGlobals
        0 [2, 2] 2 0 4).1.m_h_outfile.drop 0).take (4 - 0)).Perm
      (((FileSorter.ctor (demoFile [1, 4, 3, 5]) 2 1).m_h_inpfile.drop 0).take (4 - 0)) :=
  (FileSorter.TwoPassMergeSort_merge_permutation demoCxx demoGlobals
    (refCxx_conforms true ⟨[0, 0]⟩ demoGlobals)
    (FileSorter.ctor (demoFile [1, 4, 3, 5]) 2 1) 0 [2, 2] 2 0 4
    (by decide) (by decide)
    (by intro b _ h2; interval_cases b <;> decide)
    (by decide) (by decide) (by decide)).2.1

/-! ## Files written from their end -/

theorem SameConfig.refl (s : FileSorter) : SameConfig s s := ⟨rfl, rfl, rfl, rfl⟩

theorem SameConfig.trans {s t u : FileSorter} (h1 : SameConfig s t) (h2 : SameConfig t u) :
    SameConfig s u :=
  ⟨h2.inp_eq.trans h1.inp_eq, h2.count_eq.trans h1.count_eq, h2.size_eq.trans h1.size_eq,
    h2.order_eq.trans h1.order_eq⟩

theorem SameConfig.read (C : Cxx) (s : FileSorter) (index : Nat) :
    SameConfig s (s.ReadRecord C index).2 := ⟨rfl, rfl, rfl, rfl⟩

theorem SameConfig.write (G : Globals) (s : FileSorter) (index : Nat) (v : Record) :
    SameConfig s (s.WriteRecord G index v) := ⟨rfl, rfl, rfl, rfl⟩

theorem SameConfig.perror (s : FileSorter) (x : Int) : SameConfig s (s.perror x) :=
  ⟨rfl, rfl, rfl, rfl⟩

theorem writeAt_end (G : Globals) (f : List Record) (v : Record) :
    writeAt G f f.length v = f ++ [v] := by
  unfold writeAt
  rw [if_neg (Nat.lt_irrefl _)]
  simp

theorem FileSorter.readLoop_config (C : Cxx) (n cur k : Nat) (s : FileSorter)
    (buffer : List Record) : SameConfig s (FileSorter.readLoop C n cur k s buffer).1 := by
  induction n generalizing cur k s buffer with
  | zero => exact SameConfig.refl s
  | succ n ih =>
    simp only [FileSorter.readLoop]
    exact (SameConfig.read C s cur).trans (ih _ _ _ _)

theorem FileSorter.writeLoop_exact (G : Globals) (i : Nat) (buffer : List Record)
    (n cur : Nat) (s : FileSorter) (hi : i ≤ cur) (hlen : s.m_h_outfile.length = cur)
    (hb : cur - i + n ≤ buffer.length) :
    (FileSorter.writeLoop G i buffer n cur s).m_h_outfile =
        s.m_h_outfile ++ (buffer.drop (cur - i)).take n ∧
      SameConfig s (FileSorter.writeLoop G i buffer n cur s) := by
  induction n generalizing cur s with
  | zero => simp [FileSorter.writeLoop, SameConfig.refl]
  | succ n ih =>
    simp only [FileSorter.writeLoop]
    have hk : cur - i < buffer.length := by omega
    obtain ⟨h1, h2⟩ := ih (cur + 1)
      (s.WriteRecord G cur (buffer.getD (cur - i) (Record.zero G))) (by omega)
      (by simp [← hlen, writeAt_end]) (by omega)
    refine ⟨?_, (SameConfig.write G s _ _).trans h2⟩
    rw [h1, FileSorter.WriteRecord_out, ← hlen, writeAt_end, hlen,
      List.getD_eq_getElem _ _ hk, List.drop_eq_getElem_cons hk, List.take_succ_cons,
      show cur + 1 - i = cur - i + 1 by omega]
    simp

theorem FileSorter.TwoPassMergeSort_range_exact (C : Cxx) (G : Globals) (hC : C.Conforms G)
    (s : FileSorter) (i n : Nat) (j : Int) (hn : (j - (i : Int) + 1).toNat = n)
    (hB : n ≤ s.m_buffer_size) (hin : i + n ≤ s.m_h_inpfile.length)
    (hout : s.m_h_outfile.length = i) :
    (s.TwoPassMergeSort_range C G i j).1.m_h_outfile =
        s.m_h_outfile ++
          C.sort (if s.m_sorting_order = 1 then Record.lt C G else Record.gt C G)
            ((s.m_h_inpfile.drop i).take n) ∧
      SameConfig s (s.TwoPassMergeSort_range C G i j).1 ∧
      (s.TwoPassMergeSort_range C G i j).2 = 1 := by
  obtain ⟨hr, hro⟩ := FileSorter.readLoop_spec C n i 0 s
    (List.replicate s.m_buffer_size (Record.zero G)) (by simpa using hB) hin
  have hrc := FileSorter.readLoop_config C n i 0 s
    (List.replicate s.m_buffer_size (Record.zero G))
  have hRlen : ((s.m_h_inpfile.drop i).take n).length = n := by
    rw [List.length_take, List.length_drop]; omega
  have htake : (FileSorter.readLoop C n i 0 s
      (List.replicate s.m_buffer_size (Record.zero G))).2.take n =
      (s.m_h_inpfile.drop i).take n := by
    rw [hr]
    simp only [List.take_zero, List.nil_append, Nat.zero_add]
    rw [List.take_append_of_le_length (by omega), List.take_of_length_le (by omega)]
  have hSlen : (C.sort (if s.m_sorting_order = 1 then Record.lt C G else Record.gt C G)
      ((s.m_h_inpfile.drop i).take n)).length = n := by
    rw [((hC.sort_comp s.m_sorting_order) _).1.length_eq]; exact hRlen
  have hbuf : (if s.m_sorting_order = 1 then
        C.sort (Record.lt C G) ((FileSorter.readLoop C n i 0 s
          (List.replicate s.m_buffer_size (Record.zero G))).2.take n) ++
          (FileSorter.readLoop C n i 0 s
            (List.replicate s.m_buffer_size (Record.zero G))).2.drop n
      else
        C.sort (Record.gt C G) ((FileSorter.readLoop C n i 0 s
          (List.replicate s.m_buffer_size (Record.zero G))).2.take n) ++
          (FileSorter.readLoop C n i 0 s
            (List.replicate s.m_buffer_size (Record.zero G))).2.drop n) =
      C.sort (if s.m_sorting_order = 1 then Record.lt C G else Record.gt C G)
        ((s.m_h_inpfile.drop i).take n) ++
        (FileSorter.readLoop C n i 0 s
          (List.replicate s.m_buffer_size (Record.zero G))).2.drop n := by
    rw [htake]; split_ifs <;> rfl
  simp only [FileSorter.TwoPassMergeSort_range, hn]
  rw [hbuf]
  obtain ⟨hw1, hw2⟩ := FileSorter.writeLoop_exact G i
    (C.sort (if s.m_sorting_order = 1 then Record.lt C G else Record.gt C G)
        ((s.m_h_inpfile.drop i).take n) ++
        (FileSorter.readLoop C n i 0 s
          (List.replicate s.m_buffer_size (Record.zero G))).2.drop n) n i
    (FileSorter.readLoop C n i 0 s (List.replicate s.m_buffer_size (Record.zero G))).1
    (le_refl i) (by rw [hro, hout]) (by simp; omega)
  refine ⟨?_, hrc.trans hw2, trivial⟩
  rw [hw1, hro, Nat.sub_self, List.drop_zero, List.take_append_of_le_length (by omega),
    List.take_of_length_le (by omega)]

/-! ## Pass 0 on a record count the buffer size does not divide -/

theorem blockStart_zero (bs : List Nat) : blockStart bs 0 = 0 := by
  simp [blockStart]

theorem blockStart_mono (bs : List Nat) {a b : Nat} (h : a ≤ b) :
    blockStart bs a ≤ blockStart bs b := by
  have := sum_Ico_sizes bs a (b - a)
  rw [show a + (b - a) = b by omega] at this
  omega

theorem sort_pairwise_ordLe {C : Cxx} {G : Globals} (hC : C.Conforms G) (order : Int)
    (l : List Record) :
    (C.sort (if order = 1 then Record.lt C G else Record.gt C G) l).Pairwise
      (fun x y => ordLe C G order x y = true) := by
  have h := ((hC.sort_comp order) l).2
  apply h.imp
  intro a b hab
  unfold ordLe
  split_ifs with ho
  · simpa [ho] using hab
  · simp only [ho, if_false, Record.gt_eq_lt_flip] at hab
    simpa using hab

theorem pass0_loop (C : Cxx) (G : Globals) (hC : C.Conforms G) (s0 : FileSorter)
    (bs : List Nat) (hout : s0.m_h_outfile = [])
    (hsize : ∀ b, b < bs.length → bs.getD b 0 ≤ s0.m_buffer_size)
    (hfit : blockStart bs bs.length ≤ s0.m_h_inpfile.length) (i : Nat) (hi : i ≤ bs.length) :
    ((List.range i).foldl (pass0_step C G bs) (s0, 0)).2 = blockStart bs i ∧
    SameConfig s0 ((List.range i).foldl (pass0_step C G bs) (s0, 0)).1 ∧
    ((List.range i).foldl (pass0_step C G bs) (s0, 0)).1.m_h_outfile.length =
      blockStart bs i ∧
    ((List.range i).foldl (pass0_step C G bs) (s0, 0)).1.m_h_outfile.Perm
      (s0.m_h_inpfile.take (blockStart bs i)) ∧
    (∀ b, b < i →
      ((((List.range i).foldl (pass0_step C G bs) (s0, 0)).1.m_h_outfile.drop
        (blockStart bs b)).take (bs.getD b 0)).Pairwise
          (fun x y => ordLe C G s0.m_sorting_order x y = true)) := by
  induction i with
  | zero =>
    simp [blockStart_zero, hout, SameConfig.refl]
  | succ i ih =>
    obtain ⟨h1, h2, h3, h4, h5⟩ := ih (by omega)
    rw [List.range_succ, List.foldl_append]
    simp only [List.foldl_cons, List.foldl_nil]
    generalize (List.range i).foldl (pass0_step C G bs) (s0, 0) = acc at h1 h2 h3 h4 h5
    have hnext := blockStart_succ bs i
    have hle := blockStart_mono bs (show i + 1 ≤ bs.length by omega)
    obtain ⟨e1, e2, e3⟩ := FileSorter.TwoPassMergeSort_range_exact C G hC acc.1 acc.2
      (bs.getD i 0) ((acc.2 : Int) + (bs.getD i 0 : Int) - 1) (by omega)
      (by rw [h2.size_eq]; exact hsize i (by omega))
      (by rw [h2.inp_eq, h1]; omega) (by rw [h3, h1])
    have hstep : pass0_step C G bs acc i =
        ((acc.1.TwoPassMergeSort_range C G acc.2
          ((acc.2 : Int) + (bs.getD i 0 : Int) - 1)).1, acc.2 + bs.getD i 0) := by
      unfold pass0_step
      simp only [e3]
      rfl
    rw [hstep]
    simp only
    have hS := ((hC.sort_comp acc.1.m_sorting_order)
      ((acc.1.m_h_inpfile.drop acc.2).take (bs.getD i 0))).1
    have hSlen : (C.sort (if acc.1.m_sorting_order = 1 then Record.lt C G else Record.gt C G)
        ((acc.1.m_h_inpfile.drop acc.2).take (bs.getD i 0))).length = bs.getD i 0 := by
      rw [hS.length_eq, List.length_take, List.length_drop, h2.inp_eq, h1]; omega
    refine ⟨by rw [h1, hnext], h2.trans e2, ?_, ?_, ?_⟩
    · rw [e1, List.length_append, h3, hSlen, hnext]
    · rw [e1, hnext, List.take_add, h2.inp_eq, h1]
      exact h4.append (by rw [h2.inp_eq, h1] at hS; exact hS)
    · intro b hb
      rw [e1]
      by_cases hbi : b < i
      · have hb1 := blockStart_succ bs b
        have hb2 := blockStart_mono bs (show b + 1 ≤ i by omega)
        rw [List.drop_append_of_le_length (by omega),
          List.take_append_of_le_length (by rw [List.length_drop]; omega)]
        exact h5 b hbi
      · have hbe : b = i := by omega
        subst hbe
        rw [← h3, List.drop_left, List.take_of_length_le (by omega), h2.order_eq]
        exact sort_pairwise_ordLe hC _ _

theorem blockStart_length (bs : List Nat) : blockStart bs bs.length = bs.sum := by
  simp [blockStart]

theorem getD_mem_of_lt (bs : List Nat) (b : Nat) (hb : b < bs.length) :
    bs.getD b 0 ∈ bs := by
  rw [List.getD_eq_getElem _ _ hb]
  exact List.getElem_mem hb

theorem pass0_spec (C : Cxx) (G : Globals) (hC : C.Conforms G) (in_file : List Record)
    (B k r : Nat) (hN : CountRecords (fileBytes in_file) = in_file.length)
    (hlen : in_file.length = k * B + r) (hr : 0 < r) (hrB : r < B) :
    (pass0 C G in_file B).1 = List.replicate k B ++ [r] ∧
    (pass0 C G in_file B).2.m_h_outfile.Perm in_file ∧
    RunFile C G G.SORTING_ORDER (pass0 C G in_file B).2.m_h_outfile (pass0 C G in_file B).1 ∧
    (pass0 C G in_file B).2.GetNumRecords = in_file.length := by
  have hbs : (pass0 C G in_file B).1 = List.replicate k B ++ [r] :=
    pass0_block_sizes_rem_eq _ B k r (hN.trans hlen) hr hrB
  have hnb := get_num_blocks_remainder B k r hr hrB
  have hmem : ∀ b, b < (List.replicate k B ++ [r]).length →
      0 < (List.replicate k B ++ [r]).getD b 0 ∧ (List.replicate k B ++ [r]).getD b 0 ≤ B := by
    intro b hb
    have := getD_mem_of_lt _ b hb
    rw [List.mem_append, List.mem_replicate, List.mem_singleton] at this
    rcases this with ⟨-, h⟩ | h <;> omega
  have hsum : blockStart (List.replicate k B ++ [r]) (List.replicate k B ++ [r]).length =
      in_file.length := by
    rw [blockStart_length, hlen]
    simp
  have hloop := pass0_loop C G hC (FileSorter.ctor in_file B G.SORTING_ORDER)
    (List.replicate k B ++ [r]) rfl (fun b hb => (hmem b hb).2) (by rw [hsum]; exact le_refl _)
    (List.replicate k B ++ [r]).length (le_refl _)
  have hpass : (pass0 C G in_file B).2 =
      ((List.range (List.replicate k B ++ [r]).length).foldl
        (pass0_step C G (List.replicate k B ++ [r]))
        (FileSorter.ctor in_file B G.SORTING_ORDER, 0)).1 := by
    have h1 : pass0_block_sizes (k * B + r) B = List.replicate k B ++ [r] := by
      rw [← hlen, ← hN]; exact hbs
    simp only [pass0, FileSorter.GetNumRecords, FileSorter.ctor, hN, hlen, hnb, h1]
    simp
  obtain ⟨-, h2, h3, h4, h5⟩ := hloop
  rw [hbs, hpass]
  refine ⟨rfl, ?_, ⟨by rw [h3], fun b hb => (hmem b hb).1, h5⟩, ?_⟩
  · rw [hsum] at h4
    simpa [FileSorter.ctor] using h4
  · rw [FileSorter.GetNumRecords, h2.count_eq]
    exact hN

/-- When the record count is `(k + 1) * B`, the file `pass0` writes holds only the first
`k * B` records, sorted block by block: the last `B` records are in no block. -/
theorem pass0_divisible_drops_block (C : Cxx) (G : Globals) (hC : C.Conforms G)
    (in_file : List Record) (B k : Nat) (hB : 0 < B)
    (hN : CountRecords (fileBytes in_file) = in_file.length)
    (hlen : in_file.length = (k + 1) * B) :
    (pass0 C G in_file B).2.m_h_outfile.length = k * B ∧
    (pass0 C G in_file B).2.m_h_outfile.Perm (in_file.take (k * B)) := by
  have hbs := pass0_block_sizes_divisible C G in_file B k (hN.trans hlen) hB
  have hnb := get_num_blocks_divisible B (k + 1) hB
  have hmem : ∀ b, b < (List.replicate k B ++ [0]).length →
      (List.replicate k B ++ [0]).getD b 0 ≤ B := by
    intro b hb
    have := getD_mem_of_lt _ b hb
    rw [List.mem_append, List.mem_replicate, List.mem_singleton] at this
    rcases this with ⟨-, h⟩ | h <;> omega
  have hsum : blockStart (List.replicate k B ++ [0]) (List.replicate k B ++ [0]).length =
      k * B := by
    rw [blockStart_length]
    simp
  have hsucc : (k + 1) * B = k * B + B := Nat.succ_mul k B
  have hloop := pass0_loop C G hC (FileSorter.ctor in_file B G.SORTING_ORDER)
    (List.replicate k B ++ [0]) rfl hmem
    (by rw [hsum]; simp only [FileSorter.ctor]; omega)
    (List.replicate k B ++ [0]).length (le_refl _)
  have hpass : (pass0 C G in_file B).2 =
      ((List.range (List.replicate k B ++ [0]).length).foldl
        (pass0_step C G (List.replicate k B ++ [0]))
        (FileSorter.ctor in_file B G.SORTING_ORDER, 0)).1 := by
    have h1 : pass0_block_sizes ((k + 1) * B) B = List.replicate k B ++ [0] := by
      rw [← hlen, ← hN]; exact hbs
    simp only [pass0, FileSorter.GetNumRecords, FileSorter.ctor, hN, hlen, hnb, h1]
    simp
  obtain ⟨-, -, h3, h4, -⟩ := hloop
  rw [hpass]
  rw [hsum] at h3 h4
  exact ⟨h3, by simpa [FileSorter.ctor] using h4⟩

theorem pass0_divisible_drops_block_witness :
    (pass0 demoCxx demoGlobals (demoFile [3, 1, 4, 1, 5, 9]) 3).2.m_h_outfile.length = 1 * 3 :=
  (pass0_divisible_drops_block demoCxx demoGlobals
    (refCxx_conforms true ⟨[0, 0]⟩ demoGlobals) (demoFile [3, 1, 4, 1, 5, 9]) 3 1
    (by decide) (by decide) (by decide)).1

/-! ## The merge appends to the output file -/

theorem FileSorter.copyLoop_exact (C : Cxx) (G : Globals) (n i : Nat) (s : FileSorter)
    (hout : s.m_h_outfile.length = i) (hin : i + n ≤ s.m_h_inpfile.length) :
    (FileSorter.copyLoop C G n i s).m_h_outfile =
        s.m_h_outfile ++ (s.m_h_inpfile.drop i).take n ∧
      SameConfig s (FileSorter.copyLoop C G n i s) := by
  induction n generalizing i s with
  | zero => simp [FileSorter.copyLoop, SameConfig.refl]
  | succ n ih =>
    simp only [FileSorter.copyLoop]
    have hi : i < s.m_h_inpfile.length := by omega
    obtain ⟨h1, h2⟩ := ih (i + 1) ((s.ReadRecord C i).2.WriteRecord G i (s.ReadRecord C i).1)
      (by simp [← hout, writeAt_end])
      (by simp only [FileSorter.WriteRecord_inp, FileSorter.ReadRecord_inp]; omega)
    refine ⟨?_, ((SameConfig.read C s i).trans (SameConfig.write G _ _ _)).trans h2⟩
    rw [h1]
    simp only [FileSorter.WriteRecord_out, FileSorter.ReadRecord_out,
      FileSorter.WriteRecord_inp, FileSorter.ReadRecord_inp, FileSorter.ReadRecord_fst]
    rw [← hout, writeAt_end, hout, List.getD_eq_getElem _ _ hi, List.drop_eq_getElem_cons hi,
      List.take_succ_cons]
    simp

theorem FileSorter.seedBody_frame (C : Cxx) (G : Globals) (sb : Nat) (bs : List Nat)
    (i : Nat) (st : MergeState) :
    (FileSorter.seedBody C G sb bs i st).sorter.m_h_outfile = st.sorter.m_h_outfile ∧
    (FileSorter.seedBody C G sb bs i st).current_record = st.current_record ∧
    SameConfig st.sorter (FileSorter.seedBody C G sb bs i st).sorter := by
  unfold FileSorter.seedBody
  simp only
  split_ifs
  · exact ⟨rfl, rfl, (SameConfig.read C _ _).trans (SameConfig.perror _ _)⟩
  · exact ⟨rfl, rfl, SameConfig.read C _ _⟩

theorem FileSorter.seedLoop_frame (C : Cxx) (G : Globals) (sb : Nat) (bs : List Nat)
    (n i : Nat) (st : MergeState) :
    (FileSorter.seedLoop C G sb bs n i st).sorter.m_h_outfile = st.sorter.m_h_outfile ∧
    (FileSorter.seedLoop C G sb bs n i st).current_record = st.current_record ∧
    SameConfig st.sorter (FileSorter.seedLoop C G sb bs n i st).sorter := by
  induction n generalizing i st with
  | zero => exact ⟨rfl, rfl, SameConfig.refl _⟩
  | succ n ih =>
    unfold FileSorter.seedLoop
    obtain ⟨h1, h2, h3⟩ := FileSorter.seedBody_frame C G sb bs i st
    simp only
    split_ifs
    · exact ⟨h1, h2, h3⟩
    · obtain ⟨e1, e2, e3⟩ := ih (i + 1) (FileSorter.seedBody C G sb bs i st)
      exact ⟨e1.trans h1, e2.trans h2, h3.trans e3⟩

theorem FileSorter.mergeBody_frame (C : Cxx) (G : Globals) (sb : Nat) (bs : List Nat)
    (start : Nat) (st : MergeState) (r : RecWithBlockIndex) :
    (FileSorter.mergeBody C G sb bs start st r).sorter.m_h_outfile =
      writeAt G st.sorter.m_h_outfile st.current_record r.value ∧
    SameConfig st.sorter (FileSorter.mergeBody C G sb bs start st r).sorter := by
  unfold FileSorter.mergeBody
  simp only
  split_ifs
  · exact ⟨rfl, ((SameConfig.write G _ _ _).trans (SameConfig.read C _ _)).trans
      (SameConfig.perror _ _)⟩
  · exact ⟨rfl, (SameConfig.write G _ _ _).trans (SameConfig.read C _ _)⟩
  · exact ⟨rfl, SameConfig.write G _ _ _⟩

theorem FileSorter.mergeLoop_frame (C : Cxx) (G : Globals) (sb : Nat) (bs : List Nat)
    (start end_record fuel : Nat) (st : MergeState)
    (hout : st.sorter.m_h_outfile.length = st.current_record) :
    (FileSorter.mergeLoop C G sb bs start end_record fuel st).sorter.m_h_outfile.length =
      (FileSorter.mergeLoop C G sb bs start end_record fuel st).current_record ∧
    (FileSorter.mergeLoop C G sb bs start end_record fuel st).sorter.m_h_outfile.take
      st.current_record = st.sorter.m_h_outfile ∧
    SameConfig st.sorter (FileSorter.mergeLoop C G sb bs start end_record fuel st).sorter := by
  induction fuel generalizing st with
  | zero =>
    simp only [FileSorter.mergeLoop]
    exact ⟨hout, by rw [← hout, List.take_length], SameConfig.refl _⟩
  | succ fuel ih =>
    have hself : st.sorter.m_h_outfile.length = st.current_record ∧
        st.sorter.m_h_outfile.take st.current_record = st.sorter.m_h_outfile ∧
        SameConfig st.sorter st.sorter :=
      ⟨hout, by rw [← hout, List.take_length], SameConfig.refl _⟩
    unfold FileSorter.mergeLoop
    split_ifs with hcond
    · cases htop : st.buffer.top with
      | none => exact hself
      | some r =>
        simp only
        obtain ⟨h1, h2⟩ := FileSorter.mergeBody_frame C G sb bs start st r
        have h3 := FileSorter.mergeBody_current_record C G sb bs start st r
        have hw : (FileSorter.mergeBody C G sb bs start st r).sorter.m_h_outfile =
            st.sorter.m_h_outfile ++ [r.value] := by
          rw [h1, ← hout, writeAt_end]
        split_ifs
        · refine ⟨by rw [hw, h3, List.length_append, hout]; rfl, ?_, h2⟩
          rw [hw, ← hout, List.take_left]
        · obtain ⟨e1, e2, e3⟩ := ih (FileSorter.mergeBody C G sb bs start st r)
            (by rw [hw, h3, List.length_append, hout]; rfl)
          refine ⟨e1, ?_, h2.trans e3⟩
          have := congrArg (List.take st.current_record) e2
          rw [List.take_take, h3, Nat.min_eq_left (by omega), hw, ← hout,
            List.take_left] at this
          rw [← hout]
          exact this
    · exact hself

theorem FileSorter.mergeRun_frame (C : Cxx) (G : Globals) (s : FileSorter) (sb : Nat)
    (bs : List Nat) (n start end_record : Nat) (hout : s.m_h_outfile.length = start) :
    (s.mergeRun C G sb bs n start end_record).sorter.m_h_outfile.length =
      (s.mergeRun C G sb bs n start end_record).current_record ∧
    (s.mergeRun C G sb bs n start end_record).sorter.m_h_outfile.take start = s.m_h_outfile ∧
    SameConfig s (s.mergeRun C G sb bs n start end_record).sorter := by
  unfold FileSorter.mergeRun
  simp only
  obtain ⟨h1, h2, h3⟩ := FileSorter.seedLoop_frame C G sb bs n 0
    { sorter := s, buffer := Buffer.ctor n s.m_sorting_order,
      current_block_record_indices := List.replicate bs.length 0,
      record_index := start, current_record := start, failed := false }
  simp only at h1 h2 h3
  split_ifs
  · refine ⟨by rw [h1, h2, hout], ?_, h3⟩
    rw [h1, ← hout, List.take_length]
  · obtain ⟨e1, e2, e3⟩ := FileSorter.mergeLoop_frame C G sb bs start end_record
      (end_record - start) _ (by rw [h1, h2, hout])
    rw [h2, h1] at e2
    exact ⟨e1, e2, h3.trans e3⟩

/-! ## One merge pass over a file of sorted runs -/

theorem FileSorter.TwoPassMergeSort_merge_exact (C : Cxx) (G : Globals) (hC : C.Conforms G)
    (s : FileSorter) (sb : Nat) (bs : List Nat) (n : Nat) (hn : 1 ≤ n)
    (hlen : sb + n ≤ bs.length)
    (hfile : RunFile C G s.m_sorting_order s.m_h_inpfile bs)
    (hout : s.m_h_outfile.length = blockStart bs sb) :
    ∃ W : List Record,
      (s.TwoPassMergeSort_merge C G sb bs n (blockStart bs sb)
        (blockStart bs (sb + n))).1.m_h_outfile = s.m_h_outfile ++ W ∧
      W.Perm ((s.m_h_inpfile.drop (blockStart bs sb)).take
        (blockStart bs (sb + n) - blockStart bs sb)) ∧
      W.Pairwise (fun x y => ordLe C G s.m_sorting_order x y = true) ∧
      SameConfig s (s.TwoPassMergeSort_merge C G sb bs n (blockStart bs sb)
        (blockStart bs (sb + n))).1 ∧
      (s.TwoPassMergeSort_merge C G sb bs n (blockStart bs sb)
        (blockStart bs (sb + n))).2 = 1 := by
  have hend : blockStart bs (sb + n) ≤ s.m_h_inpfile.length := by
    rw [← hfile.sum_eq]; exact blockStart_mono bs hlen
  have hmono := blockStart_mono bs (show sb ≤ sb + n by omega)
  by_cases h1 : n = 1
  · subst h1
    have hsz := blockStart_succ bs sb
    obtain ⟨e1, e2⟩ := FileSorter.copyLoop_exact C G
      (blockStart bs (sb + 1) - blockStart bs sb) (blockStart bs sb) s hout (by omega)
    refine ⟨_, ?_, List.Perm.refl _, ?_, ?_, ?_⟩
    · simp only [FileSorter.TwoPassMergeSort_merge]
      exact e1
    · rw [show blockStart bs (sb + 1) - blockStart bs sb = bs.getD sb 0 by omega]
      exact hfile.sorted sb (by omega)
    · simp only [FileSorter.TwoPassMergeSort_merge]
      exact e2
    · simp [FileSorter.TwoPassMergeSort_merge]
  · have hpos : ∀ b, sb ≤ b → b < sb + n → 0 < bs.getD b 0 :=
      fun b _ hb => hfile.pos b (by omega)
    obtain ⟨hperm, hsorted, hnf⟩ := FileSorter.mergeRun_out C G hC s sb bs n
      (blockStart bs sb) (blockStart bs (sb + n)) hlen hpos rfl rfl hend
    obtain ⟨-, -, -, -, -, hcur, -⟩ := FileSorter.mergeRun_spec C G hC s sb bs n
      (blockStart bs sb) (blockStart bs (sb + n)) hlen hpos rfl rfl
    obtain ⟨f1, f2, f3⟩ := FileSorter.mergeRun_frame C G s sb bs n (blockStart bs sb)
      (blockStart bs (sb + n)) hout
    rw [hcur] at f1
    have hmerge : s.TwoPassMergeSort_merge C G sb bs n (blockStart bs sb)
        (blockStart bs (sb + n)) =
        ((s.mergeRun C G sb bs n (blockStart bs sb) (blockStart bs (sb + n))).sorter, 1) := by
      unfold FileSorter.TwoPassMergeSort_merge
      rw [if_neg (by omega), if_neg h1]
      simp [hnf]
    rw [hmerge]
    have hfull : ((s.mergeRun C G sb bs n (blockStart bs sb)
        (blockStart bs (sb + n))).sorter.m_h_outfile.drop (blockStart bs sb)).take
        (blockStart bs (sb + n) - blockStart bs sb) =
        (s.mergeRun C G sb bs n (blockStart bs sb)
          (blockStart bs (sb + n))).sorter.m_h_outfile.drop (blockStart bs sb) := by
      rw [List.take_of_length_le (by rw [List.length_drop, f1])]
    rw [hfull] at hperm hsorted
    refine ⟨_, ?_, hperm, hsorted (fun b _ hb => hfile.sorted b (by omega)), f3, rfl⟩
    simp only
    rw [← f2, List.take_append_drop]

theorem foldl_range_getD (bs : List Nat) (a : Nat) :
    (List.range a).foldl (fun acc i => acc + bs.getD i 0) 0 = blockStart bs a := by
  have := foldl_add_getD bs 0 a 0
  rw [blockStart_zero, Nat.zero_add, Nat.zero_add, Nat.add_zero, ← List.range_eq_range'] at this
  exact this

theorem foldl_range'_getD (bs : List Nat) (a m : Nat) :
    (List.range' a m).foldl (fun acc i => acc + bs.getD i 0) (blockStart bs a) =
      blockStart bs (a + m) := by
  have := foldl_add_getD bs a m (blockStart bs a)
  omega

theorem merge_blocks_exact (C : Cxx) (G : Globals) (hC : C.Conforms G)
    (s : FileSorter) (sb : Nat) (bs : List Nat) (n : Nat) (hn : 1 ≤ n)
    (hlen : sb + n ≤ bs.length)
    (hfile : RunFile C G s.m_sorting_order s.m_h_inpfile bs)
    (hout : s.m_h_outfile.length = blockStart bs sb) :
    (merge_blocks C G s bs sb n).1 = blockStart bs (sb + n) - blockStart bs sb ∧
    SameConfig s (merge_blocks C G s bs sb n).2 ∧
    ∃ W : List Record,
      (merge_blocks C G s bs sb n).2.m_h_outfile = s.m_h_outfile ++ W ∧
      W.Perm ((s.m_h_inpfile.drop (blockStart bs sb)).take
        (blockStart bs (sb + n) - blockStart bs sb)) ∧
      W.Pairwise (fun x y => ordLe C G s.m_sorting_order x y = true) := by
  obtain ⟨W, h1, h2, h3, h4, h5⟩ :=
    FileSorter.TwoPassMergeSort_merge_exact C G hC s sb bs n hn hlen hfile hout
  unfold merge_blocks
  simp only [foldl_range_getD, foldl_range'_getD, h5]
  exact ⟨trivial, h4, W, h1, h2, h3⟩

theorem lt_get_num_blocks_iff (R B i : Nat) (hB : 1 ≤ B) :
    i < get_num_blocks R B ↔ i * B < R := by
  unfold get_num_blocks
  rw [Nat.lt_iff_add_one_le, Nat.le_div_iff_mul_le (by omega), Nat.succ_mul]
  omega

theorem pass_loop (C : Cxx) (G : Globals) (hC : C.Conforms G) (B : Nat) (hB : 1 ≤ B)
    (bs : List Nat) (s0 : FileSorter) (hout : s0.m_h_outfile = [])
    (hfile : RunFile C G s0.m_sorting_order s0.m_h_inpfile bs) (i : Nat)
    (hi : i ≤ get_num_blocks bs.length B) :
    ((List.range i).foldl (pass_step C G bs B)
        { sorter := s0, new_block_sizes := List.replicate (get_num_blocks bs.length B) 0,
          num_of_blocks := bs.length, start_block := 0 }).start_block =
      min (i * B) bs.length ∧
    ((List.range i).foldl (pass_step C G bs B)
        { sorter := s0, new_block_sizes := List.replicate (get_num_blocks bs.length B) 0,
          num_of_blocks := bs.length, start_block := 0 }).num_of_blocks =
      bs.length - min (i * B) bs.length ∧
    SameConfig s0 ((List.range i).foldl (pass_step C G bs B)
        { sorter := s0, new_block_sizes := List.replicate (get_num_blocks bs.length B) 0,
          num_of_blocks := bs.length, start_block := 0 }).sorter ∧
    ((List.range i).foldl (pass_step C G bs B)
        { sorter := s0, new_block_sizes := List.replicate (get_num_blocks bs.length B) 0,
          num_of_blocks := bs.length, start_block := 0 }).sorter.m_h_outfile.length =
      blockStart bs (min (i * B) bs.length) ∧
    ((List.range i).foldl (pass_step C G bs B)
        { sorter := s0, new_block_sizes := List.replicate (get_num_blocks bs.length B) 0,
          num_of_blocks := bs.length, start_block := 0 }).sorter.m_h_outfile.Perm
      (s0.m_h_inpfile.take (blockStart bs (min (i * B) bs.length))) ∧
    ((List.range i).foldl (pass_step C G bs B)
        { sorter := s0, new_block_sizes := List.replicate (get_num_blocks bs.length B) 0,
          num_of_blocks := bs.length, start_block := 0 }).new_block_sizes.length =
      get_num_blocks bs.length B ∧
    (∀ g, g < i →
      ((List.range i).foldl (pass_step C G bs B)
        { sorter := s0, new_block_sizes := List.replicate (get_num_blocks bs.length B) 0,
          num_of_blocks := bs.length, start_block := 0 }).new_block_sizes.getD g 0 =
        blockStart bs (min ((g + 1) * B) bs.length) - blockStart bs (min (g * B) bs.length)) ∧
    (∀ g, g < i →
      ((((List.range i).foldl (pass_step C G bs B)
        { sorter := s0, new_block_sizes := List.replicate (get_num_blocks bs.length B) 0,
          num_of_blocks := bs.length, start_block := 0 }).sorter.m_h_outfile.drop
          (blockStart bs (min (g * B) bs.length))).take
          (blockStart bs (min ((g + 1) * B) bs.length) -
            blockStart bs (min (g * B) bs.length))).Pairwise
        (fun x y => ordLe C G s0.m_sorting_order x y = true)) := by
  induction i with
  | zero =>
    simp [blockStart_zero, hout, SameConfig.refl]
  | succ i ih =>
    obtain ⟨h1, h2, h3, h4, h5, h6, h7, h8⟩ := ih (by omega)
    rw [List.range_succ, List.foldl_append]
    simp only [List.foldl_cons, List.foldl_nil]
    generalize (List.range i).foldl (pass_step C G bs B)
      { sorter := s0, new_block_sizes := List.replicate (get_num_blocks bs.length B) 0,
        num_of_blocks := bs.length, start_block := 0 } = st at h1 h2 h3 h4 h5 h6 h7 h8
    have hiR : i * B < bs.length := (lt_get_num_blocks_iff _ _ _ hB).1 (by omega)
    have hsucc : (i + 1) * B = i * B + B := Nat.succ_mul i B
    have hsb : st.start_block = i * B := by rw [h1]; omega
    have hn : min st.num_of_blocks B = min ((i + 1) * B) bs.length - i * B := by
      rw [h2]; omega
    have hn1 : 1 ≤ min ((i + 1) * B) bs.length - i * B := by omega
    have hsbn : i * B + (min ((i + 1) * B) bs.length - i * B) = min ((i + 1) * B) bs.length := by
      omega
    obtain ⟨m1, m2, W, m3, m4, m5⟩ := merge_blocks_exact C G hC st.sorter (i * B) bs
      (min ((i + 1) * B) bs.length - i * B) hn1 (by omega)
      (by rw [h3.order_eq, h3.inp_eq]; exact hfile)
      (by rw [h4]; congr 1; omega)
    rw [hsbn] at m1 m4
    rw [h3.inp_eq] at m4
    rw [h3.order_eq] at m5
    have hend : blockStart bs (min ((i + 1) * B) bs.length) ≤ s0.m_h_inpfile.length := by
      rw [← hfile.sum_eq]; exact blockStart_mono bs (by omega)
    have hmono : blockStart bs (i * B) ≤ blockStart bs (min ((i + 1) * B) bs.length) :=
      blockStart_mono bs (by omega)
    have hWlen : W.length = blockStart bs (min ((i + 1) * B) bs.length) -
        blockStart bs (i * B) := by
      rw [m4.length_eq, List.length_take, List.length_drop]; omega
    have hmin : min (i * B) bs.length = i * B := by omega
    rw [hmin] at h4 h5
    unfold pass_step
    simp only [hsb, hn]
    refine ⟨by omega, by rw [h2]; omega, h3.trans m2, ?_, ?_, by simp [h6], ?_, ?_⟩
    · rw [m3, List.length_append, h4, hWlen]; omega
    · rw [m3, show blockStart bs (min ((i + 1) * B) bs.length) =
        blockStart bs (i * B) + (blockStart bs (min ((i + 1) * B) bs.length) -
          blockStart bs (i * B)) by omega, List.take_add]
      exact h5.append m4
    · intro g hg
      by_cases hgi : g < i
      · rw [List.getD_eq_getElem?_getD, List.getElem?_set_ne (by omega),
          ← List.getD_eq_getElem?_getD]
        exact h7 g hgi
      · have hge : g = i := by omega
        subst hge
        rw [List.getD_eq_getElem _ _ (by simp [h6]; omega)]
        simp only [List.getElem_set_self]
        rw [m1, hmin]
    · intro g hg
      rw [m3]
      by_cases hgi : g < i
      · have hg1 : (g + 1) * B ≤ i * B := Nat.mul_le_mul_right B (by omega)
        have hg2 : g * B ≤ (g + 1) * B := Nat.mul_le_mul_right B (by omega)
        have hb1 := blockStart_mono bs (show min ((g + 1) * B) bs.length ≤ i * B by omega)
        have hb2 := blockStart_mono bs
          (show min (g * B) bs.length ≤ min ((g + 1) * B) bs.length by omega)
        rw [List.drop_append_of_le_length (by omega),
          List.take_append_of_le_length (by rw [List.length_drop]; omega)]
        exact h8 g hgi
      · have hge : g = i := by omega
        subst hge
        rw [hmin, ← h4, List.drop_left, List.take_of_length_le (by rw [hWlen, h4])]
        exact m5

theorem blockStart_of_diffs (new : List Nat) (F : Nat → Nat) (L : Nat) (hF0 : F 0 = 0)
    (hmono : ∀ g, g < L → F g ≤ F (g + 1))
    (hdiff : ∀ g, g < L → new.getD g 0 = F (g + 1) - F g) (g : Nat) (hg : g ≤ L) :
    blockStart new g = F g := by
  induction g with
  | zero => rw [blockStart_zero, hF0]
  | succ g ih =>
    rw [blockStart_succ, ih (by omega), hdiff g (by omega)]
    have := hmono g (by omega)
    omega

theorem pass_spec (C : Cxx) (G : Globals) (hC : C.Conforms G) (in_file : List Record)
    (B : Nat) (hB : 1 ≤ B) (bs : List Nat)
    (hfile : RunFile C G G.SORTING_ORDER in_file bs) :
    (pass C G in_file B bs).1.length = get_num_blocks bs.length B ∧
    (pass C G in_file B bs).2.m_h_outfile.Perm in_file ∧
    RunFile C G G.SORTING_ORDER (pass C G in_file B bs).2.m_h_outfile
      (pass C G in_file B bs).1 ∧
    (∀ g, g < get_num_blocks bs.length B →
      (pass C G in_file B bs).1.getD g 0 =
        blockStart bs (min ((g + 1) * B) bs.length) - blockStart bs (min (g * B) bs.length)) := by
  obtain ⟨-, -, -, h4, h5, h6, h7, h8⟩ := pass_loop C G hC B hB bs
    (FileSorter.ctor in_file B G.SORTING_ORDER) rfl hfile (get_num_blocks bs.length B)
    (le_refl _)
  have hpass : pass C G in_file B bs =
      (((List.range (get_num_blocks bs.length B)).foldl (pass_step C G bs B)
        { sorter := FileSorter.ctor in_file B G.SORTING_ORDER,
          new_block_sizes := List.replicate (get_num_blocks bs.length B) 0,
          num_of_blocks := bs.length, start_block := 0 }).new_block_sizes,
       ((List.range (get_num_blocks bs.length B)).foldl (pass_step C G bs B)
        { sorter := FileSorter.ctor in_file B G.SORTING_ORDER,
          new_block_sizes := List.replicate (get_num_blocks bs.length B) 0,
          num_of_blocks := bs.length, start_block := 0 }).sorter) := rfl
  rw [hpass]
  simp only
  generalize (List.range (get_num_blocks bs.length B)).foldl (pass_step C G bs B)
    { sorter := FileSorter.ctor in_file B G.SORTING_ORDER,
      new_block_sizes := List.replicate (get_num_blocks bs.length B) 0,
      num_of_blocks := bs.length, start_block := 0 } = st at h4 h5 h6 h7 h8
  have hLB : ¬ get_num_blocks bs.length B * B < bs.length := by
    rw [← lt_get_num_blocks_iff _ _ _ hB]; omega
  have hminL : min (get_num_blocks bs.length B * B) bs.length = bs.length := by omega
  rw [hminL] at h4 h5
  have hin : (FileSorter.ctor in_file B G.SORTING_ORDER).m_h_inpfile = in_file := rfl
  have hord : (FileSorter.ctor in_file B G.SORTING_ORDER).m_sorting_order =
      G.SORTING_ORDER := rfl
  rw [hin, hfile.sum_eq, List.take_length] at h5
  rw [hord] at h8
  have hFmono : ∀ g, g < get_num_blocks bs.length B →
      blockStart bs (min (g * B) bs.length) ≤ blockStart bs (min ((g + 1) * B) bs.length) := by
    intro g _
    have : g * B ≤ (g + 1) * B := Nat.mul_le_mul_right B (by omega)
    exact blockStart_mono bs (by omega)
  have hstart := blockStart_of_diffs st.new_block_sizes
    (fun g => blockStart bs (min (g * B) bs.length)) (get_num_blocks bs.length B)
    (by simp [blockStart_zero]) hFmono h7
  refine ⟨h6, h5, ⟨?_, ?_, ?_⟩, h7⟩
  · rw [h6, hstart _ (le_refl _), h4]
    simp only
    rw [hminL]
  · intro g hg
    rw [h6] at hg
    rw [h7 g hg]
    have hgR : g * B < bs.length := (lt_get_num_blocks_iff _ _ _ hB).1 hg
    have hs : (g + 1) * B = g * B + B := Nat.succ_mul g B
    have h1 := blockStart_mono bs (show g * B + 1 ≤ min ((g + 1) * B) bs.length by omega)
    have h2 := blockStart_succ bs (g * B)
    have h3 := hfile.pos (g * B) hgR
    rw [show min (g * B) bs.length = g * B by omega]
    omega
  · intro g hg
    rw [h6] at hg
    rw [hstart g (by omega), h7 g hg]
    exact h8 g hg

/-! ## The whole run when the buffer size does not divide the record count -/

theorem runsAfter_succ (B t R : Nat) :
    runsAfter B (t + 1) R = get_num_blocks (runsAfter B t R) B := by
  induction t generalizing R with
  | zero => rfl
  | succ t ih =>
    rw [runsAfter, ih]
    rfl

theorem get_num_blocks_le_pow (B t R : Nat) (hB : 1 ≤ B) (hR1 : 1 ≤ R)
    (hR : R ≤ B ^ (t + 1)) :
    1 ≤ get_num_blocks R B ∧ get_num_blocks R B ≤ B ^ t := by
  unfold get_num_blocks
  rw [Nat.pow_succ] at hR
  constructor
  · rw [Nat.le_div_iff_mul_le (by omega)]; omega
  · apply Nat.le_of_lt_succ
    rw [Nat.div_lt_iff_lt_mul (by omega), Nat.succ_mul]
    omega

theorem runsAfter_eq_one (B t R : Nat) (hB : 1 ≤ B) (hR1 : 1 ≤ R) (hR : R ≤ B ^ t) :
    runsAfter B t R = 1 := by
  induction t generalizing R with
  | zero =>
    simp only [runsAfter]
    simp at hR
    omega
  | succ t ih =>
    obtain ⟨h1, h2⟩ := get_num_blocks_le_pow B t R hB hR1 hR
    rw [runsAfter]
    exact ih _ h1 h2

theorem get_num_passes_loop_spec (B x fuel k : Nat) (h : x ≤ B ^ (k + fuel)) :
    x ≤ B ^ (get_num_passes.loop B x fuel k (B ^ k)) := by
  induction fuel generalizing k with
  | zero => simpa [get_num_passes.loop] using h
  | succ fuel ih =>
    unfold get_num_passes.loop
    split_ifs with hx
    · exact hx
    · rw [← Nat.pow_succ]
      exact ih (k + 1) (by rw [show k + 1 + fuel = k + (fuel + 1) by omega]; exact h)

theorem main_loop_spec (C : Cxx) (G : Globals) (hC : C.Conforms G) (in_file : List Record)
    (B : Nat) (hB : 1 ≤ B) (m : Nat) (file : List Record) (bs : List Nat)
    (hfile : RunFile C G G.SORTING_ORDER file bs) (hperm : file.Perm in_file) :
    RunFile C G G.SORTING_ORDER (main_loop C G B m file bs).1 (main_loop C G B m file bs).2 ∧
    (main_loop C G B m file bs).1.Perm in_file ∧
    (main_loop C G B m file bs).2.length = runsAfter B m bs.length := by
  induction m generalizing file bs with
  | zero => exact ⟨hfile, hperm, rfl⟩
  | succ m ih =>
    obtain ⟨h1, h2, h3, -⟩ := pass_spec C G hC file B hB bs hfile
    simp only [main_loop, runsAfter]
    rw [← h1]
    exact ih _ _ h3 (h2.trans hperm)

/-- The whole run is correct whenever the record count is counted right and is not a
multiple of the buffer size: with `CountRecords` equal to the number `k * B + r` of
records, `0 < r < B` and `B ≥ 2`, `main` (with `get_num_passes` exact) leaves one run, and
the output file is a permutation of the input file, sorted for `SORTING_ORDER`. -/
theorem main_sorts_when_not_divisible (C : Cxx) (G : Globals) (hC : C.Conforms G)
    (in_file : List Record) (B k r : Nat) (hB : 2 ≤ B)
    (hN : CountRecords (fileBytes in_file) = in_file.length)
    (hlen : in_file.length = k * B + r) (hr : 0 < r) (hrB : r < B) :
    (main C G in_file B).1 = [in_file.length] ∧
    (main C G in_file B).2.Perm in_file ∧
    (main C G in_file B).2.Pairwise (fun x y => ordLe C G G.SORTING_ORDER x y = true) := by
  obtain ⟨p1, p2, p3, p4⟩ := pass0_spec C G hC in_file B k r hN hlen hr hrB
  have hR0 : (pass0 C G in_file B).1.length = k + 1 := by rw [p1]; simp
  have hnb : get_num_blocks in_file.length B = k + 1 := by
    rw [hlen]; exact get_num_blocks_remainder B k r hr hrB
  -- the number of passes that run
  have hpow : k + 1 ≤ B ^ (get_num_passes.loop B (k + 1) (k + 1) 0 1) := by
    have h := get_num_passes_loop_spec B (k + 1) (k + 1) 0
      (by
        rw [Nat.zero_add]
        exact le_trans (Nat.le_of_lt (Nat.lt_two_pow (k + 1)))
          (Nat.pow_le_pow_left hB (k + 1)))
    simpa using h
  have hm : k + 1 ≤ B ^ ((get_num_passes (pass0 C G in_file B).2.GetNumRecords B - 1).toNat
      + 1) := by
    refine le_trans hpow (Nat.pow_le_pow_right (by omega) ?_)
    rw [p4]
    simp only [get_num_passes, hnb]
    omega
  obtain ⟨l1, l2, l3⟩ := main_loop_spec C G hC in_file B (by omega)
    (get_num_passes (pass0 C G in_file B).2.GetNumRecords B - 1).toNat _ _ p3 p2
  obtain ⟨f1, f2, f3, -⟩ := pass_spec C G hC _ B (by omega) _ l1
  have hone : (main C G in_file B).1.length = 1 := by
    simp only [main]
    rw [f1, l3, ← runsAfter_succ, hR0]
    exact runsAfter_eq_one B _ (k + 1) (by omega) (by omega) hm
  have hperm : (main C G in_file B).2.Perm in_file := by
    simp only [main]
    exact f2.trans l2
  have hrun : RunFile C G G.SORTING_ORDER (main C G in_file B).2 (main C G in_file B).1 := by
    simp only [main]
    exact f3
  obtain ⟨n1, hn1⟩ := List.length_eq_one.1 hone
  have hsum := hrun.sum_eq
  have hsorted := hrun.sorted 0 (by rw [hone]; omega)
  rw [hn1] at hsum hsorted
  simp [blockStart] at hsum
  simp only [blockStart_zero, List.drop_zero, List.getD_cons_zero] at hsorted
  rw [hsum, List.take_length] at hsorted
  refine ⟨?_, hperm, hsorted⟩
  rw [hn1, hsum, hperm.length_eq]

theorem main_sorts_when_not_divisible_witness :
    (main demoCxx demoGlobals (demoFile [3, 1, 4, 1, 5, 9, 2]) 3).1 =
      [(demoFile [3, 1, 4, 1, 5, 9, 2]).length] :=
  (main_sorts_when_not_divisible demoCxx demoGlobals
    (refCxx_conforms true ⟨[0, 0]⟩ demoGlobals) (demoFile [3, 1, 4, 1, 5, 9, 2]) 3 2 1
    (by decide) (by decide) (by decide) (by decide) (by decide)).1

/-! ## A buffer of three records -/

/-- One megabyte of memory and records of 174762 bytes give a buffer of three records, the
buffer size of the sample runs. -/
theorem GetBufferSize_three :
    GetBufferSize 1 { KEY_SIZE := 1, SIZE_OF_REC := 174762, SORTING_ORDER := 1 } = 3 := by
  decide

/-! ## The whole run when the buffer size divides the record count -/

/-- C1, the code at six records and a buffer of three: `pass0` leaves block sizes
`[3, 0]`, the one merge pass that follows reads the first record of the empty block past
the end of `pass0.dat`, and the output file holds three records, not six. -/
theorem main_divisible_output :
    main demoCxx demoGlobals (demoFile [3, 1, 4, 1, 5, 9]) 3 =
      ([3], [⟨[0, 0]⟩, demoRecord 1, demoRecord 3]) := by
  decide

/-- C2, the code at six records with distinct keys and a buffer of three: the output
file is not a permutation of the input file. -/
theorem main_divisible_not_perm :
    ¬ (main demoCxx demoGlobals (demoFile [3, 1, 4, 7, 5, 9]) 3).2.Perm
      (demoFile [3, 1, 4, 7, 5, 9]) := by
  decide

/-! ## Equality and the key prefix -/

theorem Cxx.toChar_inj (C : Cxx) (a b : Byte) : C.toChar a = C.toChar b ↔ a = b := by
  constructor
  · intro h
    unfold Cxx.toChar at h
    have ha := a.isLt
    have hb := b.isLt
    apply Fin.ext
    split_ifs at h <;> omega
  · intro h; rw [h]

theorem Record.eqLoop_iff (C : Cxx) (r1 r2 : Record) (i n : Nat) :
    Record.eqLoop C r1 r2 i n = true ↔
      ∀ t, t < n → r1.m_chdata.getD (i + t) 0 = r2.m_chdata.getD (i + t) 0 := by
  induction n generalizing i with
  | zero => simp [Record.eqLoop]
  | succ n ih =>
    unfold Record.eqLoop
    by_cases h : r1.m_chdata.getD i 0 = r2.m_chdata.getD i 0
    · have hidx : ¬ Record.index C r1 i ≠ Record.index C r2 i := by
        unfold Record.index
        rw [h]
        exact fun hne => hne rfl
      rw [if_neg hidx, ih (i + 1)]
      constructor
      · intro hall t ht
        cases t with
        | zero => exact h
        | succ t =>
          have := hall t (by omega)
          rw [show i + (t + 1) = i + 1 + t by omega]
          exact this
      · intro hall t ht
        have := hall (t + 1) (by omega)
        rw [show i + (t + 1) = i + 1 + t by omega] at this
        exact this
    · have hidx : Record.index C r1 i ≠ Record.index C r2 i := by
        simp only [Record.index, ne_eq, Cxx.toChar_inj]
        exact h
      rw [if_pos hidx]
      simp only [Bool.false_eq_true, false_iff]
      intro hall
      exact h (hall 0 (by omega))

theorem Record.eqLoop_congr (C : Cxx) (r1 r2 q1 q2 : Record) (i n : Nat)
    (h1 : ∀ t, t < n → r1.m_chdata.getD (i + t) 0 = q1.m_chdata.getD (i + t) 0)
    (h2 : ∀ t, t < n → r2.m_chdata.getD (i + t) 0 = q2.m_chdata.getD (i + t) 0) :
    Record.eqLoop C r1 r2 i n = Record.eqLoop C q1 q2 i n := by
  induction n generalizing i with
  | zero => rfl
  | succ n ih =>
    have a1 := h1 0 (by omega)
    have a2 := h2 0 (by omega)
    simp only [Nat.add_zero] at a1 a2
    simp only [Record.eqLoop, Record.index, a1, a2]
    rw [ih (i + 1)
      (fun t ht => by have := h1 (t + 1) (by omega); rwa [show i + (t + 1) = i + 1 + t by omega] at this)
      (fun t ht => by have := h2 (t + 1) (by omega); rwa [show i + (t + 1) = i + 1 + t by omega] at this)]

theorem Record.ltLoop_congr (C : Cxx) (r1 r2 q1 q2 : Record) (i n : Nat)
    (h1 : ∀ t, t < n → r1.m_chdata.getD (i + t) 0 = q1.m_chdata.getD (i + t) 0)
    (h2 : ∀ t, t < n → r2.m_chdata.getD (i + t) 0 = q2.m_chdata.getD (i + t) 0) :
    Record.ltLoop C r1 r2 i n = Record.ltLoop C q1 q2 i n := by
  induction n generalizing i with
  | zero => rfl
  | succ n ih =>
    have a1 := h1 0 (by omega)
    have a2 := h2 0 (by omega)
    simp only [Nat.add_zero] at a1 a2
    simp only [Record.ltLoop, Record.index, a1, a2]
    rw [ih (i + 1)
      (fun t ht => by have := h1 (t + 1) (by omega); rwa [show i + (t + 1) = i + 1 + t by omega] at this)
      (fun t ht => by have := h2 (t + 1) (by omega); rwa [show i + (t + 1) = i + 1 + t by omega] at this)]

theorem getD_set_of_ne (l : List Byte) (j p : Nat) (b : Byte) (h : p ≠ j) :
    (l.set j b).getD p 0 = l.getD p 0 := by
  rw [List.getD_eq_getElem?_getD, List.getD_eq_getElem?_getD, List.getElem?_set_ne (Ne.symm h)]

/-- C11: `r1 == r2` is true exactly when the bytes of `r1` and `r2` agree at every index
below `KEY_SIZE`; and replacing the byte at an index `j ≥ KEY_SIZE` of either record
changes the result of none of `==`, `<` and `>`. -/
theorem Record.eq_iff_key_bytes (C : Cxx) (G : Globals) (r1 r2 : Record)
    (h1 : G.KEY_SIZE.toNat ≤ r1.m_chdata.length)
    (h2 : G.KEY_SIZE.toNat ≤ r2.m_chdata.length) :
    (Record.eq C G r1 r2 = true ↔
      ∀ i, i < G.KEY_SIZE.toNat → r1.m_chdata[i]? = r2.m_chdata[i]?) ∧
    (∀ (j : Nat) (b : Byte), G.KEY_SIZE.toNat ≤ j →
      Record.eq C G ⟨r1.m_chdata.set j b⟩ r2 = Record.eq C G r1 r2 ∧
      Record.eq C G r1 ⟨r2.m_chdata.set j b⟩ = Record.eq C G r1 r2 ∧
      Record.lt C G ⟨r1.m_chdata.set j b⟩ r2 = Record.lt C G r1 r2 ∧
      Record.lt C G r1 ⟨r2.m_chdata.set j b⟩ = Record.lt C G r1 r2 ∧
      Record.gt C G ⟨r1.m_chdata.set j b⟩ r2 = Record.gt C G r1 r2 ∧
      Record.gt C G r1 ⟨r2.m_chdata.set j b⟩ = Record.gt C G r1 r2) := by
  constructor
  · unfold Record.eq
    rw [Record.eqLoop_iff]
    constructor
    · intro h i hi
      have := h i hi
      rw [Nat.zero_add, List.getD_eq_getElem _ _ (by omega),
        List.getD_eq_getElem _ _ (by omega)] at this
      rw [List.getElem?_eq_getElem (by omega), List.getElem?_eq_getElem (by omega), this]
    · intro h t ht
      rw [Nat.zero_add, List.getD_eq_getElem?_getD, List.getD_eq_getElem?_getD, h t ht]
  · intro j b hj
    have e1 : ∀ t, t < G.KEY_SIZE.toNat →
        (r1.m_chdata.set j b).getD (0 + t) 0 = r1.m_chdata.getD (0 + t) 0 :=
      fun t ht => getD_set_of_ne _ _ _ _ (by omega)
    have e2 : ∀ t, t < G.KEY_SIZE.toNat →
        (r2.m_chdata.set j b).getD (0 + t) 0 = r2.m_chdata.getD (0 + t) 0 :=
      fun t ht => getD_set_of_ne _ _ _ _ (by omega)
    have q1 : Record.eq C G ⟨r1.m_chdata.set j b⟩ r2 = Record.eq C G r1 r2 :=
      Record.eqLoop_congr C _ _ _ _ 0 _ e1 (fun _ _ => rfl)
    have q2 : Record.eq C G r1 ⟨r2.m_chdata.set j b⟩ = Record.eq C G r1 r2 :=
      Record.eqLoop_congr C _ _ _ _ 0 _ (fun _ _ => rfl) e2
    have q3 : Record.lt C G ⟨r1.m_chdata.set j b⟩ r2 = Record.lt C G r1 r2 :=
      Record.ltLoop_congr C _ _ _ _ 0 _ e1 (fun _ _ => rfl)
    have q4 : Record.lt C G r1 ⟨r2.m_chdata.set j b⟩ = Record.lt C G r1 r2 :=
      Record.ltLoop_congr C _ _ _ _ 0 _ (fun _ _ => rfl) e2
    refine ⟨q1, q2, q3, q4, ?_, ?_⟩
    · simp only [Record.gt, q1, q3]
    · simp only [Record.gt, q2, q4]

theorem Record.eq_iff_key_bytes_witness :
    (Record.eq demoCxx demoGlobals (demoRecord 3) ⟨[3, 7]⟩ = true ↔
      ∀ i, i < demoGlobals.KEY_SIZE.toNat →
        (demoRecord 3).m_chdata[i]? = (⟨[3, 7]⟩ : Record).m_chdata[i]?) :=
  (Record.eq_iff_key_bytes demoCxx demoGlobals (demoRecord 3) ⟨[3, 7]⟩
    (by decide) (by decide)).1

/-! ## The contract of the buffer -/

theorem heapComp_total (C : Cxx) (G : Globals) (order : Int) (a b : RecWithBlockIndex) :
    heapComp C G order a b = false ∨ heapComp C G order b a = false := by
  unfold heapComp
  split_ifs
  · simp only [RecWithBlockIndex.gt, Record.gt_eq_lt_flip]
    exact Record.lt_total C G b.value a.value
  · exact Record.lt_total C G a.value b.value

theorem heapComp_negtrans (C : Cxx) (G : Globals) (order : Int) (a b c : RecWithBlockIndex)
    (hab : heapComp C G order a b = false) (hbc : heapComp C G order b c = false) :
    heapComp C G order a c = false := by
  unfold heapComp at *
  split_ifs at *
  · simp only [RecWithBlockIndex.gt, Record.gt_eq_lt_flip] at hab hbc ⊢
    exact Record.lt_negtrans C G c.value b.value a.value hbc hab
  · exact Record.lt_negtrans C G a.value b.value c.value hab hbc

theorem refCxx_heap_lawful (s : Bool) (g : Record) (G : Globals) (order : Int) :
    PQLawful (refCxx s g) (heapComp (refCxx s g) G order)
      (fun c => c.Sorted (fun a b => heapComp (refCxx s g) G order a b = false)) :=
  refPQ_lawful s g (heapComp_total _ G order) (heapComp_negtrans _ G order)

theorem Buffer.push_full (C : Cxx) (G : Globals) (b : Buffer) (x : RecWithBlockIndex)
    (h : b.m_max_size ≤ b.active.length) :
    (b.push C G x).2 = false ∧ (b.push C G x).1 = b := by
  unfold Buffer.active at h
  unfold Buffer.push
  split_ifs at h ⊢ with h1 h2 h3
  · omega
  · exact ⟨rfl, rfl⟩
  · omega
  · exact ⟨rfl, rfl⟩

theorem Buffer.push_other (C : Cxx) (G : Globals) (b : Buffer) (x : RecWithBlockIndex) :
    (b.m_sorting_order = 1 → (b.push C G x).1.m_max_heap = b.m_max_heap) ∧
    (b.m_sorting_order ≠ 1 → (b.push C G x).1.m_min_heap = b.m_min_heap) := by
  unfold Buffer.push
  constructor
  · intro h
    rw [if_pos h]
    split_ifs <;> rfl
  · intro h
    rw [if_neg h]
    split_ifs <;> rfl

theorem Buffer.pop_other (C : Cxx) (G : Globals) (b : Buffer) :
    (b.m_sorting_order = 1 → (b.pop C G).m_max_heap = b.m_max_heap) ∧
    (b.m_sorting_order ≠ 1 → (b.pop C G).m_min_heap = b.m_min_heap) := by
  unfold Buffer.pop
  constructor
  · intro h; rw [if_pos h]
  · intro h; rw [if_neg h]

/-- C12: on a buffer whose active heap holds fewer than `m_max_size` elements `push`
returns `true`, the active heap afterwards holds exactly the old elements and the pushed
one, and the other heap, the capacity and the order are unchanged; on a buffer whose
active heap holds `m_max_size` elements or more `push` returns `false` and the buffer is
unchanged. -/
theorem Buffer.push_bounded (C : Cxx) (G : Globals) (inv : List RecWithBlockIndex → Prop)
    (b : Buffer) (val : RecWithBlockIndex)
    (hQ : PQLawful C (heapComp C G b.m_sorting_order) inv) (hinv : inv b.active) :
    (b.active.length < b.m_max_size →
      (b.push C G val).2 = true ∧
      (b.push C G val).1.active.Perm (val :: b.active) ∧
      inv (b.push C G val).1.active ∧
      (b.m_sorting_order = 1 → (b.push C G val).1.m_max_heap = b.m_max_heap) ∧
      (b.m_sorting_order ≠ 1 → (b.push C G val).1.m_min_heap = b.m_min_heap) ∧
      (b.push C G val).1.m_max_size = b.m_max_size ∧
      (b.push C G val).1.m_sorting_order = b.m_sorting_order) ∧
    (b.m_max_size ≤ b.active.length →
      (b.push C G val).2 = false ∧ (b.push C G val).1 = b) := by
  constructor
  · intro h
    obtain ⟨h1, h2, h3, h4⟩ := Buffer.push_ok C G b val h
    obtain ⟨h5, h6⟩ := Buffer.push_other C G b val
    refine ⟨h1, ?_, ?_, h5, h6, h4, h3⟩
    · rw [h2]; exact hQ.push_perm _ _ hinv
    · rw [h2]; exact hQ.push_inv _ _ hinv
  · exact Buffer.push_full C G b val

theorem Buffer.push_bounded_witness :
    ((Buffer.ctor 1 1).active.length < (Buffer.ctor 1 1).m_max_size →
      ((Buffer.ctor 1 1).push demoCxx demoGlobals ⟨demoRecord 3, 0⟩).2 = true ∧
      ((Buffer.ctor 1 1).push demoCxx demoGlobals ⟨demoRecord 3, 0⟩).1.active.Perm
        (⟨demoRecord 3, 0⟩ :: (Buffer.ctor 1 1).active) ∧
      ((Buffer.ctor 1 1).push demoCxx demoGlobals ⟨demoRecord 3, 0⟩).1.active.Sorted
        (fun a b => heapComp demoCxx demoGlobals 1 a b = false) ∧
      ((Buffer.ctor 1 1).m_sorting_order = 1 →
        ((Buffer.ctor 1 1).push demoCxx demoGlobals ⟨demoRecord 3, 0⟩).1.m_max_heap =
          (Buffer.ctor 1 1).m_max_heap) ∧
      ((Buffer.ctor 1 1).m_sorting_order ≠ 1 →
        ((Buffer.ctor 1 1).push demoCxx demoGlobals ⟨demoRecord 3, 0⟩).1.m_min_heap =
          (Buffer.ctor 1 1).m_min_heap) ∧
      ((Buffer.ctor 1 1).push demoCxx demoGlobals ⟨demoRecord 3, 0⟩).1.m_max_size =
        (Buffer.ctor 1 1).m_max_size ∧
      ((Buffer.ctor 1 1).push demoCxx demoGlobals ⟨demoRecord 3, 0⟩).1.m_sorting_order =
        (Buffer.ctor 1 1).m_sorting_order) ∧
    ((Buffer.ctor 1 1).m_max_size ≤ (Buffer.ctor 1 1).active.length →
      ((Buffer.ctor 1 1).push demoCxx demoGlobals ⟨demoRecord 3, 0⟩).2 = false ∧
      ((Buffer.ctor 1 1).push demoCxx demoGlobals ⟨demoRecord 3, 0⟩).1 = Buffer.ctor 1 1) :=
  Buffer.push_bounded demoCxx demoGlobals _ (Buffer.ctor 1 1) ⟨demoRecord 3, 0⟩
    (refCxx_heap_lawful true ⟨[0, 0]⟩ demoGlobals 1) List.sorted_nil

/-- C13: on a buffer that is not empty `top` returns an element `t` of the active heap,
leaving the buffer as it is; no held element is `<` `t` when the order is `1`, and `t` is
`<` no held element otherwise; `pop` removes one occurrence of `t` from the active heap
and changes nothing else. -/
theorem Buffer.top_pop_extreme (C : Cxx) (G : Globals) (inv : List RecWithBlockIndex → Prop)
    (b : Buffer) (hQ : PQLawful C (heapComp C G b.m_sorting_order) inv)
    (hinv : inv b.active) (hne : b.empty = false) :
    ∃ t, b.top = some t ∧ t ∈ b.active ∧
      (b.m_sorting_order = 1 → ∀ x ∈ b.active, Record.lt C G x.value t.value = false) ∧
      (b.m_sorting_order ≠ 1 → ∀ x ∈ b.active, Record.lt C G t.value x.value = false) ∧
      b.active.Perm (t :: (b.pop C G).active) ∧
      inv (b.pop C G).active ∧
      (b.m_sorting_order = 1 → (b.pop C G).m_max_heap = b.m_max_heap) ∧
      (b.m_sorting_order ≠ 1 → (b.pop C G).m_min_heap = b.m_min_heap) ∧
      (b.pop C G).m_max_size = b.m_max_size ∧
      (b.pop C G).m_sorting_order = b.m_sorting_order := by
  have hnil : b.active ≠ [] := by
    rw [Buffer.empty_eq] at hne
    intro h
    rw [h] at hne
    simp at hne
  obtain ⟨t, c, hact⟩ := List.exists_cons_of_ne_nil hnil
  have hinv' : inv (t :: c) := by rw [← hact]; exact hinv
  obtain ⟨p1, p2, p3⟩ := Buffer.pop_active C G b
  obtain ⟨o1, o2⟩ := Buffer.pop_other C G b
  have hle : ∀ x ∈ b.active, ordLe C G b.m_sorting_order t.value x.value = true := by
    intro x hx
    rw [hact, List.mem_cons] at hx
    rcases hx with hx | hx
    · rw [hx]; exact ordLe_refl C G _ _
    · exact (heapComp_false_iff C G _ _ _).1 (hQ.top_max t c hinv' x hx)
  refine ⟨t, by rw [Buffer.top_eq, hact]; rfl, by rw [hact]; exact List.mem_cons_self _ _,
    ?_, ?_, ?_, ?_, o1, o2, p3, p2⟩
  · intro ho x hx
    have := hle x hx
    simpa [ordLe, ho] using this
  · intro ho x hx
    have := hle x hx
    simpa [ordLe, ho] using this
  · rw [p1, hact]
    exact (List.Perm.cons t (hQ.pop_perm t c hinv')).symm
  · rw [p1, hact]
    exact hQ.pop_inv t c hinv'

theorem Buffer.top_pop_extreme_witness :
    ∃ t, ((Buffer.ctor 2 1).push demoCxx demoGlobals ⟨demoRecord 3, 0⟩).1.top = some t :=
  (Buffer.top_pop_extreme demoCxx demoGlobals _
    ((Buffer.ctor 2 1).push demoCxx demoGlobals ⟨demoRecord 3, 0⟩).1
    (refCxx_heap_lawful true ⟨[0, 0]⟩ demoGlobals 1) (by decide) (by decide)).imp
    (fun _ h => h.1)

/-! ## The buffer size -/

/-- C19: for a memory budget `m ≥ 0` with `m * 2^20 < 2^64` and a record size
`0 < SIZE_OF_REC` (a `long`, so below `2^63`), `GetBufferSize` returns the floor of
`(m * 1024 * 1024) / (2 * SIZE_OF_REC)`. -/
theorem GetBufferSize_floor (m : Int) (G : Globals) (hm : 0 ≤ m)
    (hmb : m * 2 ^ 20 < 2 ^ 64) (hs : 0 < G.SIZE_OF_REC) (hs2 : G.SIZE_OF_REC < 2 ^ 63) :
    GetBufferSize m G = (m.toNat * 1024 * 1024) / (2 * G.SIZE_OF_REC.toNat) ∧
    GetBufferSize m G =
      ⌊((m.toNat * 1024 * 1024 : Nat) : ℚ) / ((2 * G.SIZE_OF_REC.toNat : Nat) : ℚ)⌋₊ := by
  have h1 : GetBufferSize m G = (m.toNat * 1024 * 1024) / (2 * G.SIZE_OF_REC.toNat) := by
    unfold GetBufferSize
    have e1 : (m % 2 ^ 64).toNat = m.toNat := by
      rw [Int.emod_eq_of_lt hm (by omega)]
    have e2 : ((G.SIZE_OF_REC * 2) % 2 ^ 64).toNat = 2 * G.SIZE_OF_REC.toNat := by
      rw [Int.emod_eq_of_lt (by omega) (by omega)]
      omega
    rw [e1, e2, Nat.mod_eq_of_lt (by omega)]
  exact ⟨h1, by rw [h1, Nat.floor_div_eq_div]⟩

theorem GetBufferSize_floor_witness :
    GetBufferSize 1 { KEY_SIZE := 1, SIZE_OF_REC := 174762, SORTING_ORDER := 1 } =
      ((1 : Int).toNat * 1024 * 1024) / (2 * (174762 : Int).toNat) :=
  (GetBufferSize_floor 1 { KEY_SIZE := 1, SIZE_OF_REC := 174762, SORTING_ORDER := 1 }
    (by decide) (by decide) (by decide) (by decide)).1

/-! ## The check on the result of a sort step -/

theorem FileSorter.TwoPassMergeSort_merge_code (C : Cxx) (G : Globals) (s : FileSorter)
    (sb : Nat) (bs : List Nat) (n sr er : Nat) :
    (s.TwoPassMergeSort_merge C G sb bs n sr er).2 = 1 ∨
      (s.TwoPassMergeSort_merge C G sb bs n sr er).2 = -1 := by
  unfold FileSorter.TwoPassMergeSort_merge
  split
  · exact Or.inl rfl
  · split
    · exact Or.inl rfl
    · by_cases h : (FileSorter.mergeRun C G s sb bs n sr er).failed = true
      · exact Or.inr (by simp [h])
      · exact Or.inl (by simp [h])

/-! ## The block sizes a merge pass returns -/

theorem merge_blocks_fst (C : Cxx) (G : Globals) (sorter : FileSorter) (bs : List Nat)
    (sb n : Nat) :
    (merge_blocks C G sorter bs sb n).1 = blockStart bs (sb + n) - blockStart bs sb := by
  unfold merge_blocks
  simp only [foldl_range_getD, foldl_range'_getD]

theorem pass_step_sizes (C : Cxx) (G : Globals) (B : Nat) (hB : 1 ≤ B) (bs : List Nat)
    (st : PassState) (i : Nat) (hi : i < get_num_blocks bs.length B)
    (h1 : st.start_block = min (i * B) bs.length)
    (h2 : st.num_of_blocks = bs.length - min (i * B) bs.length)
    (h6 : st.new_block_sizes.length = get_num_blocks bs.length B)
    (h7 : ∀ g, g < i → st.new_block_sizes.getD g 0 =
      blockStart bs (min ((g + 1) * B) bs.length) - blockStart bs (g * B)) :
    (pass_step C G bs B st i).start_block = min ((i + 1) * B) bs.length ∧
    (pass_step C G bs B st i).num_of_blocks = bs.length - min ((i + 1) * B) bs.length ∧
    (pass_step C G bs B st i).new_block_sizes.length = get_num_blocks bs.length B ∧
    (∀ g, g < i + 1 → (pass_step C G bs B st i).new_block_sizes.getD g 0 =
      blockStart bs (min ((g + 1) * B) bs.length) - blockStart bs (g * B)) := by
  have hiR : i * B < bs.length := (lt_get_num_blocks_iff _ _ _ hB).1 hi
  have hsucc : (i + 1) * B = i * B + B := Nat.succ_mul i B
  have hsb : st.start_block = i * B := by rw [h1]; omega
  have hn : min st.num_of_blocks B = min ((i + 1) * B) bs.length - i * B := by
    rw [h2]; omega
  have hsbn : i * B + (min ((i + 1) * B) bs.length - i * B) = min ((i + 1) * B) bs.length := by
    omega
  unfold pass_step
  simp only [hsb, hn, merge_blocks_fst, hsbn]
  have hnum : st.num_of_blocks - (min ((i + 1) * B) bs.length - i * B) =
      bs.length - min ((i + 1) * B) bs.length := by
    rw [h2]; omega
  refine ⟨trivial, ?_, ?_, ?_⟩
  · exact hnum
  · first
      | trivial
      | simp [h6]
  intro g hg
  by_cases hgi : g < i
  · rw [List.getD_eq_getElem?_getD, List.getElem?_set_ne (by omega),
      ← List.getD_eq_getElem?_getD]
    exact h7 g hgi
  · have hge : g = i := by omega
    subst hge
    rw [List.getD_eq_getElem _ _ (by simp [h6]; omega)]
    simp only [List.getElem_set_self]

theorem pass_sizes_loop (C : Cxx) (G : Globals) (B : Nat) (hB : 1 ≤ B) (bs : List Nat)
    (s0 : FileSorter) (i : Nat) (hi : i ≤ get_num_blocks bs.length B) :
    ((List.range i).foldl (pass_step C G bs B)
        { sorter := s0, new_block_sizes := List.replicate (get_num_blocks bs.length B) 0,
          num_of_blocks := bs.length, start_block := 0 }).start_block =
      min (i * B) bs.length ∧
    ((List.range i).foldl (pass_step C G bs B)
        { sorter := s0, new_block_sizes := List.replicate (get_num_blocks bs.length B) 0,
          num_of_blocks := bs.length, start_block := 0 }).num_of_blocks =
      bs.length - min (i * B) bs.length ∧
    ((List.range i).foldl (pass_step C G bs B)
        { sorter := s0, new_block_sizes := List.replicate (get_num_blocks bs.length B) 0,
          num_of_blocks := bs.length, start_block := 0 }).new_block_sizes.length =
      get_num_blocks bs.length B ∧
    (∀ g, g < i →
      ((List.range i).foldl (pass_step C G bs B)
        { sorter := s0, new_block_sizes := List.replicate (get_num_blocks bs.length B) 0,
          num_of_blocks := bs.length, start_block := 0 }).new_block_sizes.getD g 0 =
        blockStart bs (min ((g + 1) * B) bs.length) - blockStart bs (g * B)) := by
  induction i with
  | zero => simp
  | succ i ih =>
    obtain ⟨h1, h2, h6, h7⟩ := ih (by omega)
    rw [List.range_succ, List.foldl_append]
    simp only [List.foldl_cons, List.foldl_nil]
    exact pass_step_sizes C G B hB bs _ i (by omega) h1 h2 h6 h7

theorem pass_sizes (C : Cxx) (G : Globals) (in_file : List Record) (B : Nat) (hB : 1 ≤ B)
    (bs : List Nat) :
    (pass C G in_file B bs).1.length = get_num_blocks bs.length B ∧
    (∀ g, g < get_num_blocks bs.length B →
      (pass C G in_file B bs).1.getD g 0 =
        blockStart bs (min ((g + 1) * B) bs.length) - blockStart bs (g * B)) :=
  let h := pass_sizes_loop C G B hB bs (FileSorter.ctor in_file B G.SORTING_ORDER)
    (get_num_blocks bs.length B) (le_refl _)
  ⟨h.2.2.1, h.2.2.2⟩

theorem ceil_div_eq_get_num_blocks {K : Type} [LinearOrderedField K] [FloorSemiring K]
    (R B : Nat) (hB : 1 ≤ B) :
    ⌈(R : K) / (B : K)⌉₊ = get_num_blocks R B := by
  have hBq : (0 : K) < (B : K) := by exact_mod_cast hB
  apply eq_of_forall_ge_iff
  intro n
  rw [Nat.ceil_le, div_le_iff₀ hBq]
  unfold get_num_blocks
  rw [← Nat.lt_succ_iff, Nat.div_lt_iff_lt_mul (by omega), Nat.succ_mul]
  constructor
  · intro h
    have : R ≤ n * B := by exact_mod_cast h
    omega
  · intro h
    have : R ≤ n * B := by omega
    exact_mod_cast this

/-- C14: for a buffer size `B ≥ 1` and a list of `R` block sizes, `pass` returns
`ceil(R / B)` sizes, the `i`-th being the sum of the old sizes with indices in
`[i * B, min((i + 1) * B, R))`; the sizes returned add up to the sum of the old ones. -/
theorem pass_block_sizes (C : Cxx) (G : Globals) (in_file : List Record) (B : Nat)
    (bs : List Nat) (hB : 1 ≤ B) :
    (pass C G in_file B bs).1.length = ⌈(bs.length : ℚ) / (B : ℚ)⌉₊ ∧
    (∀ i, i < (pass C G in_file B bs).1.length →
      (pass C G in_file B bs).1.getD i 0 =
        ∑ j in Finset.Ico (i * B) (min ((i + 1) * B) bs.length), bs.getD j 0) ∧
    (pass C G in_file B bs).1.sum = bs.sum := by
  obtain ⟨h1, h2⟩ := pass_sizes C G in_file B hB bs
  have hLB : ¬ get_num_blocks bs.length B * B < bs.length := by
    rw [← lt_get_num_blocks_iff _ _ _ hB]; omega
  refine ⟨by rw [h1, ceil_div_eq_get_num_blocks _ _ hB], ?_, ?_⟩
  · intro i hi
    rw [h1] at hi
    have hiR : i * B < bs.length := (lt_get_num_blocks_iff _ _ _ hB).1 hi
    have hs : (i + 1) * B = i * B + B := Nat.succ_mul i B
    have := sum_Ico_sizes bs (i * B) (min ((i + 1) * B) bs.length - i * B)
    rw [show i * B + (min ((i + 1) * B) bs.length - i * B) =
      min ((i + 1) * B) bs.length by omega] at this
    rw [h2 i hi]
    omega
  · have hmono : ∀ g, g < get_num_blocks bs.length B →
        blockStart bs (min (g * B) bs.length) ≤
          blockStart bs (min ((g + 1) * B) bs.length) := by
      intro g _
      have : g * B ≤ (g + 1) * B := Nat.mul_le_mul_right B (by omega)
      exact blockStart_mono bs (by omega)
    have hdiff : ∀ g, g < get_num_blocks bs.length B →
        (pass C G in_file B bs).1.getD g 0 =
          blockStart bs (min ((g + 1) * B) bs.length) -
            blockStart bs (min (g * B) bs.length) := by
      intro g hg
      have hgR : g * B < bs.length := (lt_get_num_blocks_iff _ _ _ hB).1 hg
      rw [h2 g hg, show min (g * B) bs.length = g * B by omega]
    have := blockStart_of_diffs (pass C G in_file B bs).1
      (fun g => blockStart bs (min (g * B) bs.length)) (get_num_blocks bs.length B)
      (by simp [blockStart_zero]) hmono hdiff (get_num_blocks bs.length B) (le_refl _)
    simp only at this
    rw [← h1, blockStart_length, show min ((pass C G in_file B bs).1.length * B) bs.length =
      bs.length by rw [h1]; omega, blockStart_length] at this
    exact this

theorem pass_block_sizes_witness :
    (pass demoCxx demoGlobals (demoFile [1, 3, 4, 1, 5, 9, 2, 5, 6, 3]) 3 [3, 3, 3, 1]).1 =
        [9, 1] ∧
      (pass demoCxx demoGlobals (demoFile [1, 1, 2, 3, 4, 5, 5, 6, 9, 3]) 3 [9, 1]).1 = [10] ∧
      (pass demoCxx demoGlobals (demoFile [1, 3, 4, 1, 5, 9, 2, 5, 6, 3]) 3 [3, 3, 3, 1]).1.sum =
        [3, 3, 3, 1].sum :=
  ⟨by decide, by decide,
    (pass_block_sizes demoCxx demoGlobals (demoFile [1, 3, 4, 1, 5, 9, 2, 5, 6, 3]) 3
      [3, 3, 3, 1] (by decide)).2.2⟩

/-! ## The pass schedule -/

theorem foldl_set_length (l : List Nat) (v : Nat) (is : List Nat) :
    (is.foldl (fun bs i => bs.set i v) l).length = l.length := by
  induction is generalizing l with
  | nil => rfl
  | cons i is ih => rw [List.foldl_cons, ih, List.length_set]

theorem pass0_length (C : Cxx) (G : Globals) (in_file : List Record) (B : Nat) :
    (pass0 C G in_file B).1.length = get_num_blocks (CountRecords (fileBytes in_file)) B := by
  simp only [pass0, pass0_block_sizes, FileSorter.GetNumRecords, FileSorter.ctor,
    List.length_set, foldl_set_length, List.length_replicate]

theorem main_loop_length (C : Cxx) (G : Globals) (B : Nat) (hB : 1 ≤ B) (m : Nat)
    (file : List Record) (bs : List Nat) :
    (main_loop C G B m file bs).2.length = runsAfter B m bs.length := by
  induction m generalizing file bs with
  | zero => rfl
  | succ m ih =>
    simp only [main_loop, runsAfter]
    rw [ih, (pass_sizes C G file B hB bs).1]

theorem main_loop_succ (C : Cxx) (G : Globals) (B : Nat) (m : Nat)
    (file : List Record) (bs : List Nat) :
    main_loop C G B (m + 1) file bs =
      ((pass C G (main_loop C G B m file bs).1 B (main_loop C G B m file bs).2).2.m_h_outfile,
       (pass C G (main_loop C G B m file bs).1 B (main_loop C G B m file bs).2).1) := by
  induction m generalizing file bs with
  | zero => rfl
  | succ m ih =>
    rw [main_loop, ih]
    rfl

theorem get_num_passes_loop_least (B x fuel k : Nat) (hlt : ∀ j, j < k → B ^ j < x) :
    ∀ j, j < get_num_passes.loop B x fuel k (B ^ k) → B ^ j < x := by
  induction fuel generalizing k with
  | zero => simpa [get_num_passes.loop] using hlt
  | succ fuel ih =>
    unfold get_num_passes.loop
    split_ifs with hx
    · exact hlt
    · rw [← Nat.pow_succ]
      refine ih (k + 1) ?_
      intro j hj
      by_cases hjk : j < k
      · exact hlt j hjk
      · have : j = k := by omega
        subst this
        omega

theorem get_num_passes_le_pow (N B : Nat) (hB : 2 ≤ B) :
    get_num_blocks N B ≤ B ^ (get_num_passes N B).toNat := by
  have h := get_num_passes_loop_spec B (get_num_blocks N B) (get_num_blocks N B) 0
    (by
      rw [Nat.zero_add]
      exact le_trans (Nat.le_of_lt (Nat.lt_two_pow _)) (Nat.pow_le_pow_left hB _))
  simpa [get_num_passes] using h

theorem get_num_passes_eq_clog (N B : Nat) (hB : 2 ≤ B) :
    get_num_passes N B = (Nat.clog B (get_num_blocks N B) : Nat) := by
  have h1 := get_num_passes_le_pow N B hB
  have h2 := get_num_passes_loop_least B (get_num_blocks N B) (get_num_blocks N B) 0
    (by intro j hj; omega)
  have hp : get_num_passes N B =
      (get_num_passes.loop B (get_num_blocks N B) (get_num_blocks N B) 0 1 : Nat) := rfl
  rw [hp] at h1 ⊢
  simp only [Int.toNat_ofNat, pow_zero] at h1 h2
  have hle : Nat.clog B (get_num_blocks N B) ≤
      get_num_passes.loop B (get_num_blocks N B) (get_num_blocks N B) 0 1 :=
    (Nat.le_pow_iff_clog_le (by omega)).1 h1
  have hge : get_num_passes.loop B (get_num_blocks N B) (get_num_blocks N B) 0 1 ≤
      Nat.clog B (get_num_blocks N B) := by
    by_contra hlt
    have := h2 _ (not_le.1 hlt)
    have := Nat.le_pow_clog (show 1 < B by omega) (get_num_blocks N B)
    omega
  exact_mod_cast le_antisymm hge hle

theorem FileSorter.writeLoop_config (G : Globals) (i : Nat) (buffer : List Record)
    (n cur : Nat) (s : FileSorter) :
    SameConfig s (FileSorter.writeLoop G i buffer n cur s) := by
  induction n generalizing cur s with
  | zero => exact SameConfig.refl s
  | succ n ih =>
    simp only [FileSorter.writeLoop]
    exact (SameConfig.write G s _ _).trans (ih _ _)

theorem FileSorter.TwoPassMergeSort_range_config (C : Cxx) (G : Globals) (s : FileSorter)
    (i : Nat) (j : Int) : SameConfig s (s.TwoPassMergeSort_range C G i j).1 := by
  unfold FileSorter.TwoPassMergeSort_range
  exact (FileSorter.readLoop_config C _ _ _ s _).trans
    (FileSorter.writeLoop_config G _ _ _ _ _)

theorem pass0_step_config (C : Cxx) (G : Globals) (bs : List Nat) (acc : FileSorter × Nat)
    (i : Nat) : SameConfig acc.1 (pass0_step C G bs acc i).1 := by
  unfold pass0_step
  simp only
  split_ifs
  · exact (FileSorter.TwoPassMergeSort_range_config C G _ _ _).trans (SameConfig.perror _ _)
  · exact FileSorter.TwoPassMergeSort_range_config C G _ _ _

theorem pass0_fold_config (C : Cxx) (G : Globals) (bs : List Nat) (is : List Nat)
    (acc : FileSorter × Nat) : SameConfig acc.1 (is.foldl (pass0_step C G bs) acc).1 := by
  induction is generalizing acc with
  | nil => exact SameConfig.refl _
  | cons i is ih =>
    rw [List.foldl_cons]
    exact (pass0_step_config C G bs acc i).trans (ih _)

theorem pass0_num_records (C : Cxx) (G : Globals) (in_file : List Record) (B : Nat) :
    (pass0 C G in_file B).2.GetNumRecords = CountRecords (fileBytes in_file) := by
  unfold pass0 FileSorter.GetNumRecords
  exact (pass0_fold_config C G _ _ _).count_eq

theorem max_one_toNat (p : Int) (hp : 0 ≤ p) : (max p 1).toNat = (p - 1).toNat + 1 := by
  omega

theorem get_num_passes_nonneg (N B : Nat) : 0 ≤ get_num_passes N B := by
  unfold get_num_passes
  exact Int.natCast_nonneg _

theorem get_num_blocks_pos (N B : Nat) (hB : 1 ≤ B) (hN : 0 < N) : 1 ≤ get_num_blocks N B := by
  unfold get_num_blocks
  rw [Nat.le_div_iff_mul_le (by omega)]
  omega

/-- C15: for a record count `N > 0` and a buffer size `B ≥ 2`, `get_num_passes` being the
exact `ceil(log_B(ceil(N / B)))`, `main` runs `max(num_passes, 1)` merge passes, the
`num_passes - 1` of its loop and the final one, and the list of block sizes after the last
of them has length 1. -/
theorem main_schedule_one_run (C : Cxx) (G : Globals) (in_file : List Record) (B : Nat)
    (hB : 2 ≤ B) (hN : 0 < CountRecords (fileBytes in_file)) :
    get_num_passes (CountRecords (fileBytes in_file)) B =
      ⌈Real.logb B (⌈(CountRecords (fileBytes in_file) : ℝ) / (B : ℝ)⌉₊ : ℝ)⌉ ∧
    (main C G in_file B).1 =
      (main_loop C G B (max (get_num_passes (CountRecords (fileBytes in_file)) B) 1).toNat
        (pass0 C G in_file B).2.m_h_outfile (pass0 C G in_file B).1).2 ∧
    (main C G in_file B).2 =
      (main_loop C G B (max (get_num_passes (CountRecords (fileBytes in_file)) B) 1).toNat
        (pass0 C G in_file B).2.m_h_outfile (pass0 C G in_file B).1).1 ∧
    (main C G in_file B).1.length = 1 := by
  have hnr := pass0_num_records C G in_file B
  have hmax := max_one_toNat _ (get_num_passes_nonneg (CountRecords (fileBytes in_file)) B)
  have hmain : main C G in_file B =
      ((main_loop C G B (max (get_num_passes (CountRecords (fileBytes in_file)) B) 1).toNat
        (pass0 C G in_file B).2.m_h_outfile (pass0 C G in_file B).1).2,
       (main_loop C G B (max (get_num_passes (CountRecords (fileBytes in_file)) B) 1).toNat
        (pass0 C G in_file B).2.m_h_outfile (pass0 C G in_file B).1).1) := by
    rw [hmax, main_loop_succ]
    simp only [main, hnr]
  refine ⟨?_, by rw [hmain], by rw [hmain], ?_⟩
  · rw [get_num_passes_eq_clog _ _ hB, Real.ceil_logb_natCast (Nat.cast_nonneg _),
      Int.clog_natCast]
    rw [← ceil_div_eq_get_num_blocks (K := ℝ) _ _ (by omega : 1 ≤ B)]
  · rw [hmain]
    simp only
    rw [main_loop_length C G B (by omega), pass0_length]
    refine runsAfter_eq_one B _ _ (by omega) (get_num_blocks_pos _ _ (by omega) hN) ?_
    refine le_trans (get_num_passes_le_pow _ B hB) (Nat.pow_le_pow_right (by omega) ?_)
    omega

theorem main_schedule_one_run_witness :
    get_num_passes 10 3 = 2 ∧
      (main demoCxx demoGlobals (demoFile [1, 3, 4, 1, 5, 9, 2, 5, 6, 3]) 3).1.length = 1 :=
  ⟨by decide,
    (main_schedule_one_run demoCxx demoGlobals (demoFile [1, 3, 4, 1, 5, 9, 2, 5, 6, 3]) 3
      (by decide) (by decide)).2.2.2⟩

/-! ## The buffer never overflows in a merge -/

theorem BufferInv.mono {inv : List RecWithBlockIndex → Prop} {order : Int} {n L k k2 : Nat}
    {st : MergeState} (h : BufferInv inv order n L k st) (hk : k ≤ k2) :
    BufferInv inv order n L k2 st :=
  ⟨h.size_eq, h.order_eq, h.heap, le_trans h.len_le hk, h.index_lt, h.ok⟩

theorem BufferInv.push {C : Cxx} {G : Globals} {inv : List RecWithBlockIndex → Prop}
    {order : Int} {n L k : Nat} (hQ : PQLawful C (heapComp C G order) inv)
    (b : Buffer) (x : RecWithBlockIndex) (hsize : b.m_max_size = n)
    (horder : b.m_sorting_order = order) (hinv : inv b.active) (hlen : b.active.length ≤ k)
    (hk : k < n) (hidx : ∀ y ∈ b.active, y.index < L) (hx : x.index < L) :
    (b.push C G x).2 = true ∧ (b.push C G x).1.m_max_size = n ∧
    (b.push C G x).1.m_sorting_order = order ∧ inv (b.push C G x).1.active ∧
    (b.push C G x).1.active.length ≤ k + 1 ∧
    (∀ y ∈ (b.push C G x).1.active, y.index < L) := by
  obtain ⟨h1, h2, h3, h4⟩ := Buffer.push_ok C G b x (by omega)
  rw [horder] at h2
  have hperm := hQ.push_perm b.active x hinv
  refine ⟨h1, by rw [h4, hsize], by rw [h3, horder], ?_, ?_, ?_⟩
  · rw [h2]; exact hQ.push_inv _ _ hinv
  · rw [h2, hperm.length_eq]; simpa using hlen
  · intro y hy
    rw [h2] at hy
    rcases List.mem_cons.1 (hperm.mem_iff.1 hy) with rfl | hy
    · exact hx
    · exact hidx y hy

theorem FileSorter.seedBody_bufinv {C : Cxx} {G : Globals}
    {inv : List RecWithBlockIndex → Prop} {order : Int} {n L : Nat}
    (hQ : PQLawful C (heapComp C G order) inv) (sb : Nat) (bs : List Nat) (i : Nat)
    (st : MergeState) (hi : i < n) (hL : sb + n ≤ L) (h : BufferInv inv order n L i st) :
    BufferInv inv order n L (i + 1) (FileSorter.seedBody C G sb bs i st) := by
  obtain ⟨p1, p2, p3, p4, p5, p6⟩ := BufferInv.push hQ st.buffer
    (FileSorter.CreateRecWithBlockIndex (st.sorter.ReadRecord C st.record_index).1 (i + sb))
    h.size_eq h.order_eq h.heap h.len_le hi h.index_lt
    (by simp only [FileSorter.CreateRecWithBlockIndex]; omega)
  unfold FileSorter.seedBody
  simp only [p1, Bool.true_eq_false, if_false]
  exact ⟨p2, p3, p4, p5, p6, h.ok⟩

theorem FileSorter.seedStates_bufinv {C : Cxx} {G : Globals}
    {inv : List RecWithBlockIndex → Prop} {order : Int} {n L : Nat}
    (hQ : PQLawful C (heapComp C G order) inv) (sb : Nat) (bs : List Nat) (hL : sb + n ≤ L)
    (m i : Nat) (st : MergeState) (him : i + m ≤ n) (h : BufferInv inv order n L i st) :
    (∀ st1 ∈ FileSorter.seedStates C G sb bs m i st, BufferInv inv order n L n st1) ∧
    BufferInv inv order n L (i + m) (FileSorter.seedLoop C G sb bs m i st) := by
  induction m generalizing i st with
  | zero => exact ⟨by simp [FileSorter.seedStates], h⟩
  | succ m ih =>
    have h1 := FileSorter.seedBody_bufinv hQ sb bs i st (by omega) hL h
    obtain ⟨ih1, ih2⟩ := ih (i + 1) _ (by omega) h1
    simp only [FileSorter.seedStates, FileSorter.seedLoop, h1.ok, Bool.false_eq_true,
      if_false]
    refine ⟨?_, by rw [show i + (m + 1) = i + 1 + m by omega]; exact ih2⟩
    intro st1 hst1
    rcases List.mem_cons.1 hst1 with rfl | hst1
    · exact h1.mono (by omega)
    · exact ih1 st1 hst1

theorem FileSorter.mergeBody_bufinv {C : Cxx} {G : Globals}
    {inv : List RecWithBlockIndex → Prop} {order : Int} {n L : Nat}
    (hQ : PQLawful C (heapComp C G order) inv) (sb : Nat) (bs : List Nat) (sr : Nat)
    (st : MergeState) (r : RecWithBlockIndex) (hr : st.buffer.top = some r)
    (h : BufferInv inv order n L n st) :
    BufferInv inv order n L n (FileSorter.mergeBody C G sb bs sr st r) := by
  obtain ⟨c, hc⟩ : ∃ c, st.buffer.active = r :: c := by
    rw [Buffer.top_eq] at hr
    cases hact : st.buffer.active with
    | nil => rw [hact] at hr; simp at hr
    | cons t c =>
      rw [hact] at hr
      simp only [List.head?_cons, Option.some.injEq] at hr
      exact ⟨c, by rw [hr]⟩
  obtain ⟨q1, q2, q3⟩ := Buffer.pop_active C G st.buffer
  rw [h.order_eq, hc] at q1
  have hheap : inv (r :: c) := by rw [← hc]; exact h.heap
  have hperm := hQ.pop_perm r c hheap
  have hlen : (st.buffer.pop C G).active.length ≤ n - 1 := by
    have := h.len_le
    rw [hc] at this
    rw [q1, hperm.length_eq]
    simp only [List.length_cons] at this
    omega
  have hn : 0 < n := by
    have := h.len_le
    rw [hc] at this
    simp only [List.length_cons] at this
    omega
  have hpinv : inv (st.buffer.pop C G).active := by rw [q1]; exact hQ.pop_inv r c hheap
  have hpidx : ∀ y ∈ (st.buffer.pop C G).active, y.index < L := by
    intro y hy
    rw [q1] at hy
    exact h.index_lt y (by rw [hc]; exact List.mem_cons_of_mem _ (hperm.mem_iff.1 hy))
  have hridx : r.index < L := h.index_lt r (by rw [hc]; exact List.mem_cons_self _ _)
  unfold FileSorter.mergeBody
  simp only
  split_ifs with hlt hpush
  · exfalso
    obtain ⟨p1, -⟩ := BufferInv.push hQ (st.buffer.pop C G)
      (FileSorter.CreateRecWithBlockIndex
        ((st.sorter.WriteRecord G st.current_record r.value).ReadRecord C
          (FileSorter.GetRecordIndex sb r.index bs sr
            (st.current_block_record_indices.getD r.index 0))).1 r.index)
      (q3.trans h.size_eq) (q2.trans h.order_eq) hpinv hlen (by omega) hpidx hridx
    rw [p1] at hpush
    exact Bool.noConfusion hpush
  · obtain ⟨-, p2, p3, p4, p5, p6⟩ := BufferInv.push hQ (st.buffer.pop C G)
      (FileSorter.CreateRecWithBlockIndex
        ((st.sorter.WriteRecord G st.current_record r.value).ReadRecord C
          (FileSorter.GetRecordIndex sb r.index bs sr
            (st.current_block_record_indices.getD r.index 0))).1 r.index)
      (q3.trans h.size_eq) (q2.trans h.order_eq) hpinv hlen (by omega) hpidx hridx
    exact ⟨p2, p3, p4, le_trans p5 (by omega), p6, h.ok⟩
  · exact ⟨q3.trans h.size_eq, q2.trans h.order_eq, hpinv, le_trans hlen (by omega), hpidx,
      h.ok⟩

theorem FileSorter.mergeStates_bufinv {C : Cxx} {G : Globals}
    {inv : List RecWithBlockIndex → Prop} {order : Int} {n L : Nat}
    (hQ : PQLawful C (heapComp C G order) inv) (sb : Nat) (bs : List Nat) (sr er : Nat)
    (fuel : Nat) (st : MergeState) (h : BufferInv inv order n L n st) :
    (∀ st1 ∈ FileSorter.mergeStates C G sb bs sr er fuel st, BufferInv inv order n L n st1) ∧
    BufferInv inv order n L n (FileSorter.mergeLoop C G sb bs sr er fuel st) := by
  induction fuel generalizing st with
  | zero => exact ⟨by simp [FileSorter.mergeStates], h⟩
  | succ fuel ih =>
    unfold FileSorter.mergeStates FileSorter.mergeLoop
    split_ifs with hcond
    · cases htop : st.buffer.top with
      | none => exact ⟨by simp, h⟩
      | some r =>
        have h1 := FileSorter.mergeBody_bufinv hQ sb bs sr st r htop h
        obtain ⟨ih1, ih2⟩ := ih _ h1
        simp only [h1.ok, Bool.false_eq_true, if_false]
        refine ⟨?_, ih2⟩
        intro st1 hst1
        rcases List.mem_cons.1 hst1 with rfl | hst1
        · exact h1
        · exact ih1 st1 hst1
    · exact ⟨by simp, h⟩

/-- C20: in a merge of `n ≥ 2` blocks that lie inside the list of block sizes, whatever
the files hold, the buffer of every state the function passes through (the initial one
and the one after each iteration of the seeding loop and of the merge loop) has capacity
`n`, holds at most `n` elements, each tagged with the index of a block of the list, and
no push has been refused; so the function does not end in its `return -1` and its result
is `1`. -/
theorem FileSorter.TwoPassMergeSort_merge_no_overflow (C : Cxx) (G : Globals)
    (hC : C.Conforms G) (s : FileSorter) (sb : Nat) (bs : List Nat) (n sr er : Nat)
    (hn : 2 ≤ n) (hlen : sb + n ≤ bs.length) :
    (∀ st ∈ FileSorter.mergeRunStates C G s sb bs n sr er,
      st.buffer.active.length ≤ n ∧ st.buffer.m_max_size = n ∧ st.failed = false ∧
      ∀ x ∈ st.buffer.active, x.index < bs.length) ∧
    (FileSorter.mergeRun C G s sb bs n sr er).failed = false ∧
    s.TwoPassMergeSort_merge C G sb bs n sr er =
      ((FileSorter.mergeRun C G s sb bs n sr er).sorter, 1) ∧
    (s.TwoPassMergeSort_merge C G sb bs n sr er).2 ≠ -1 := by
  obtain ⟨inv, hQ⟩ := hC.pq_comp s.m_sorting_order
  have h0 : BufferInv inv s.m_sorting_order n bs.length 0
      { sorter := s, buffer := Buffer.ctor n s.m_sorting_order,
        current_block_record_indices := List.replicate bs.length 0,
        record_index := sr, current_record := sr, failed := false } :=
    { size_eq := rfl
      order_eq := rfl
      heap := by rw [Buffer.ctor_active]; exact hQ.inv_nil
      len_le := by rw [Buffer.ctor_active]; exact le_refl _
      index_lt := by rw [Buffer.ctor_active]; intro x hx; cases hx
      ok := rfl }
  obtain ⟨s1, s2⟩ := FileSorter.seedStates_bufinv hQ sb bs hlen n 0 _ (by omega) h0
  rw [Nat.zero_add] at s2
  obtain ⟨m1, m2⟩ := FileSorter.mergeStates_bufinv hQ sb bs sr er (er - sr) _ s2
  have hrun : (FileSorter.mergeRun C G s sb bs n sr er).failed = false := by
    unfold FileSorter.mergeRun
    simp only [s2.ok, Bool.false_eq_true, if_false]
    exact m2.ok
  have hres : s.TwoPassMergeSort_merge C G sb bs n sr er =
      ((FileSorter.mergeRun C G s sb bs n sr er).sorter, 1) := by
    unfold FileSorter.TwoPassMergeSort_merge
    rw [if_neg (by omega), if_neg (by omega)]
    simp only [hrun, Bool.false_eq_true, if_false]
  refine ⟨?_, hrun, hres, by rw [hres]; exact (by decide : (1 : Int) ≠ -1)⟩
  intro st hst
  have hst1 : BufferInv inv s.m_sorting_order n bs.length n st := by
    unfold FileSorter.mergeRunStates at hst
    simp only [s2.ok, Bool.false_eq_true, if_false, List.mem_cons, List.mem_append] at hst
    rcases hst with (rfl | hst) | hst
    · exact h0.mono (by omega)
    · exact s1 st hst
    · exact m1 st hst
  exact ⟨hst1.len_le, hst1.size_eq, hst1.ok, hst1.index_lt⟩

theorem FileSorter.TwoPassMergeSort_merge_no_overflow_witness :
    ((FileSorter.ctor (demoFile [1, 4, 2, 3]) 2 1).TwoPassMergeSort_merge demoCxx demoGlobals
      0 [2, 2] 2 0 4).2 ≠ -1 :=
  (FileSorter.TwoPassMergeSort_merge_no_overflow demoCxx demoGlobals
    (refCxx_conforms true ⟨[0, 0]⟩ demoGlobals) (FileSorter.ctor (demoFile [1, 4, 2, 3]) 2 1)
    0 [2, 2] 2 0 4 (by decide) (by decide)).2.2.2

/-! ## The result of a merge step and its check -/

theorem getline_record (body rest : List Byte) (hbody : ∀ b ∈ body, b ≠ newline) :
    getline (body ++ newline :: rest) = some (body, rest) := by
  have hp : ∀ b ∈ body, (decide (b ≠ newline)) = true := by
    intro b hb
    simpa using hbody b hb
  have h1 : (body ++ newline :: rest).takeWhile (fun b => b ≠ newline) = body := by
    rw [List.takeWhile_append_of_pos hp]
    simp
  have h2 : (body ++ newline :: rest).dropWhile (fun b => b ≠ newline) = newline :: rest := by
    rw [List.dropWhile_append_of_pos hp]
    simp
  unfold getline
  cases hb : body ++ newline :: rest with
  | nil => simp at hb
  | cons x xs =>
    rw [← hb]
    simp only [h1, h2, List.drop_succ_cons, List.drop_zero]
    rw [hb]

theorem record_split (l : List Byte) (S : Nat) (hS : 0 < S) (hlen : l.length = S)
    (h : ∀ i, i < S → (l.getD i 0 = newline ↔ i + 1 = S)) :
    ∃ body, l = body ++ [newline] ∧ ∀ b ∈ body, b ≠ newline := by
  have hne : l ≠ [] := by
    intro h0
    rw [h0] at hlen
    simp at hlen
    omega
  refine ⟨l.dropLast, ?_, ?_⟩
  · have hlast : l.getLast hne = newline := by
      have := (h (S - 1) (by omega)).2 (by omega)
      rw [List.getD_eq_getElem _ _ (by omega)] at this
      rw [List.getLast_eq_getElem]
      simpa [hlen] using this
    conv_lhs => rw [← List.dropLast_append_getLast hne]
    rw [hlast]
  · intro b hb
    obtain ⟨i, hi, rfl⟩ := List.getElem_of_mem hb
    rw [List.length_dropLast] at hi
    rw [List.getElem_dropLast]
    intro hnl
    have := (h i (by omega)).1 (by rw [List.getD_eq_getElem _ _ (by omega)]; exact hnl)
    omega

theorem CountRecords_loop_records (S : Nat) (hS : 0 < S) (f : List Record)
    (hrec : ∀ r ∈ f, r.m_chdata.length = S ∧
      ∀ i, i < S → (r.m_chdata.getD i 0 = newline ↔ i + 1 = S))
    (fuel acc : Nat) (hfuel : (fileBytes f).length < fuel) :
    CountRecords.loop fuel (fileBytes f) acc = acc + f.length := by
  induction f generalizing fuel acc with
  | nil =>
    cases fuel with
    | zero => rfl
    | succ fuel => simp [fileBytes, CountRecords.loop, getline]
  | cons r f ih =>
    obtain ⟨hlen, hnl⟩ := hrec r (List.mem_cons_self _ _)
    obtain ⟨body, hbody, hno⟩ := record_split r.m_chdata S hS hlen hnl
    have hbytes : fileBytes (r :: f) = body ++ newline :: fileBytes f := by
      simp [fileBytes, hbody]
    rw [hbytes] at hfuel ⊢
    cases fuel with
    | zero => omega
    | succ fuel =>
      simp only [CountRecords.loop, getline_record body _ hno]
      rw [ih (fun x hx => hrec x (List.mem_cons_of_mem _ hx)) fuel (acc + 1)
        (by simp only [List.length_append, List.length_cons] at hfuel; omega)]
      simp only [List.length_cons]
      omega

theorem fileBytes_length (S : Nat) (f : List Record)
    (hrec : ∀ r ∈ f, r.m_chdata.length = S) : (fileBytes f).length = f.length * S := by
  induction f with
  | nil => simp [fileBytes]
  | cons r f ih =>
    have h1 := hrec r (List.mem_cons_self _ _)
    have h2 := ih (fun x hx => hrec x (List.mem_cons_of_mem _ hx))
    simp only [fileBytes, List.map_cons, List.flatten_cons, List.length_append,
      List.length_cons] at h2 ⊢
    rw [h2, h1, Nat.succ_mul]
    omega

/-! ## The run for any value of the pass count -/

theorem main_eq_main_with_passes (C : Cxx) (G : Globals) (in_file : List Record) (B : Nat) :
    main C G in_file B =
      main_with_passes C G in_file B
        (get_num_passes (pass0 C G in_file B).2.GetNumRecords B) := rfl

/-- Whatever value `p` the pass count has, as long as `max(p, 1)` passes are enough for
the `k + 1` runs of pass 0, the run is correct when the record count is counted right and
is not a multiple of the buffer size. The exact value and every larger one are enough. -/
theorem main_with_passes_sorts (C : Cxx) (G : Globals) (hC : C.Conforms G)
    (in_file : List Record) (B k r : Nat) (p : Int) (hB : 1 ≤ B)
    (hN : CountRecords (fileBytes in_file) = in_file.length)
    (hlen : in_file.length = k * B + r) (hr : 0 < r) (hrB : r < B)
    (hp : k + 1 ≤ B ^ ((p - 1).toNat + 1)) :
    (main_with_passes C G in_file B p).1 = [in_file.length] ∧
    (main_with_passes C G in_file B p).2.Perm in_file ∧
    (main_with_passes C G in_file B p).2.Pairwise
      (fun x y => ordLe C G G.SORTING_ORDER x y = true) := by
  obtain ⟨p1, p2, p3, -⟩ := pass0_spec C G hC in_file B k r hN hlen hr hrB
  have hR0 : (pass0 C G in_file B).1.length = k + 1 := by rw [p1]; simp
  obtain ⟨l1, l2, l3⟩ := main_loop_spec C G hC in_file B hB (p - 1).toNat _ _ p3 p2
  obtain ⟨f1, f2, f3, -⟩ := pass_spec C G hC _ B hB _ l1
  have hone : (main_with_passes C G in_file B p).1.length = 1 := by
    simp only [main_with_passes]
    rw [f1, l3, ← runsAfter_succ, hR0]
    exact runsAfter_eq_one B _ (k + 1) hB (by omega) hp
  have hperm : (main_with_passes C G in_file B p).2.Perm in_file := by
    simp only [main_with_passes]
    exact f2.trans l2
  have hrun : RunFile C G G.SORTING_ORDER (main_with_passes C G in_file B p).2
      (main_with_passes C G in_file B p).1 := by
    simp only [main_with_passes]
    exact f3
  obtain ⟨n1, hn1⟩ := List.length_eq_one.1 hone
  have hsum := hrun.sum_eq
  have hsorted := hrun.sorted 0 (by rw [hone]; omega)
  rw [hn1] at hsum hsorted
  simp [blockStart] at hsum
  simp only [blockStart_zero, List.drop_zero, List.getD_cons_zero] at hsorted
  rw [hsum, List.take_length] at hsorted
  refine ⟨?_, hperm, hsorted⟩
  rw [hn1, hsum, hperm.length_eq]

theorem main_with_passes_sorts_witness :
    (main_with_passes demoCxx demoGlobals (demoFile [3, 1, 4, 1, 5, 9, 2]) 3 2).2.Perm
        (demoFile [3, 1, 4, 1, 5, 9, 2]) ∧
      (main_with_passes demoCxx demoGlobals (demoFile [3, 1, 4, 1, 5, 9, 2]) 3 2).2 =
        (main_with_passes demoCxx demoGlobals (demoFile [3, 1, 4, 1, 5, 9, 2]) 3 1).2 :=
  ⟨(main_with_passes_sorts demoCxx demoGlobals (refCxx_conforms true ⟨[0, 0]⟩ demoGlobals)
      (demoFile [3, 1, 4, 1, 5, 9, 2]) 3 2 1 2 (by decide) (by decide) (by decide)
      (by decide) (by decide) (by decide)).2.1, by decide⟩

/-! ## Files with a single sorted order -/

theorem perm_sorted_unique {α : Type} (r : α → α → Prop) (l1 l2 : List α) (hp : l1.Perm l2)
    (h1 : l1.Pairwise r) (h2 : l2.Pairwise r)
    (hanti : ∀ a ∈ l2, ∀ b ∈ l2, r a b → r b a → a = b) : l1 = l2 := by
  haveI : IsAntisymm α (fun a b => r a b ∧ (r b a → a = b)) :=
    ⟨fun a b hab hba => hab.2 hba.1⟩
  refine List.eq_of_perm_of_sorted (r := fun a b => r a b ∧ (r b a → a = b)) hp ?_ ?_
  · exact h1.imp_of_mem (fun {a b} ha hb hab =>
      ⟨hab, hanti a (hp.subset ha) b (hp.subset hb) hab⟩)
  · exact h2.imp_of_mem (fun {a b} ha hb hab => ⟨hab, hanti a ha b hb hab⟩)

theorem Record.lt_iff_key_lex (C : Cxx) (G : Globals) (r1 r2 : Record)
    (h1 : G.KEY_SIZE.toNat ≤ r1.m_chdata.length)
    (h2 : G.KEY_SIZE.toNat ≤ r2.m_chdata.length) :
    Record.lt C G r1 r2 = true ↔
      List.Lex (· < ·) (Record.key C G r1) (Record.key C G r2) := by
  have h := Record.ltLoop_iff_lex C r1 r2 0 G.KEY_SIZE.toNat (by omega) (by omega)
  simpa [Record.lt, Record.key] using h

theorem keys_of_sorted_perm (C : Cxx) (G : Globals) (hO : G.SORTING_ORDER = 1)
    (in_file out : List Record) (keys : List (List Int))
    (hsize : ∀ r ∈ in_file, G.KEY_SIZE.toNat ≤ r.m_chdata.length)
    (hperm : out.Perm in_file)
    (hsorted : out.Pairwise (fun x y => ordLe C G G.SORTING_ORDER x y = true))
    (hk : (in_file.map (Record.key C G)).Perm keys)
    (hks : keys.Pairwise (fun a b => ¬ List.Lex (· < ·) b a)) :
    out.map (Record.key C G) = keys := by
  refine perm_sorted_unique (fun a b => ¬ List.Lex (· < ·) b a) _ _
    ((hperm.map _).trans hk) ?_ hks ?_
  · rw [List.pairwise_map]
    refine hsorted.imp_of_mem (fun {a b} ha hb hab => ?_)
    rw [← Record.lt_iff_key_lex C G b a (hsize b (hperm.subset hb)) (hsize a (hperm.subset ha))]
    simpa [ordLe, hO] using hab
  · intro a _ b _ hab hba
    rcases trichotomous_of (List.Lex (fun x y : Int => x < y)) a b with h | h | h
    · exact absurd h hba
    · exact h
    · exact absurd h hab

theorem get_num_passes_one_block (N B : Nat) (hN : 0 < N) (hB : N ≤ B) :
    get_num_passes N B = 0 := by
  have h1 : get_num_blocks N B = 1 := by
    unfold get_num_blocks
    apply Nat.div_eq_of_lt_le <;> omega
  simp [get_num_passes, h1, get_num_passes.loop]

/-- C16 as stated fails at the pass count: for five records and buffer size `6`,
`get_num_passes` returns `0`, not `1`. -/
theorem get_num_passes_five_is_zero :
    get_num_passes 5 6 = 0 ∧ ¬ get_num_passes 5 6 = 1 := by
  decide

/-- C16, as amended: for five eight-byte records, each ending in its only newline byte,
with four-byte keys `k3, k1, k4, k1, k5` where `k1 < k3 < k4 < k5` in key order,
ascending order and every buffer size `B ≥ 6`, the records are counted as 5, `pass0`
returns the block sizes `[5]` and the keys of its output file are `k1, k1, k3, k4, k5`;
`get_num_passes 5 B` is `0` for every `B ≥ 5`, and the merge passes `main` still runs,
the final one and any number before it, leave a file with the same keys. -/
theorem pass0_five_records (C : Cxx) (hC : C.Conforms fiveGlobals) (in_file : List Record)
    (B : Nat) (k1 k3 k4 k5 : List Int) (hB : 6 ≤ B)
    (hrec : ∀ r ∈ in_file, r.m_chdata.length = 8 ∧
      ∀ i, i < 8 → (r.m_chdata.getD i 0 = newline ↔ i + 1 = 8))
    (hkeys : in_file.map (Record.key C fiveGlobals) = [k3, k1, k4, k1, k5])
    (h13 : List.Lex (· < ·) k1 k3) (h34 : List.Lex (· < ·) k3 k4)
    (h45 : List.Lex (· < ·) k4 k5) :
    CountRecords (fileBytes in_file) = 5 ∧
    (pass0 C fiveGlobals in_file B).1 = [5] ∧
    (pass0 C fiveGlobals in_file B).2.m_h_outfile.Perm in_file ∧
    (pass0 C fiveGlobals in_file B).2.m_h_outfile.map (Record.key C fiveGlobals) =
      [k1, k1, k3, k4, k5] ∧
    (∀ B2, 5 ≤ B2 → get_num_passes 5 B2 = 0) ∧
    (main C fiveGlobals in_file B).2.map (Record.key C fiveGlobals) =
      [k1, k1, k3, k4, k5] ∧
    (∀ p : Int, (main_with_passes C fiveGlobals in_file B p).2.map
      (Record.key C fiveGlobals) = [k1, k1, k3, k4, k5]) := by
  have hlen : in_file.length = 5 := by
    have := congrArg List.length hkeys
    simpa using this
  have hN : CountRecords (fileBytes in_file) = 5 := by
    unfold CountRecords
    rw [CountRecords_loop_records 8 (by omega) in_file hrec _ 0 (by omega), hlen]
  have hsz : ∀ r ∈ in_file, fiveGlobals.KEY_SIZE.toNat ≤ r.m_chdata.length := by
    intro r hr
    rw [(hrec r hr).1]
    decide
  have hk : (in_file.map (Record.key C fiveGlobals)).Perm [k1, k1, k3, k4, k5] := by
    rw [hkeys]
    exact (List.Perm.swap k1 k3 _).trans
      (List.Perm.cons k1
        ((List.Perm.cons k3 (List.Perm.swap k1 k4 _)).trans (List.Perm.swap k1 k3 _)))
  have h14 := trans_of (List.Lex (fun x y : Int => x < y)) h13 h34
  have h15 := trans_of (List.Lex (fun x y : Int => x < y)) h14 h45
  have h35 := trans_of (List.Lex (fun x y : Int => x < y)) h34 h45
  have hks : [k1, k1, k3, k4, k5].Pairwise (fun a b => ¬ List.Lex (· < ·) b a) := by
    simp only [List.pairwise_cons, List.mem_cons, List.mem_singleton, forall_eq_or_imp,
      forall_eq, List.not_mem_nil, false_implies, implies_true, List.Pairwise.nil, and_true]
    exact ⟨⟨irrefl_of _ k1, asymm_of _ h13, asymm_of _ h14, asymm_of _ h15⟩,
      ⟨asymm_of _ h13, asymm_of _ h14, asymm_of _ h15⟩,
      ⟨asymm_of _ h34, asymm_of _ h35⟩, asymm_of _ h45⟩
  obtain ⟨p1, p2, p3, p4⟩ := pass0_spec C fiveGlobals hC in_file B 0 5 (hN.trans hlen.symm)
    (by rw [hlen]; omega) (by omega) (by omega)
  have p1b : (pass0 C fiveGlobals in_file B).1 = [5] := by rw [p1]; rfl
  have hsorted0 : (pass0 C fiveGlobals in_file B).2.m_h_outfile.Pairwise
      (fun x y => ordLe C fiveGlobals fiveGlobals.SORTING_ORDER x y = true) := by
    have := p3.sorted 0 (by rw [p1b]; decide)
    rw [p1b, blockStart_zero] at this
    simp only [List.drop_zero, List.getD_cons_zero] at this
    rwa [List.take_of_length_le (by rw [p2.length_eq, hlen])] at this
  have hany : ∀ p : Int, (main_with_passes C fiveGlobals in_file B p).2.map
      (Record.key C fiveGlobals) = [k1, k1, k3, k4, k5] := by
    intro p
    obtain ⟨-, m2, m3⟩ := main_with_passes_sorts C fiveGlobals hC in_file B 0 5 p
      (by omega) (hN.trans hlen.symm) (by rw [hlen]; omega) (by omega) (by omega)
      (Nat.one_le_pow _ _ (by omega))
    exact keys_of_sorted_perm C fiveGlobals rfl in_file _ _ hsz m2 m3 hk hks
  refine ⟨hN, p1b, p2,
    keys_of_sorted_perm C fiveGlobals rfl in_file _ _ hsz p2 hsorted0 hk hks,
    fun B2 hB2 => get_num_passes_one_block 5 B2 (by omega) hB2, ?_, hany⟩
  rw [main_eq_main_with_passes]
  exact hany _

theorem pass0_five_records_witness :
    (pass0 demoCxx fiveGlobals fiveFile 6).2.m_h_outfile.map (Record.key demoCxx fiveGlobals) =
      [[0, 0, 0, 1], [0, 0, 0, 1], [0, 0, 0, 3], [0, 0, 0, 4], [0, 0, 0, 5]] :=
  (pass0_five_records demoCxx (refCxx_conforms true ⟨[0, 0]⟩ fiveGlobals) fiveFile 6
    [0, 0, 0, 1] [0, 0, 0, 3] [0, 0, 0, 4] [0, 0, 0, 5] (by decide) (by decide) (by decide)
    (by decide) (by decide) (by decide)).2.2.2.1

/-! ## Sorting a sorted file -/

theorem Record.eqLoop_of_not_ltLoop (C : Cxx) (a b : Record) (i n : Nat)
    (hab : Record.ltLoop C a b i n = false) (hba : Record.ltLoop C b a i n = false) :
    Record.eqLoop C a b i n = true := by
  induction n generalizing i with
  | zero => rfl
  | succ n ih =>
    unfold Record.ltLoop at hab hba
    unfold Record.eqLoop
    split_ifs at hab hba ⊢ with h1 h2 h3 h4 h5
    all_goals first
      | exact ih (i + 1) hab hba
      | (exfalso; omega)

theorem ordLe_antisymm_eq (C : Cxx) (G : Globals) (order : Int) (a b : Record)
    (hab : ordLe C G order a b = true) (hba : ordLe C G order b a = true) :
    Record.eq C G a b = true := by
  unfold ordLe at hab hba
  unfold Record.eq
  split_ifs at hab hba
  · exact Record.eqLoop_of_not_ltLoop C a b 0 _ (by simpa [Record.lt] using hba)
      (by simpa [Record.lt] using hab)
  · exact Record.eqLoop_of_not_ltLoop C a b 0 _ (by simpa [Record.lt] using hab)
      (by simpa [Record.lt] using hba)

theorem segment_unique (C : Cxx) (G : Globals) (order : Int) (inp W : List Record)
    (a n : Nat) (hsorted : inp.Pairwise (fun x y => ordLe C G order x y = true))
    (hdistinct : ∀ x ∈ inp, ∀ y ∈ inp, Record.eq C G x y = true → x = y)
    (hperm : W.Perm ((inp.drop a).take n))
    (hW : W.Pairwise (fun x y => ordLe C G order x y = true)) :
    W = (inp.drop a).take n := by
  have hmem : ∀ x ∈ (inp.drop a).take n, x ∈ inp :=
    fun x hx => List.mem_of_mem_drop (List.mem_of_mem_take hx)
  exact perm_sorted_unique _ _ _ hperm hW
    (hsorted.sublist ((List.take_sublist _ _).trans (List.drop_sublist _ _)))
    (fun x hx y hy hxy hyx =>
      hdistinct x (hmem x hx) y (hmem y hy) (ordLe_antisymm_eq C G order x y hxy hyx))

theorem pass0_step_identity (C : Cxx) (G : Globals) (hC : C.Conforms G) (s0 : FileSorter)
    (bs : List Nat) (hsize : ∀ b, b < bs.length → bs.getD b 0 ≤ s0.m_buffer_size)
    (hfit : blockStart bs bs.length ≤ s0.m_h_inpfile.length)
    (hsorted : s0.m_h_inpfile.Pairwise
      (fun x y => ordLe C G s0.m_sorting_order x y = true))
    (hdistinct : ∀ x ∈ s0.m_h_inpfile, ∀ y ∈ s0.m_h_inpfile,
      Record.eq C G x y = true → x = y)
    (acc : FileSorter × Nat) (i : Nat) (hi : i < bs.length)
    (h1 : acc.2 = blockStart bs i) (h2 : SameConfig s0 acc.1)
    (h3 : acc.1.m_h_outfile = s0.m_h_inpfile.take (blockStart bs i)) :
    (pass0_step C G bs acc i).2 = blockStart bs (i + 1) ∧
    SameConfig s0 (pass0_step C G bs acc i).1 ∧
    (pass0_step C G bs acc i).1.m_h_outfile = s0.m_h_inpfile.take (blockStart bs (i + 1)) := by
  have hnext := blockStart_succ bs i
  have hle := blockStart_mono bs (show i + 1 ≤ bs.length by omega)
  have hlen3 : acc.1.m_h_outfile.length = blockStart bs i := by
    rw [h3, List.length_take]; omega
  obtain ⟨e1, e2, e3⟩ := FileSorter.TwoPassMergeSort_range_exact C G hC acc.1 acc.2
    (bs.getD i 0) ((acc.2 : Int) + (bs.getD i 0 : Int) - 1) (by omega)
    (by rw [h2.size_eq]; exact hsize i hi)
    (by rw [h2.inp_eq, h1]; omega) (by rw [hlen3, h1])
  have hstep : pass0_step C G bs acc i =
      ((acc.1.TwoPassMergeSort_range C G acc.2
        ((acc.2 : Int) + (bs.getD i 0 : Int) - 1)).1, acc.2 + bs.getD i 0) := by
    unfold pass0_step
    simp only [e3]
    rfl
  rw [hstep]
  simp only
  refine ⟨by rw [h1, hnext], h2.trans e2, ?_⟩
  have hS := ((hC.sort_comp acc.1.m_sorting_order)
    ((acc.1.m_h_inpfile.drop acc.2).take (bs.getD i 0))).1
  have hP := sort_pairwise_ordLe hC acc.1.m_sorting_order
    ((acc.1.m_h_inpfile.drop acc.2).take (bs.getD i 0))
  rw [h2.inp_eq, h2.order_eq, h1] at hS hP
  rw [e1, h2.inp_eq, h2.order_eq, h1,
    segment_unique C G s0.m_sorting_order s0.m_h_inpfile _ _ _ hsorted hdistinct hS hP, h3,
    hnext, List.take_add]

theorem pass0_fold_identity (C : Cxx) (G : Globals) (hC : C.Conforms G) (s0 : FileSorter)
    (bs : List Nat) (hout : s0.m_h_outfile = [])
    (hsize : ∀ b, b < bs.length → bs.getD b 0 ≤ s0.m_buffer_size)
    (hfit : blockStart bs bs.length ≤ s0.m_h_inpfile.length)
    (hsorted : s0.m_h_inpfile.Pairwise
      (fun x y => ordLe C G s0.m_sorting_order x y = true))
    (hdistinct : ∀ x ∈ s0.m_h_inpfile, ∀ y ∈ s0.m_h_inpfile,
      Record.eq C G x y = true → x = y)
    (i : Nat) (hi : i ≤ bs.length) :
    ((List.range i).foldl (pass0_step C G bs) (s0, 0)).2 = blockStart bs i ∧
    SameConfig s0 ((List.range i).foldl (pass0_step C G bs) (s0, 0)).1 ∧
    ((List.range i).foldl (pass0_step C G bs) (s0, 0)).1.m_h_outfile =
      s0.m_h_inpfile.take (blockStart bs i) := by
  induction i with
  | zero => simp [blockStart_zero, hout, SameConfig.refl]
  | succ i ih =>
    obtain ⟨h1, h2, h3⟩ := ih (by omega)
    rw [List.range_succ, List.foldl_append]
    simp only [List.foldl_cons, List.foldl_nil]
    exact pass0_step_identity C G hC s0 bs hsize hfit hsorted hdistinct _ i (by omega)
      h1 h2 h3

theorem pass_step_identity (C : Cxx) (G : Globals) (hC : C.Conforms G) (B : Nat)
    (hB : 1 ≤ B) (bs : List Nat) (s0 : FileSorter)
    (hfile : RunFile C G s0.m_sorting_order s0.m_h_inpfile bs)
    (hsorted : s0.m_h_inpfile.Pairwise
      (fun x y => ordLe C G s0.m_sorting_order x y = true))
    (hdistinct : ∀ x ∈ s0.m_h_inpfile, ∀ y ∈ s0.m_h_inpfile,
      Record.eq C G x y = true → x = y)
    (st : PassState) (i : Nat) (hi : i < get_num_blocks bs.length B)
    (h1 : st.start_block = min (i * B) bs.length)
    (h2 : st.num_of_blocks = bs.length - min (i * B) bs.length)
    (h3 : SameConfig s0 st.sorter)
    (h4 : st.sorter.m_h_outfile =
      s0.m_h_inpfile.take (blockStart bs (min (i * B) bs.length))) :
    (pass_step C G bs B st i).start_block = min ((i + 1) * B) bs.length ∧
    (pass_step C G bs B st i).num_of_blocks = bs.length - min ((i + 1) * B) bs.length ∧
    SameConfig s0 (pass_step C G bs B st i).sorter ∧
    (pass_step C G bs B st i).sorter.m_h_outfile =
      s0.m_h_inpfile.take (blockStart bs (min ((i + 1) * B) bs.length)) := by
  have hiR : i * B < bs.length := (lt_get_num_blocks_iff _ _ _ hB).1 hi
  have hsucc : (i + 1) * B = i * B + B := Nat.succ_mul i B
  have hsb : st.start_block = i * B := by rw [h1]; omega
  have hn : min st.num_of_blocks B = min ((i + 1) * B) bs.length - i * B := by
    rw [h2]; omega
  have hn1 : 1 ≤ min ((i + 1) * B) bs.length - i * B := by omega
  have hsbn : i * B + (min ((i + 1) * B) bs.length - i * B) = min ((i + 1) * B) bs.length := by
    omega
  have hmin : min (i * B) bs.length = i * B := by omega
  rw [hmin] at h4
  have hend : blockStart bs (min ((i + 1) * B) bs.length) ≤ s0.m_h_inpfile.length := by
    rw [← hfile.sum_eq]; exact blockStart_mono bs (by omega)
  have hmono : blockStart bs (i * B) ≤ blockStart bs (min ((i + 1) * B) bs.length) :=
    blockStart_mono bs (by omega)
  obtain ⟨-, m2, W, m3, m4, m5⟩ := merge_blocks_exact C G hC st.sorter (i * B) bs
    (min ((i + 1) * B) bs.length - i * B) hn1 (by omega)
    (by rw [h3.order_eq, h3.inp_eq]; exact hfile)
    (by rw [h4, List.length_take]; omega)
  rw [hsbn] at m4
  rw [h3.inp_eq] at m4
  rw [h3.order_eq] at m5
  have hW := segment_unique C G s0.m_sorting_order s0.m_h_inpfile W _ _ hsorted hdistinct
    m4 m5
  have hnum : st.num_of_blocks - (min ((i + 1) * B) bs.length - i * B) =
      bs.length - min ((i + 1) * B) bs.length := by
    rw [h2]; omega
  unfold pass_step
  simp only [hsb, hn]
  refine ⟨hsbn, hnum, h3.trans m2, ?_⟩
  have hsplit : s0.m_h_inpfile.take (blockStart bs (min ((i + 1) * B) bs.length)) =
      s0.m_h_inpfile.take (blockStart bs (i * B)) ++
        (s0.m_h_inpfile.drop (blockStart bs (i * B))).take
          (blockStart bs (min ((i + 1) * B) bs.length) - blockStart bs (i * B)) := by
    rw [← List.take_add]
    congr 1
    omega
  rw [m3, hW, h4, hsplit]

theorem pass_identity (C : Cxx) (G : Globals) (hC : C.Conforms G) (file : List Record)
    (B : Nat) (hB : 1 ≤ B) (bs : List Nat)
    (hfile : RunFile C G G.SORTING_ORDER file bs)
    (hsorted : file.Pairwise (fun x y => ordLe C G G.SORTING_ORDER x y = true))
    (hdistinct : ∀ x ∈ file, ∀ y ∈ file, Record.eq C G x y = true → x = y) :
    (pass C G file B bs).2.m_h_outfile = file := by
  have key : ∀ i, i ≤ get_num_blocks bs.length B →
      ((List.range i).foldl (pass_step C G bs B)
        { sorter := FileSorter.ctor file B G.SORTING_ORDER,
          new_block_sizes := List.replicate (get_num_blocks bs.length B) 0,
          num_of_blocks := bs.length, start_block := 0 }).start_block =
        min (i * B) bs.length ∧
      ((List.range i).foldl (pass_step C G bs B)
        { sorter := FileSorter.ctor file B G.SORTING_ORDER,
          new_block_sizes := List.replicate (get_num_blocks bs.length B) 0,
          num_of_blocks := bs.length, start_block := 0 }).num_of_blocks =
        bs.length - min (i * B) bs.length ∧
      SameConfig (FileSorter.ctor file B G.SORTING_ORDER)
        ((List.range i).foldl (pass_step C G bs B)
        { sorter := FileSorter.ctor file B G.SORTING_ORDER,
          new_block_sizes := List.replicate (get_num_blocks bs.length B) 0,
          num_of_blocks := bs.length, start_block := 0 }).sorter ∧
      ((List.range i).foldl (pass_step C G bs B)
        { sorter := FileSorter.ctor file B G.SORTING_ORDER,
          new_block_sizes := List.replicate (get_num_blocks bs.length B) 0,
          num_of_blocks := bs.length, start_block := 0 }).sorter.m_h_outfile =
        file.take (blockStart bs (min (i * B) bs.length)) := by
    intro i
    induction i with
    | zero =>
      intro _
      simp [blockStart_zero, FileSorter.ctor, SameConfig.refl]
    | succ i ih =>
      intro hi
      obtain ⟨h1, h2, h3, h4⟩ := ih (by omega)
      rw [List.range_succ, List.foldl_append]
      simp only [List.foldl_cons, List.foldl_nil]
      exact pass_step_identity C G hC B hB bs (FileSorter.ctor file B G.SORTING_ORDER)
        hfile hsorted hdistinct _ i (by omega) h1 h2 h3 h4
  obtain ⟨-, -, -, h4⟩ := key (get_num_blocks bs.length B) (le_refl _)
  have hLB : ¬ get_num_blocks bs.length B * B < bs.length := by
    rw [← lt_get_num_blocks_iff _ _ _ hB]; omega
  have hminL : min (get_num_blocks bs.length B * B) bs.length = bs.length := by omega
  have hsum : blockStart bs bs.length = file.length := hfile.sum_eq
  unfold pass
  simp only
  rw [h4, hminL, hsum, List.take_length]

theorem main_loop_identity (C : Cxx) (G : Globals) (hC : C.Conforms G) (file : List Record)
    (B : Nat) (hB : 1 ≤ B)
    (hsorted : file.Pairwise (fun x y => ordLe C G G.SORTING_ORDER x y = true))
    (hdistinct : ∀ x ∈ file, ∀ y ∈ file, Record.eq C G x y = true → x = y)
    (m : Nat) (bs : List Nat) (hfile : RunFile C G G.SORTING_ORDER file bs) :
    (main_loop C G B m file bs).1 = file ∧
    RunFile C G G.SORTING_ORDER file (main_loop C G B m file bs).2 := by
  induction m generalizing bs with
  | zero => exact ⟨rfl, hfile⟩
  | succ m ih =>
    have h1 := pass_identity C G hC file B hB bs hfile hsorted hdistinct
    obtain ⟨-, -, h3, -⟩ := pass_spec C G hC file B hB bs hfile
    rw [h1] at h3
    simp only [main_loop]
    rw [h1]
    exact ih _ h3

/-- C17 as stated fails for records with equal keys: the three records `1a`, `1b`, `1c`
with the one-byte key `1` are sorted and counted right, and with buffer size `2`, which
does not divide `3`, the output file is `1c, 1a, 1b` under the reference toolchain, whose
heap keeps a pushed element in front of those it ties with. -/
theorem main_sorted_ties_reordered :
    [tieRecord 1 97, tieRecord 1 98, tieRecord 1 99].Pairwise
        (fun x y => ordLe demoCxx tieGlobals tieGlobals.SORTING_ORDER x y = true) ∧
      CountRecords (fileBytes [tieRecord 1 97, tieRecord 1 98, tieRecord 1 99]) = 3 ∧
      (main demoCxx tieGlobals [tieRecord 1 97, tieRecord 1 98, tieRecord 1 99] 2).2 =
        [tieRecord 1 99, tieRecord 1 97, tieRecord 1 98] ∧
      (main demoCxx tieGlobals [tieRecord 1 97, tieRecord 1 98, tieRecord 1 99] 2).2 ≠
        [tieRecord 1 97, tieRecord 1 98, tieRecord 1 99] := by
  decide

/-- C17, as amended: when the input file is sorted for `SORTING_ORDER`, records that
`operator==` finds equal are the same bytes, the record count `N` is counted right and
the buffer size `B ≥ 2` does not divide `N`, then `pass0` writes the input file, every
merge pass writes the file it reads, and the output file of `main` is the input file,
whatever number of passes `get_num_passes` makes it run: for the exact pass count and for
any other value `p`. -/
theorem main_sorted_identity (C : Cxx) (G : Globals) (hC : C.Conforms G)
    (in_file : List Record) (B k r : Nat) (hB : 2 ≤ B)
    (hN : CountRecords (fileBytes in_file) = in_file.length)
    (hlen : in_file.length = k * B + r) (hr : 0 < r) (hrB : r < B)
    (hsorted : in_file.Pairwise (fun x y => ordLe C G G.SORTING_ORDER x y = true))
    (hdistinct : ∀ a ∈ in_file, ∀ b ∈ in_file, Record.eq C G a b = true → a = b) :
    (main C G in_file B).2 = in_file ∧
    (pass0 C G in_file B).2.m_h_outfile = in_file ∧
    (∀ p : Int, (main_with_passes C G in_file B p).2 = in_file) := by
  obtain ⟨p1, -, p3, -⟩ := pass0_spec C G hC in_file B k r hN hlen hr hrB
  have hmem : ∀ b, b < (List.replicate k B ++ [r]).length →
      (List.replicate k B ++ [r]).getD b 0 ≤ B := by
    intro b hb
    have := getD_mem_of_lt _ b hb
    rw [List.mem_append, List.mem_replicate, List.mem_singleton] at this
    rcases this with ⟨-, h⟩ | h <;> omega
  have hsum : blockStart (List.replicate k B ++ [r]) (List.replicate k B ++ [r]).length =
      in_file.length := by
    rw [blockStart_length, hlen]
    simp
  have hnb := get_num_blocks_remainder B k r hr hrB
  have hfold := pass0_fold_identity C G hC (FileSorter.ctor in_file B G.SORTING_ORDER)
    (List.replicate k B ++ [r]) rfl hmem (by rw [hsum]; exact le_refl _) hsorted hdistinct
    (List.replicate k B ++ [r]).length (le_refl _)
  have hpass0 : (pass0 C G in_file B).2.m_h_outfile = in_file := by
    have hbs : pass0_block_sizes (k * B + r) B = List.replicate k B ++ [r] :=
      pass0_block_sizes_rem_eq _ B k r rfl hr hrB
    have hpass : (pass0 C G in_file B).2 =
        ((List.range (List.replicate k B ++ [r]).length).foldl
          (pass0_step C G (List.replicate k B ++ [r]))
          (FileSorter.ctor in_file B G.SORTING_ORDER, 0)).1 := by
      simp only [pass0, FileSorter.GetNumRecords, FileSorter.ctor, hN, hlen, hnb, hbs]
      simp
    rw [hpass, hfold.2.2, hsum]
    exact List.take_length in_file
  rw [hpass0] at p3
  have hany : ∀ p : Int, (main_with_passes C G in_file B p).2 = in_file := by
    intro p
    obtain ⟨l1, l2⟩ := main_loop_identity C G hC in_file B (by omega) hsorted hdistinct
      (p - 1).toNat _ p3
    simp only [main_with_passes]
    rw [hpass0, l1]
    exact pass_identity C G hC in_file B (by omega) _ l2 hsorted hdistinct
  refine ⟨?_, hpass0, hany⟩
  rw [main_eq_main_with_passes]
  exact hany _

theorem main_sorted_identity_witness :
    (main demoCxx demoGlobals (demoFile [1, 2, 3, 4, 5, 6, 7]) 3).2 =
      demoFile [1, 2, 3, 4, 5, 6, 7] :=
  (main_sorted_identity demoCxx demoGlobals (refCxx_conforms true ⟨[0, 0]⟩ demoGlobals)
    (demoFile [1, 2, 3, 4, 5, 6, 7]) 3 2 1 (by decide) (by decide) (by decide) (by decide)
    (by decide) (by decide) (by decide)).1

/-! ## The record count of a file -/

/-- C24: for a file of records of `S > 0` bytes each, in which the last byte of every
record is a newline and no other byte is, `CountRecords` returns the number of records,
which is the file size divided by `S`; and there are files of two-byte records with a
newline elsewhere, or with none, for which `CountRecords` is not the file size divided by
the record size: one record of two newline bytes counts as 2, the two records `ab`, `cd`
count as 1. -/
theorem CountRecords_newline_terminated (S : Nat) (f : List Record) (hS : 0 < S)
    (hrec : ∀ r ∈ f, r.m_chdata.length = S ∧
      ∀ i, i < S → (r.m_chdata.getD i 0 = newline ↔ i + 1 = S)) :
    CountRecords (fileBytes f) = f.length ∧
    CountRecords (fileBytes f) = (fileBytes f).length / S ∧
    (∃ g : List Record, (∀ r ∈ g, r.m_chdata.length = 2) ∧
      (∃ r ∈ g, newline ∈ r.m_chdata) ∧
      CountRecords (fileBytes g) ≠ (fileBytes g).length / 2) ∧
    CountRecords (fileBytes [⟨[newline, newline]⟩]) = 2 ∧
    (fileBytes [⟨[newline, newline]⟩]).length / 2 = 1 ∧
    CountRecords (fileBytes [⟨[97, 98]⟩, ⟨[99, 100]⟩]) = 1 ∧
    (fileBytes [⟨[97, 98]⟩, ⟨[99, 100]⟩]).length / 2 = 2 := by
  have h1 : CountRecords (fileBytes f) = f.length := by
    unfold CountRecords
    rw [CountRecords_loop_records S hS f hrec _ 0 (by omega)]
    omega
  have h2 : (fileBytes f).length / S = f.length := by
    rw [fileBytes_length S f (fun r hr => (hrec r hr).1), Nat.mul_div_cancel _ hS]
  refine ⟨h1, by rw [h1, h2], ⟨[⟨[newline, newline]⟩], by decide, by decide, by decide⟩,
    by decide, by decide, by decide, by decide⟩

theorem CountRecords_newline_terminated_witness :
    CountRecords (fileBytes (demoFile [3, 1, 4])) = (demoFile [3, 1, 4]).length :=
  (CountRecords_newline_terminated 2 (demoFile [3, 1, 4]) (by decide) (by decide)).1

/-! ## The traces of the sort steps -/

theorem FileSorter.readLoop_trace (C : Cxx) (n cur k : Nat) (s : FileSorter)
    (buffer : List Record) :
    (FileSorter.readLoop C n cur k s buffer).1.trace =
      s.trace ++ (List.range' cur n).map Event.read := by
  induction n generalizing cur k s buffer with
  | zero => simp [FileSorter.readLoop]
  | succ n ih =>
    simp only [FileSorter.readLoop]
    rw [ih, List.range'_succ, List.map_cons]
    simp [FileSorter.ReadRecord]

theorem FileSorter.writeLoop_trace (G : Globals) (i : Nat) (buffer : List Record)
    (n cur : Nat) (s : FileSorter) :
    (FileSorter.writeLoop G i buffer n cur s).trace =
      s.trace ++ (List.range' cur n).map Event.write := by
  induction n generalizing cur s with
  | zero => simp [FileSorter.writeLoop]
  | succ n ih =>
    simp only [FileSorter.writeLoop]
    rw [ih, List.range'_succ, List.map_cons]
    simp [FileSorter.WriteRecord]

theorem FileSorter.TwoPassMergeSort_range_trace (C : Cxx) (G : Globals) (s : FileSorter)
    (i : Nat) (j : Int) :
    (s.TwoPassMergeSort_range C G i j).1.trace =
      s.trace ++ (List.range' i (j - (i : Int) + 1).toNat).map Event.read ++
        (List.range' i (j - (i : Int) + 1).toNat).map Event.write ∧
    (s.TwoPassMergeSort_range C G i j).2 = 1 := by
  unfold FileSorter.TwoPassMergeSort_range
  simp only [FileSorter.writeLoop_trace, FileSorter.readLoop_trace, and_self]

/-! ## The calls `pass0` makes -/

theorem pass0_calls_fold (bs : List Nat) (m : Nat) :
    (List.range m).foldl (pass0_calls_step bs) (0, []) =
      (blockStart bs m, (List.range m).map (fun i =>
        (blockStart bs i, (blockStart bs i : Int) + (bs.getD i 0 : Int) - 1))) := by
  induction m with
  | zero => simp [blockStart_zero]
  | succ m ih =>
    rw [List.range_succ, List.foldl_append, ih]
    simp [pass0_calls_step, blockStart_succ]

theorem pass0_step_fold (C : Cxx) (G : Globals) (bs : List Nat) (s : FileSorter) (m : Nat) :
    (List.range m).foldl (pass0_step C G bs) (s, 0) =
      (((List.range m).map (fun i =>
          (blockStart bs i, (blockStart bs i : Int) + (bs.getD i 0 : Int) - 1))).foldl
        (fun s c => sort_step_check (s.TwoPassMergeSort_range C G c.1 c.2).1
          (s.TwoPassMergeSort_range C G c.1 c.2).2) s,
       blockStart bs m) := by
  induction m with
  | zero => simp [blockStart_zero]
  | succ m ih =>
    rw [List.range_succ, List.foldl_append, ih]
    simp [pass0_step, sort_step_check, blockStart_succ]

theorem calls_fold_trace (C : Cxx) (G : Globals) (calls : List (Nat × Int)) (s : FileSorter) :
    (calls.foldl (fun s c => sort_step_check (s.TwoPassMergeSort_range C G c.1 c.2).1
        (s.TwoPassMergeSort_range C G c.1 c.2).2) s).trace =
      s.trace ++ (calls.map (fun c =>
        (List.range' c.1 (c.2 - (c.1 : Int) + 1).toNat).map Event.read ++
          (List.range' c.1 (c.2 - (c.1 : Int) + 1).toNat).map Event.write)).flatten := by
  induction calls generalizing s with
  | nil => simp
  | cons c calls ih =>
    obtain ⟨h1, h2⟩ := FileSorter.TwoPassMergeSort_range_trace C G s c.1 c.2
    simp only [List.foldl_cons, List.map_cons, List.flatten_cons]
    rw [ih, h2]
    simp only [sort_step_check, show ((1 : Int) = 0) = False by simp, if_false, h1,
      List.append_assoc]

theorem pass0_blocks_total (N B : Nat) (hB : 0 < B) (hN : 0 < N) :
    (pass0_block_sizes N B).length = get_num_blocks N B ∧
    (∀ i, (pass0_block_sizes N B).getD i 0 ≤ B) ∧
    (pass0_block_sizes N B).sum ≤ N := by
  have hnb : 0 < get_num_blocks N B := get_num_blocks_pos N B hB hN
  have heq := pass0_block_sizes_eq N B hnb
  have hmod := Nat.mod_lt N hB
  refine ⟨by rw [heq]; simp; omega, ?_, ?_⟩
  · intro i
    by_cases hi : i < (pass0_block_sizes N B).length
    · have := getD_mem_of_lt _ i hi
      rw [heq, List.mem_append, List.mem_replicate, List.mem_singleton] at this
      rw [heq]
      rcases this with ⟨-, h⟩ | h <;> omega
    · rw [List.getD_eq_default _ _ (by omega)]
      omega
  · rw [heq]
    simp only [List.sum_append, List.sum_replicate, smul_eq_mul, List.sum_cons, List.sum_nil,
      Nat.add_zero]
    have hle : get_num_blocks N B - 1 ≤ N / B := by
      have : get_num_blocks N B < N / B + 2 := by
        unfold get_num_blocks
        rw [Nat.div_lt_iff_lt_mul hB]
        have := Nat.div_add_mod N B
        rw [Nat.add_mul, Nat.mul_comm (N / B) B]
        omega
      omega
    have h1 := Nat.mul_le_mul_right B hle
    have h2 := Nat.div_add_mod N B
    rw [Nat.mul_comm B (N / B)] at h2
    omega

/-- C23: for a record count `N > 0` and a buffer size `B > 0`, every call
`TwoPassMergeSort(i, j)` that `pass0` makes has `0 ≤ j - i + 1 ≤ B` and `j < N`; the
sorter `pass0` ends with is the one these calls produce in turn, its in-memory buffer has
`B` elements, and every event of its trace is a read or a write of a record index below
`N`. -/
theorem pass0_in_bounds (C : Cxx) (G : Globals) (in_file : List Record) (B : Nat)
    (hB : 0 < B) (hN : 0 < CountRecords (fileBytes in_file)) :
    (∀ c ∈ pass0_calls (CountRecords (fileBytes in_file)) B,
      0 ≤ c.2 - (c.1 : Int) + 1 ∧ c.2 - (c.1 : Int) + 1 ≤ (B : Int) ∧
      c.2 < (CountRecords (fileBytes in_file) : Int)) ∧
    (pass0 C G in_file B).2 =
      (pass0_calls (CountRecords (fileBytes in_file)) B).foldl
        (fun s c => sort_step_check (s.TwoPassMergeSort_range C G c.1 c.2).1
          (s.TwoPassMergeSort_range C G c.1 c.2).2)
        (FileSorter.ctor in_file B G.SORTING_ORDER) ∧
    (pass0 C G in_file B).2.m_buffer_size = B ∧
    (∀ e ∈ (pass0 C G in_file B).2.trace, ∃ index,
      index < CountRecords (fileBytes in_file) ∧
      (e = Event.read index ∨ e = Event.write index)) := by
  obtain ⟨t1, t2, t3⟩ := pass0_blocks_total (CountRecords (fileBytes in_file)) B hB hN
  have hcalls : ∀ c ∈ pass0_calls (CountRecords (fileBytes in_file)) B,
      ∃ i, i < get_num_blocks (CountRecords (fileBytes in_file)) B ∧
        c = (blockStart (pass0_block_sizes (CountRecords (fileBytes in_file)) B) i,
          (blockStart (pass0_block_sizes (CountRecords (fileBytes in_file)) B) i : Int) +
            ((pass0_block_sizes (CountRecords (fileBytes in_file)) B).getD i 0 : Int) - 1) := by
    intro c hc
    unfold pass0_calls at hc
    simp only [pass0_calls_fold, List.mem_map, List.mem_range] at hc
    obtain ⟨i, hi, rfl⟩ := hc
    exact ⟨i, hi, rfl⟩
  have hend : ∀ i, i < get_num_blocks (CountRecords (fileBytes in_file)) B →
      blockStart (pass0_block_sizes (CountRecords (fileBytes in_file)) B) i +
        (pass0_block_sizes (CountRecords (fileBytes in_file)) B).getD i 0 ≤
        CountRecords (fileBytes in_file) := by
    intro i hi
    rw [← blockStart_succ]
    refine le_trans (blockStart_mono _ (show i + 1 ≤
      (pass0_block_sizes (CountRecords (fileBytes in_file)) B).length by omega)) ?_
    rw [blockStart_length]
    exact t3
  have hbounds : ∀ c ∈ pass0_calls (CountRecords (fileBytes in_file)) B,
      0 ≤ c.2 - (c.1 : Int) + 1 ∧ c.2 - (c.1 : Int) + 1 ≤ (B : Int) ∧
      c.2 < (CountRecords (fileBytes in_file) : Int) := by
    intro c hc
    obtain ⟨i, hi, rfl⟩ := hcalls c hc
    have h1 := t2 i
    have h2 := hend i hi
    simp only
    omega
  have hsorter : (pass0 C G in_file B).2 =
      (pass0_calls (CountRecords (fileBytes in_file)) B).foldl
        (fun s c => sort_step_check (s.TwoPassMergeSort_range C G c.1 c.2).1
          (s.TwoPassMergeSort_range C G c.1 c.2).2)
        (FileSorter.ctor in_file B G.SORTING_ORDER) := by
    simp only [pass0, pass0_calls, pass0_calls_fold, pass0_step_fold, FileSorter.GetNumRecords,
      FileSorter.ctor]
  refine ⟨hbounds, hsorter, ?_, ?_⟩
  · unfold pass0
    exact (pass0_fold_config C G _ _ _).size_eq
  · intro e he
    rw [hsorter, calls_fold_trace] at he
    simp only [FileSorter.ctor, List.nil_append, List.mem_flatten, List.mem_map] at he
    obtain ⟨l, ⟨c, hc, rfl⟩, hel⟩ := he
    obtain ⟨b1, b2, b3⟩ := hbounds c hc
    rw [List.mem_append, List.mem_map, List.mem_map] at hel
    rcases hel with ⟨x, hx, rfl⟩ | ⟨x, hx, rfl⟩
    · rw [List.mem_range'_1] at hx
      exact ⟨x, by omega, Or.inl rfl⟩
    · rw [List.mem_range'_1] at hx
      exact ⟨x, by omega, Or.inr rfl⟩

theorem pass0_in_bounds_witness :
    (pass0 demoCxx demoGlobals (demoFile [3, 1, 4, 1, 5, 9]) 3).2.m_buffer_size = 3 ∧
      pass0_calls 7 3 = [(0, 2), (3, 5), (6, 6)] ∧
      pass0_calls 6 3 = [(0, 2), (3, 2)] :=
  ⟨(pass0_in_bounds demoCxx demoGlobals (demoFile [3, 1, 4, 1, 5, 9]) 3 (by decide)
      (by decide)).2.2.1, by decide, by decide⟩

/-! ## The writes of a merge -/

theorem writeAt_getElem?_gap (G : Globals) (f : List Record) (index p : Nat) (v : Record)
    (h1 : f.length ≤ p) (h2 : p < index) :
    (writeAt G f index v)[p]? = some (Record.zero G) := by
  unfold writeAt
  rw [if_neg (by omega), List.getElem?_append_left (by simp; omega),
    List.getElem?_append_right h1, List.getElem?_replicate]
  rw [if_pos (by omega)]

theorem WriteInv.start (G : Globals) (s : FileSorter) (start : Nat) :
    WriteInv G s s start 0 where
  trace_eq := ⟨[], by simp, by simp⟩
  length_eq := by simp
  kept := fun _ _ _ => rfl
  gap := fun p h1 _ h3 => by omega

theorem WriteInv.after_read {G : Globals} {s t : FileSorter} {start w : Nat} (C : Cxx)
    (h : WriteInv G s t start w) (index : Nat) :
    WriteInv G s (t.ReadRecord C index).2 start w := by
  obtain ⟨T, h1, h2⟩ := h.trace_eq
  exact ⟨⟨T ++ [Event.read index],
    by simp [FileSorter.ReadRecord, h1], by simp [List.filterMap_append, h2, Event.writeIndex]⟩,
    h.length_eq, h.kept, h.gap⟩

theorem WriteInv.after_perror {G : Globals} {s t : FileSorter} {start w : Nat}
    (h : WriteInv G s t start w) (x : Int) :
    WriteInv G s (t.perror x) start w := by
  obtain ⟨T, h1, h2⟩ := h.trace_eq
  exact ⟨⟨T ++ [Event.perror x],
    by simp [FileSorter.perror, h1], by simp [List.filterMap_append, h2, Event.writeIndex]⟩,
    h.length_eq, h.kept, h.gap⟩

theorem WriteInv.after_write {G : Globals} {s t : FileSorter} {start w : Nat}
    (h : WriteInv G s t start w) (v : Record) :
    WriteInv G s (t.WriteRecord G (start + w) v) start (w + 1) := by
  obtain ⟨T, h1, h2⟩ := h.trace_eq
  have hlen := h.length_eq
  refine ⟨⟨T ++ [Event.write (start + w)], by simp [FileSorter.WriteRecord, h1], ?_⟩,
    ?_, ?_, ?_⟩
  · rw [List.filterMap_append, h2, List.range'_1_concat]
    simp [Event.writeIndex]
  · simp only [FileSorter.WriteRecord, writeAt_length]
    rw [hlen, if_neg (Nat.succ_ne_zero w)]
    by_cases hw : w = 0
    · rw [if_pos hw, hw]
    · rw [if_neg hw]
      omega
  · intro p hp hout
    have hpl : p < t.m_h_outfile.length := by
      rw [hlen]; split_ifs <;> omega
    simp only [FileSorter.WriteRecord]
    rw [writeAt_getElem?_other G _ _ _ _ (by omega) hpl]
    exact h.kept p hp (by omega)
  · intro p hp1 hp2 _
    simp only [FileSorter.WriteRecord]
    by_cases hpl : p < t.m_h_outfile.length
    · rw [writeAt_getElem?_other G _ _ _ _ (by omega) hpl]
      exact h.gap p hp1 hp2 hpl
    · exact writeAt_getElem?_gap G _ _ _ _ (by omega) (by omega)

theorem FileSorter.copyLoop_writes (C : Cxx) (G : Globals) (s : FileSorter) (start : Nat)
    (n i w : Nat) (t : FileSorter) (h : WriteInv G s t start w) (hi : i = start + w) :
    WriteInv G s (FileSorter.copyLoop C G n i t) start (w + n) := by
  induction n generalizing i w t with
  | zero => exact h
  | succ n ih =>
    simp only [FileSorter.copyLoop]
    have h1 := (h.after_read C i).after_write (t.ReadRecord C i).1
    rw [← hi] at h1
    have := ih (i + 1) (w + 1) _ h1 (by omega)
    rwa [show w + 1 + n = w + (n + 1) by omega] at this

theorem FileSorter.seedBody_writes (C : Cxx) (G : Globals) (s : FileSorter) (start w : Nat)
    (sb : Nat) (bs : List Nat) (i : Nat) (st : MergeState)
    (h : WriteInv G s st.sorter start w) :
    WriteInv G s (FileSorter.seedBody C G sb bs i st).sorter start w := by
  unfold FileSorter.seedBody
  simp only
  split_ifs
  · exact (h.after_read C _).after_perror _
  · exact h.after_read C _

theorem FileSorter.seedLoop_writes (C : Cxx) (G : Globals) (s : FileSorter) (start w : Nat)
    (sb : Nat) (bs : List Nat) (n i : Nat) (st : MergeState)
    (h : WriteInv G s st.sorter start w) :
    WriteInv G s (FileSorter.seedLoop C G sb bs n i st).sorter start w := by
  induction n generalizing i st with
  | zero => exact h
  | succ n ih =>
    unfold FileSorter.seedLoop
    simp only
    split_ifs
    · exact FileSorter.seedBody_writes C G s start w sb bs i st h
    · exact ih _ _ (FileSorter.seedBody_writes C G s start w sb bs i st h)

theorem FileSorter.mergeBody_writes (C : Cxx) (G : Globals) (s : FileSorter) (start w : Nat)
    (sb : Nat) (bs : List Nat) (sr : Nat) (st : MergeState) (r : RecWithBlockIndex)
    (h : WriteInv G s st.sorter start w) (hcur : st.current_record = start + w) :
    WriteInv G s (FileSorter.mergeBody C G sb bs sr st r).sorter start (w + 1) := by
  have h1 := h.after_write r.value
  rw [← hcur] at h1
  unfold FileSorter.mergeBody
  simp only
  split_ifs
  · exact (h1.after_read C _).after_perror _
  · exact h1.after_read C _
  · exact h1

theorem FileSorter.mergeLoop_writes (C : Cxx) (G : Globals) (s : FileSorter) (start : Nat)
    (sb : Nat) (bs : List Nat) (sr er : Nat) (fuel w : Nat) (st : MergeState)
    (h : WriteInv G s st.sorter start w) (hcur : st.current_record = start + w)
    (hw : start + w ≤ max start er) :
    ∃ w2, start + w2 ≤ max start er ∧
      WriteInv G s (FileSorter.mergeLoop C G sb bs sr er fuel st).sorter start w2 ∧
      (FileSorter.mergeLoop C G sb bs sr er fuel st).current_record = start + w2 := by
  induction fuel generalizing w st with
  | zero => exact ⟨w, hw, h, hcur⟩
  | succ fuel ih =>
    unfold FileSorter.mergeLoop
    split_ifs with hcond
    · cases htop : st.buffer.top with
      | none => exact ⟨w, hw, h, hcur⟩
      | some r =>
        simp only
        have h1 := FileSorter.mergeBody_writes C G s start w sb bs sr st r h hcur
        have h2 := FileSorter.mergeBody_current_record C G sb bs sr st r
        have hw1 : start + (w + 1) ≤ max start er := by
          have := hcond.1
          omega
        split_ifs
        · exact ⟨w + 1, hw1, h1, by rw [h2, hcur]; omega⟩
        · exact ih (w + 1) _ h1 (by rw [h2, hcur]; omega) hw1
    · exact ⟨w, hw, h, hcur⟩

theorem FileSorter.TwoPassMergeSort_merge_writeinv (C : Cxx) (G : Globals) (s : FileSorter)
    (sb : Nat) (bs : List Nat) (n sr er : Nat) :
    ∃ w, sr + w ≤ max sr er ∧ (n = 1 → w = er - sr) ∧
      WriteInv G s (s.TwoPassMergeSort_merge C G sb bs n sr er).1 sr w := by
  unfold FileSorter.TwoPassMergeSort_merge
  split_ifs with h0 h1
  · exact ⟨0, by omega, by omega, WriteInv.start G s sr⟩
  · refine ⟨er - sr, by omega, fun _ => rfl, ?_⟩
    have := FileSorter.copyLoop_writes C G s sr (er - sr) sr 0 s (WriteInv.start G s sr) rfl
    rwa [Nat.zero_add] at this
  · simp only
    unfold FileSorter.mergeRun
    simp only
    have hseed := FileSorter.seedLoop_writes C G s sr 0 sb bs n 0
      { sorter := s, buffer := Buffer.ctor n s.m_sorting_order,
        current_block_record_indices := List.replicate bs.length 0,
        record_index := sr, current_record := sr, failed := false } (WriteInv.start G s sr)
    have hcur := (FileSorter.seedLoop_frame C G sb bs n 0
      { sorter := s, buffer := Buffer.ctor n s.m_sorting_order,
        current_block_record_indices := List.replicate bs.length 0,
        record_index := sr, current_record := sr, failed := false }).2.1
    split_ifs
    · exact ⟨0, by omega, fun h => absurd h h1, hseed⟩
    · obtain ⟨w, hw, hinv, -⟩ := FileSorter.mergeLoop_writes C G s sr sb bs sr er (er - sr) 0
        _ hseed (by rw [hcur]; rfl) (by omega)
      exact ⟨w, hw, fun h => absurd h h1, hinv⟩

/-- C22: a call of the merging `TwoPassMergeSort`, for any number `n` of blocks, writes
the output positions `start_record, start_record + 1, .., start_record + w - 1` in this
order, each once, for some `w ≤ end_record - start_record` (so all of them lie in
`[start_record, end_record)`), with `w = end_record - start_record` when `n = 1`; every
other position the output file had holds what it held, the file ends at the larger of its
old end and `start_record + w`, and a position that a write past the old end brought into
being reads as zeros; with `n = 0` the sorter is left as it is and the result is `1`. -/
theorem FileSorter.TwoPassMergeSort_merge_writes (C : Cxx) (G : Globals) (s : FileSorter)
    (sb : Nat) (bs : List Nat) (n sr er : Nat) :
    (∃ w T, w ≤ er - sr ∧ (n = 1 → w = er - sr) ∧
      (s.TwoPassMergeSort_merge C G sb bs n sr er).1.trace = s.trace ++ T ∧
      T.filterMap Event.writeIndex = List.range' sr w ∧
      (∀ p ∈ T.filterMap Event.writeIndex, sr ≤ p ∧ p < er) ∧
      (s.TwoPassMergeSort_merge C G sb bs n sr er).1.m_h_outfile.length =
        (if w = 0 then s.m_h_outfile.length else max s.m_h_outfile.length (sr + w)) ∧
      (∀ p, p < s.m_h_outfile.length → (p < sr ∨ sr + w ≤ p) →
        (s.TwoPassMergeSort_merge C G sb bs n sr er).1.m_h_outfile[p]? =
          s.m_h_outfile[p]?) ∧
      (∀ p, s.m_h_outfile.length ≤ p → p < sr →
        p < (s.TwoPassMergeSort_merge C G sb bs n sr er).1.m_h_outfile.length →
        (s.TwoPassMergeSort_merge C G sb bs n sr er).1.m_h_outfile[p]? =
          some (Record.zero G))) ∧
    (n = 0 → s.TwoPassMergeSort_merge C G sb bs n sr er = (s, 1)) ∧
    (s.TwoPassMergeSort_merge C G sb bs 0 sr er = (s, 1)) := by
  obtain ⟨w, hw, h1, hinv⟩ := FileSorter.TwoPassMergeSort_merge_writeinv C G s sb bs n sr er
  obtain ⟨T, t1, t2⟩ := hinv.trace_eq
  refine ⟨⟨w, T, by omega, h1, t1, t2, ?_, hinv.length_eq, hinv.kept, hinv.gap⟩, ?_, ?_⟩
  · intro p hp
    rw [t2, List.mem_range'_1] at hp
    omega
  · intro h0
    rw [h0]
    rfl
  · rfl

/-! ## The reads of a merge -/

theorem popCount_append_pop (l : List MergeAccess) (b c : Nat) :
    popCount (l ++ [MergeAccess.pop b]) c = popCount l c + (if b = c then 1 else 0) := by
  simp only [popCount, List.countP_append, List.countP_cons, List.countP_nil]
  split_ifs <;> simp_all

theorem popCount_append_read (l : List MergeAccess) (i b c : Nat) :
    popCount (l ++ [MergeAccess.read i b]) c = popCount l c := by
  simp [popCount, List.countP_append, List.countP_cons]

theorem readCount_append_pop (l : List MergeAccess) (b c : Nat) :
    readCount (l ++ [MergeAccess.pop b]) c = readCount l c := by
  simp [readCount, List.countP_append, List.countP_cons]

theorem readCount_append_read (l : List MergeAccess) (i b c : Nat) :
    readCount (l ++ [MergeAccess.read i b]) c = readCount l c + (if b = c then 1 else 0) := by
  simp only [readCount, List.countP_append, List.countP_cons, List.countP_nil]
  split_ifs <;> simp_all

theorem split_snoc {α : Type} (l l1 l2 : List α) (x e : α) (h : l ++ [e] = l1 ++ x :: l2) :
    (l2 = [] ∧ l1 = l ∧ x = e) ∨ ∃ l3, l2 = l3 ++ [e] ∧ l = l1 ++ x :: l3 := by
  rcases List.eq_nil_or_concat l2 with rfl | ⟨l3, y, rfl⟩
  · left
    have h2 : l ++ [e] = l1 ++ [x] := h
    obtain ⟨h3, h4⟩ := List.append_inj' h2 rfl
    exact ⟨rfl, h3.symm, by simpa using h4.symm⟩
  · right
    have h2 : l ++ [e] = (l1 ++ x :: l3) ++ [y] := by
      rw [h]; simp
    obtain ⟨h3, h4⟩ := List.append_inj' h2 rfl
    have : e = y := by simpa using h4
    exact ⟨l3, by rw [this, List.concat_eq_append], h3⟩

theorem Buffer.push_count {C : Cxx} {G : Globals} {inv : List RecWithBlockIndex → Prop}
    {order : Int} (hQ : PQLawful C (heapComp C G order) inv) (b : Buffer)
    (x : RecWithBlockIndex) (horder : b.m_sorting_order = order) (hinv : inv b.active)
    (hlen : b.active.length < b.m_max_size) (c : Nat) :
    ((b.push C G x).1.active.map (fun y => y.index)).count c =
      (b.active.map (fun y => y.index)).count c + (if x.index = c then 1 else 0) := by
  obtain ⟨-, h2, -, -⟩ := Buffer.push_ok C G b x hlen
  rw [horder] at h2
  have hperm := (hQ.push_perm b.active x hinv).map (fun y => y.index)
  rw [h2, hperm.count_eq, List.map_cons, List.count_cons]
  simp only [beq_iff_eq]

theorem Buffer.pop_count {C : Cxx} {G : Globals} {inv : List RecWithBlockIndex → Prop}
    {order : Int} (hQ : PQLawful C (heapComp C G order) inv) (b : Buffer)
    (r : RecWithBlockIndex) (horder : b.m_sorting_order = order) (hinv : inv b.active)
    (htop : b.top = some r) (c : Nat) :
    r ∈ b.active ∧
    ((b.pop C G).active.map (fun y => y.index)).count c + (if r.index = c then 1 else 0) =
      (b.active.map (fun y => y.index)).count c := by
  obtain ⟨t, hc⟩ : ∃ t, b.active = r :: t := by
    rw [Buffer.top_eq] at htop
    cases hact : b.active with
    | nil => rw [hact] at htop; simp at htop
    | cons x t =>
      rw [hact] at htop
      simp only [List.head?_cons, Option.some.injEq] at htop
      exact ⟨t, by rw [htop]⟩
  obtain ⟨q1, -, -⟩ := Buffer.pop_active C G b
  rw [horder, hc] at q1
  have hheap : inv (r :: t) := by rw [← hc]; exact hinv
  have hperm := (hQ.pop_perm r t hheap).map (fun y => y.index)
  refine ⟨by rw [hc]; exact List.mem_cons_self _ _, ?_⟩
  rw [q1, hperm.count_eq, hc, List.map_cons, List.count_cons]
  simp only [beq_iff_eq]

theorem AccessInv.push_read {C : Cxx} {G : Globals} {inv : List RecWithBlockIndex → Prop}
    {order : Int} {bs : List Nat} {sb n k : Nat} {reads : List Nat}
    (hQ : PQLawful C (heapComp C G order) inv) {st : MergeState} (st2 : MergeState)
    {log : List MergeAccess}
    (h : AccessInv inv order bs sb n k reads st log) (hk : k < n) (hL : sb + n ≤ bs.length)
    (value : Record) (b index : Nat) (hb1 : sb ≤ b) (hb2 : b < sb + n)
    (hzero : (st.buffer.active.map (fun x => x.index)).count b = 0)
    (hidx : index = blockStart bs b + popCount log b)
    (hpr : popCount log b = readCount log b) (hlt : readCount log b < bs.getD b 0)
    (hbuf : st2.buffer =
      (st.buffer.push C G (FileSorter.CreateRecWithBlockIndex value b)).1)
    (hcnt : st2.current_block_record_indices =
      st.current_block_record_indices.set b (st.current_block_record_indices.getD b 0 + 1))
    (hfail : st2.failed = st.failed)
    (htr : st2.sorter.trace.filterMap Event.readIndex =
      st.sorter.trace.filterMap Event.readIndex ++ [index]) :
    AccessInv inv order bs sb n (k + 1) reads st2 (log ++ [MergeAccess.read index b]) := by
  obtain ⟨-, p2, p3, p4, p5, p6⟩ := BufferInv.push hQ st.buffer
    (FileSorter.CreateRecWithBlockIndex value b) h.buf.size_eq h.buf.order_eq h.buf.heap
    h.buf.len_le hk h.buf.index_lt (by simp only [FileSorter.CreateRecWithBlockIndex]; omega)
  have hcount : ∀ c,
      ((st.buffer.push C G (FileSorter.CreateRecWithBlockIndex value b)).1.active.map
        (fun y => y.index)).count c =
      (st.buffer.active.map (fun y => y.index)).count c + (if b = c then 1 else 0) :=
    Buffer.push_count hQ st.buffer (FileSorter.CreateRecWithBlockIndex value b)
      h.buf.order_eq h.buf.heap (by rw [h.buf.size_eq]; exact lt_of_le_of_lt h.buf.len_le hk)
  refine
    { buf := ⟨by rw [hbuf]; exact p2, by rw [hbuf]; exact p3, by rw [hbuf]; exact p4,
        by rw [hbuf]; exact p5, by rw [hbuf]; exact p6, by rw [hfail]; exact h.buf.ok⟩
      counts_len := by rw [hcnt, List.length_set]; exact h.counts_len
      counts_eq := ?_
      held := ?_
      held_le := ?_
      group := ?_
      log_ok := ?_
      reads_eq := ?_ }
  · intro c
    rw [hcnt, readCount_append_read]
    by_cases hc : b = c
    · subst hc
      rw [List.getD_eq_getElem _ _ (by rw [List.length_set, h.counts_len]; omega)]
      simp only [List.getElem_set_self, if_true]
      rw [h.counts_eq]
    · rw [if_neg hc, List.getD_eq_getElem?_getD, List.getElem?_set_ne hc,
        ← List.getD_eq_getElem?_getD, h.counts_eq, Nat.add_zero]
  · intro c
    rw [hbuf, hcount, popCount_append_read, readCount_append_read]
    have := h.held c
    omega
  · intro c
    rw [hbuf, hcount]
    by_cases hc : b = c
    · subst hc
      rw [hzero, if_pos rfl]
    · rw [if_neg hc]
      exact h.held_le c
  · intro c hc
    rw [readCount_append_read] at hc
    by_cases hbc : b = c
    · subst hbc
      exact ⟨hb1, hb2⟩
    · rw [if_neg hbc] at hc
      exact h.group c hc
  · intro l1 i c l2 hsplit
    rcases split_snoc _ _ _ _ _ hsplit with ⟨-, h1, h2⟩ | ⟨l3, -, h2⟩
    · injection h2 with h3 h4
      subst h1
      subst h3
      subst h4
      exact ⟨hb1, hb2, hidx, hpr, hlt⟩
    · exact h.log_ok l1 i c l3 h2
  · rw [htr, h.reads_eq, List.filterMap_append]
    simp [MergeAccess.readIndex]

theorem AccessInv.pop_top {C : Cxx} {G : Globals} {inv : List RecWithBlockIndex → Prop}
    {order : Int} {bs : List Nat} {sb n : Nat} {reads : List Nat}
    (hQ : PQLawful C (heapComp C G order) inv) {st : MergeState} (st2 : MergeState)
    {log : List MergeAccess}
    (h : AccessInv inv order bs sb n n reads st log) (r : RecWithBlockIndex)
    (htop : st.buffer.top = some r)
    (hbuf : st2.buffer = st.buffer.pop C G)
    (hcnt : st2.current_block_record_indices = st.current_block_record_indices)
    (hfail : st2.failed = st.failed)
    (htr : st2.sorter.trace.filterMap Event.readIndex =
      st.sorter.trace.filterMap Event.readIndex) :
    AccessInv inv order bs sb n (n - 1) reads st2 (log ++ [MergeAccess.pop r.index]) ∧
    0 < n ∧ sb ≤ r.index ∧ r.index < sb + n ∧
    (st2.buffer.active.map (fun x => x.index)).count r.index = 0 ∧
    popCount (log ++ [MergeAccess.pop r.index]) r.index =
      readCount (log ++ [MergeAccess.pop r.index]) r.index := by
  have hpc := fun c => (Buffer.pop_count hQ st.buffer r h.buf.order_eq h.buf.heap htop c).2
  have hmem := (Buffer.pop_count hQ st.buffer r h.buf.order_eq h.buf.heap htop 0).1
  obtain ⟨c, hc⟩ : ∃ c, st.buffer.active = r :: c := by
    rw [Buffer.top_eq] at htop
    cases hact : st.buffer.active with
    | nil => rw [hact] at htop; simp at htop
    | cons t c =>
      rw [hact] at htop
      simp only [List.head?_cons, Option.some.injEq] at htop
      exact ⟨c, by rw [htop]⟩
  obtain ⟨q1, q2, q3⟩ := Buffer.pop_active C G st.buffer
  rw [h.buf.order_eq, hc] at q1
  have hheap : inv (r :: c) := by rw [← hc]; exact h.buf.heap
  have hperm := hQ.pop_perm r c hheap
  have hlen0 := h.buf.len_le
  rw [hc, List.length_cons] at hlen0
  have hlen : (st.buffer.pop C G).active.length ≤ n - 1 := by
    rw [q1, hperm.length_eq]
    omega
  have hpos : 0 < (st.buffer.active.map (fun x => x.index)).count r.index :=
    List.count_pos_iff.2 (List.mem_map.2 ⟨r, hmem, rfl⟩)
  have hone : (st.buffer.active.map (fun x => x.index)).count r.index = 1 := by
    have := h.held_le r.index
    omega
  have hgroup := h.group r.index (by have := h.held r.index; omega)
  have hcr := hpc r.index
  rw [if_pos rfl] at hcr
  refine ⟨
    { buf := ⟨by rw [hbuf]; exact q3.trans h.buf.size_eq,
        by rw [hbuf]; exact q2.trans h.buf.order_eq,
        by rw [hbuf, q1]; exact hQ.pop_inv r c hheap, by rw [hbuf]; exact hlen, ?_,
        by rw [hfail]; exact h.buf.ok⟩
      counts_len := by rw [hcnt]; exact h.counts_len
      counts_eq := ?_
      held := ?_
      held_le := ?_
      group := ?_
      log_ok := ?_
      reads_eq := ?_ }, by omega, hgroup.1, hgroup.2, by rw [hbuf]; omega, ?_⟩
  · intro y hy
    rw [hbuf, q1] at hy
    exact h.buf.index_lt y (by rw [hc]; exact List.mem_cons_of_mem _ (hperm.mem_iff.1 hy))
  · intro b
    rw [hcnt, readCount_append_pop]
    exact h.counts_eq b
  · intro b
    rw [hbuf, popCount_append_pop, readCount_append_pop]
    have := h.held b
    have := hpc b
    omega
  · intro b
    rw [hbuf]
    have := h.held_le b
    have := hpc b
    omega
  · intro b hb
    rw [readCount_append_pop] at hb
    exact h.group b hb
  · intro l1 i b l2 hsplit
    rcases split_snoc _ _ _ _ _ hsplit with ⟨-, -, h2⟩ | ⟨l3, -, h2⟩
    · exact MergeAccess.noConfusion h2
    · exact h.log_ok l1 i b l3 h2
  · rw [htr, h.reads_eq, List.filterMap_append]
    simp [MergeAccess.readIndex]
  · rw [popCount_append_pop, readCount_append_pop, if_pos rfl]
    have := h.held r.index
    omega

theorem AccessInv.weaken {inv : List RecWithBlockIndex → Prop} {order : Int} {bs : List Nat}
    {sb n k k2 : Nat} {reads : List Nat} {st : MergeState} {log : List MergeAccess}
    (h : AccessInv inv order bs sb n k reads st log) (hk : k ≤ k2) :
    AccessInv inv order bs sb n k2 reads st log :=
  { buf := h.buf.mono hk, counts_len := h.counts_len, counts_eq := h.counts_eq,
    held := h.held, held_le := h.held_le, group := h.group, log_ok := h.log_ok,
    reads_eq := h.reads_eq }

theorem FileSorter.seedBody_access {C : Cxx} {G : Globals}
    {inv : List RecWithBlockIndex → Prop} {order : Int} {bs : List Nat} {sb n : Nat}
    {reads : List Nat} (hQ : PQLawful C (heapComp C G order) inv) (hL : sb + n ≤ bs.length)
    (hpos : ∀ b, sb ≤ b → b < sb + n → 0 < bs.getD b 0)
    (i : Nat) (st : MergeState) (log : List MergeAccess) (hi : i < n)
    (h : AccessInv inv order bs sb n i reads st log)
    (hnone : ∀ b, sb + i ≤ b → readCount log b = 0)
    (hnopop : ∀ b, popCount log b = 0)
    (hidx : st.record_index = blockStart bs (sb + i)) :
    AccessInv inv order bs sb n (i + 1) reads (FileSorter.seedBody C G sb bs i st)
      (log ++ [MergeAccess.read st.record_index (i + sb)]) ∧
    (∀ b, sb + (i + 1) ≤ b →
      readCount (log ++ [MergeAccess.read st.record_index (i + sb)]) b = 0) ∧
    (∀ b, popCount (log ++ [MergeAccess.read st.record_index (i + sb)]) b = 0) ∧
    (FileSorter.seedBody C G sb bs i st).record_index = blockStart bs (sb + (i + 1)) := by
  obtain ⟨p1, -⟩ := BufferInv.push hQ st.buffer
    (FileSorter.CreateRecWithBlockIndex (st.sorter.ReadRecord C st.record_index).1 (i + sb))
    h.buf.size_eq h.buf.order_eq h.buf.heap h.buf.len_le hi h.buf.index_lt
    (by simp only [FileSorter.CreateRecWithBlockIndex]; omega)
  have hr0 := hnone (i + sb) (by omega)
  have hzero : (st.buffer.active.map (fun x => x.index)).count (i + sb) = 0 := by
    have := h.held (i + sb)
    omega
  have hsucc : blockStart bs (sb + (i + 1)) = blockStart bs (sb + i) + bs.getD (i + sb) 0 := by
    rw [show sb + (i + 1) = sb + i + 1 by omega, blockStart_succ, Nat.add_comm sb i]
  unfold FileSorter.seedBody
  simp only [p1, Bool.true_eq_false, if_false]
  refine ⟨?_, ?_, ?_, by rw [hsucc, hidx]⟩
  · exact AccessInv.push_read hQ _ h hi hL (st.sorter.ReadRecord C st.record_index).1 (i + sb)
      st.record_index (by omega) (by omega) hzero
      (by rw [hidx, hnopop, Nat.add_comm i sb]; rfl)
      (by rw [hnopop, hr0]) (by rw [hr0]; exact hpos _ (by omega) (by omega)) rfl rfl rfl
      (by simp [FileSorter.ReadRecord, List.filterMap_append, Event.readIndex])
  · intro b hb
    rw [readCount_append_read, hnone b (by omega), if_neg (by omega)]
  · intro b
    rw [popCount_append_read]
    exact hnopop b

theorem FileSorter.seedLoop_access {C : Cxx} {G : Globals}
    {inv : List RecWithBlockIndex → Prop} {order : Int} {bs : List Nat} {sb n : Nat}
    {reads : List Nat} (hQ : PQLawful C (heapComp C G order) inv) (hL : sb + n ≤ bs.length)
    (hpos : ∀ b, sb ≤ b → b < sb + n → 0 < bs.getD b 0)
    (m i : Nat) (st : MergeState) (log : List MergeAccess) (him : i + m ≤ n)
    (h : AccessInv inv order bs sb n i reads st log)
    (hnone : ∀ b, sb + i ≤ b → readCount log b = 0)
    (hnopop : ∀ b, popCount log b = 0)
    (hidx : st.record_index = blockStart bs (sb + i)) :
    AccessInv inv order bs sb n (i + m) reads (FileSorter.seedLoop C G sb bs m i st)
      (log ++ FileSorter.seedAccesses C G sb bs m i st) := by
  induction m generalizing i st log with
  | zero => simpa [FileSorter.seedAccesses, FileSorter.seedLoop] using h
  | succ m ih =>
    obtain ⟨h1, h2, h3, h4⟩ :=
      FileSorter.seedBody_access hQ hL hpos i st log (by omega) h hnone hnopop hidx
    have := ih (i + 1) _ _ (by omega) h1 h2 h3 h4
    simp only [FileSorter.seedAccesses, FileSorter.seedLoop, h1.buf.ok, Bool.false_eq_true,
      if_false]
    rw [show i + (m + 1) = i + 1 + m by omega]
    simpa [List.append_assoc] using this

theorem FileSorter.mergeBody_access {C : Cxx} {G : Globals}
    {inv : List RecWithBlockIndex → Prop} {order : Int} {bs : List Nat} {sb n : Nat}
    {reads : List Nat} (hQ : PQLawful C (heapComp C G order) inv) (hL : sb + n ≤ bs.length)
    (st : MergeState) (log : List MergeAccess) (r : RecWithBlockIndex)
    (htop : st.buffer.top = some r)
    (h : AccessInv inv order bs sb n n reads st log) :
    AccessInv inv order bs sb n n reads
      (FileSorter.mergeBody C G sb bs (blockStart bs sb) st r)
      (log ++ FileSorter.mergeBodyAccesses sb bs (blockStart bs sb) st r) := by
  obtain ⟨hmid, hn, hg1, hg2, hzero, hpr⟩ := AccessInv.pop_top hQ
    { st with sorter := st.sorter.WriteRecord G st.current_record r.value,
              buffer := st.buffer.pop C G,
              current_record := st.current_record + 1 }
    h r htop rfl rfl rfl
    (by simp [FileSorter.WriteRecord, List.filterMap_append, Event.readIndex])
  have hcnt : st.current_block_record_indices.getD r.index 0 =
      readCount (log ++ [MergeAccess.pop r.index]) r.index := by
    rw [readCount_append_pop]
    exact h.counts_eq r.index
  by_cases hlt : st.current_block_record_indices.getD r.index 0 < bs.getD r.index 0
  · obtain ⟨p1, -⟩ := BufferInv.push hQ (st.buffer.pop C G)
      (FileSorter.CreateRecWithBlockIndex
        ((st.sorter.WriteRecord G st.current_record r.value).ReadRecord C
          (FileSorter.GetRecordIndex sb r.index bs (blockStart bs sb)
            (st.current_block_record_indices.getD r.index 0))).1 r.index)
      hmid.buf.size_eq hmid.buf.order_eq hmid.buf.heap hmid.buf.len_le (by omega)
      hmid.buf.index_lt (by simp only [FileSorter.CreateRecWithBlockIndex]; omega)
    have hres := AccessInv.push_read hQ
      (FileSorter.mergeBody C G sb bs (blockStart bs sb) st r) hmid
      (by omega) hL
      ((st.sorter.WriteRecord G st.current_record r.value).ReadRecord C
          (FileSorter.GetRecordIndex sb r.index bs (blockStart bs sb)
            (st.current_block_record_indices.getD r.index 0))).1 r.index
      (FileSorter.GetRecordIndex sb r.index bs (blockStart bs sb)
        (st.current_block_record_indices.getD r.index 0)) hg1 hg2 hzero
      (by rw [FileSorter.GetRecordIndex_eq bs sb r.index _ hg1, hpr, hcnt])
      hpr (by rw [← hcnt]; exact hlt)
      (by
        unfold FileSorter.mergeBody
        simp only [hlt, if_true, p1, Bool.true_eq_false, if_false])
      (by
        unfold FileSorter.mergeBody
        simp only [hlt, if_true, p1, Bool.true_eq_false, if_false])
      (by
        unfold FileSorter.mergeBody
        simp only [hlt, if_true, p1, Bool.true_eq_false, if_false])
      (by
        unfold FileSorter.mergeBody
        simp only [hlt, if_true, p1, Bool.true_eq_false, if_false]
        simp [FileSorter.ReadRecord, List.filterMap_append, Event.readIndex])
    rw [show n - 1 + 1 = n by omega] at hres
    unfold FileSorter.mergeBodyAccesses
    simp only [hlt, if_true]
    simpa [List.append_assoc] using hres
  · have hres : AccessInv inv order bs sb n n reads
        (FileSorter.mergeBody C G sb bs (blockStart bs sb) st r)
        (log ++ [MergeAccess.pop r.index]) := by
      have := hmid.weaken (show n - 1 ≤ n by omega)
      unfold FileSorter.mergeBody
      simp only [hlt, if_false]
      exact this
    unfold FileSorter.mergeBodyAccesses
    simp only [hlt, if_false]
    exact hres

theorem FileSorter.mergeLoop_access {C : Cxx} {G : Globals}
    {inv : List RecWithBlockIndex → Prop} {order : Int} {bs : List Nat} {sb n : Nat}
    {reads : List Nat} (hQ : PQLawful C (heapComp C G order) inv) (hL : sb + n ≤ bs.length)
    (er fuel : Nat) (st : MergeState) (log : List MergeAccess)
    (h : AccessInv inv order bs sb n n reads st log) :
    AccessInv inv order bs sb n n reads
      (FileSorter.mergeLoop C G sb bs (blockStart bs sb) er fuel st)
      (log ++ FileSorter.mergeAccesses C G sb bs (blockStart bs sb) er fuel st) := by
  induction fuel generalizing st log with
  | zero => simpa [FileSorter.mergeAccesses, FileSorter.mergeLoop] using h
  | succ fuel ih =>
    unfold FileSorter.mergeAccesses FileSorter.mergeLoop
    split_ifs with hcond
    · cases htop : st.buffer.top with
      | none => simpa using h
      | some r =>
        have h1 := FileSorter.mergeBody_access hQ hL st log r htop h
        have h2 := ih _ _ h1
        simp only [h1.buf.ok, Bool.false_eq_true, if_false]
        simpa [List.append_assoc] using h2
    · simpa using h

theorem reads_nodup (bs : List Nat) (log : List MergeAccess)
    (hok : ∀ l1 index b l2, log = l1 ++ MergeAccess.read index b :: l2 →
      index = blockStart bs b + popCount l1 b ∧ popCount l1 b = readCount l1 b ∧
      readCount l1 b < bs.getD b 0) :
    (log.filterMap MergeAccess.readIndex).Nodup := by
  induction log using List.reverseRecOn with
  | nil => simp
  | append_singleton l e ih =>
    have hprev : (l.filterMap MergeAccess.readIndex).Nodup := by
      apply ih
      intro l1 index b l2 hl
      exact hok l1 index b (l2 ++ [e]) (by rw [hl]; simp)
    cases e with
    | pop tag => simpa [List.filterMap_append, MergeAccess.readIndex] using hprev
    | read index b =>
      rw [List.filterMap_append]
      simp only [List.filterMap_cons, MergeAccess.readIndex, List.filterMap_nil]
      rw [List.nodup_append]
      refine ⟨hprev, List.nodup_singleton _, ?_⟩
      intro a ha1 ha2
      rw [List.mem_singleton] at ha2
      subst ha2
      obtain ⟨x, hx, hxa⟩ := List.mem_filterMap.1 ha1
      cases x with
      | pop tag => simp [MergeAccess.readIndex] at hxa
      | read i2 b2 =>
        simp only [MergeAccess.readIndex, Option.some.injEq] at hxa
        subst hxa
        obtain ⟨l1, l2, hl⟩ := List.append_of_mem hx
        obtain ⟨e1, e2, e3⟩ := hok l1 i2 b2 (l2 ++ [MergeAccess.read i2 b]) (by rw [hl]; simp)
        obtain ⟨f1, f2, f3⟩ := hok l i2 b [] rfl
        rcases Nat.lt_trichotomy b2 b with hlt | heq | hgt
        · have h1 := blockStart_mono bs (show b2 + 1 ≤ b from hlt)
          rw [blockStart_succ] at h1
          omega
        · subst heq
          have hrc : readCount l b2 = readCount l1 b2 + 1 + readCount l2 b2 := by
            rw [hl]
            simp [readCount, List.countP_append, List.countP_cons]
            omega
          omega
        · have h1 := blockStart_mono bs (show b + 1 ≤ b2 from hgt)
          rw [blockStart_succ] at h1
          omega

/-- C21: in a merge of `n ≥ 2` blocks that lie inside the list of block sizes and have
positive sizes, started at the record where block `start_block` begins, with a library
that honours the standard: every record pushed with tag `b`, in the seeding loop or after
a pop, is read from the index `P(b) + k`, where `P(b)` is the sum of the sizes of the
blocks before `b` and `k` is the number of records tagged `b` popped before, which is
also the number of reads tagged `b` made before; `b` is a block of the group and
`P(b) ≤ index < P(b) + size(b)`; no index is read twice; and the reads logged are the
reads the call adds to the trace of the sorter. -/
theorem FileSorter.TwoPassMergeSort_merge_reads (C : Cxx) (G : Globals) (hC : C.Conforms G)
    (s : FileSorter) (sb : Nat) (bs : List Nat) (n sr er : Nat) (hn : 2 ≤ n)
    (hlen : sb + n ≤ bs.length) (hpos : ∀ b, sb ≤ b → b < sb + n → 0 < bs.getD b 0)
    (hsr : sr = blockStart bs sb) :
    (∀ l1 index b l2,
      FileSorter.mergeRunAccesses C G s sb bs n sr er =
        l1 ++ MergeAccess.read index b :: l2 →
      sb ≤ b ∧ b < sb + n ∧ index = blockStart bs b + popCount l1 b ∧
      popCount l1 b = readCount l1 b ∧
      blockStart bs b ≤ index ∧ index < blockStart bs b + bs.getD b 0) ∧
    ((FileSorter.mergeRunAccesses C G s sb bs n sr er).filterMap
      MergeAccess.readIndex).Nodup ∧
    (s.TwoPassMergeSort_merge C G sb bs n sr er).1.trace.filterMap Event.readIndex =
      s.trace.filterMap Event.readIndex ++
        (FileSorter.mergeRunAccesses C G s sb bs n sr er).filterMap MergeAccess.readIndex := by
  subst hsr
  obtain ⟨inv, hQ⟩ := hC.pq_comp s.m_sorting_order
  have h0 : AccessInv inv s.m_sorting_order bs sb n 0 (s.trace.filterMap Event.readIndex)
      { sorter := s, buffer := Buffer.ctor n s.m_sorting_order,
        current_block_record_indices := List.replicate bs.length 0,
        record_index := blockStart bs sb, current_record := blockStart bs sb,
        failed := false } [] :=
    { buf :=
        { size_eq := rfl
          order_eq := rfl
          heap := by rw [Buffer.ctor_active]; exact hQ.inv_nil
          len_le := by rw [Buffer.ctor_active]; exact le_refl _
          index_lt := by rw [Buffer.ctor_active]; intro x hx; cases hx
          ok := rfl }
      counts_len := by simp
      counts_eq := by
        intro b
        simp only [readCount, List.countP_nil]
        by_cases hb : b < bs.length
        · rw [List.getD_eq_getElem _ _ (by simpa using hb)]
          simp
        · rw [List.getD_eq_default _ _ (by simpa using hb)]
      held := by
        intro b
        rw [Buffer.ctor_active]
        simp [popCount, readCount]
      held_le := by
        intro b
        rw [Buffer.ctor_active]
        simp
      group := by
        intro b hb
        simp [readCount] at hb
      log_ok := by
        intro l1 index b l2 hl
        cases l1 <;> simp at hl
      reads_eq := by simp }
  have hseed := FileSorter.seedLoop_access hQ hlen hpos n 0 _ [] (by omega) h0
    (by intro b _; simp [readCount]) (by intro b; simp [popCount]) rfl
  rw [Nat.zero_add, List.nil_append] at hseed
  have hmerge := FileSorter.mergeLoop_access hQ hlen er (er - blockStart bs sb) _ _ hseed
  have hacc : FileSorter.mergeRunAccesses C G s sb bs n (blockStart bs sb) er =
      FileSorter.seedAccesses C G sb bs n 0
        { sorter := s, buffer := Buffer.ctor n s.m_sorting_order,
          current_block_record_indices := List.replicate bs.length 0,
          record_index := blockStart bs sb, current_record := blockStart bs sb,
          failed := false } ++
        FileSorter.mergeAccesses C G sb bs (blockStart bs sb) er (er - blockStart bs sb)
          (FileSorter.seedLoop C G sb bs n 0
            { sorter := s, buffer := Buffer.ctor n s.m_sorting_order,
              current_block_record_indices := List.replicate bs.length 0,
              record_index := blockStart bs sb, current_record := blockStart bs sb,
              failed := false }) := by
    unfold FileSorter.mergeRunAccesses
    simp only [hseed.buf.ok, Bool.false_eq_true, if_false]
  have hrun : (s.TwoPassMergeSort_merge C G sb bs n (blockStart bs sb) er).1 =
      (FileSorter.mergeLoop C G sb bs (blockStart bs sb) er (er - blockStart bs sb)
        (FileSorter.seedLoop C G sb bs n 0
          { sorter := s, buffer := Buffer.ctor n s.m_sorting_order,
            current_block_record_indices := List.replicate bs.length 0,
            record_index := blockStart bs sb, current_record := blockStart bs sb,
            failed := false })).sorter := by
    unfold FileSorter.TwoPassMergeSort_merge FileSorter.mergeRun
    rw [if_neg (by omega), if_neg (by omega)]
    simp only [hseed.buf.ok, Bool.false_eq_true, if_false]
  rw [hacc, hrun]
  refine ⟨?_, ?_, hmerge.reads_eq⟩
  · intro l1 index b l2 hl
    obtain ⟨a1, a2, a3, a4, a5⟩ := hmerge.log_ok l1 index b l2 hl
    exact ⟨a1, a2, a3, a4, by omega, by omega⟩
  · exact reads_nodup bs _ (fun l1 index b l2 hl =>
      (hmerge.log_ok l1 index b l2 hl).2.2)

theorem FileSorter.TwoPassMergeSort_merge_reads_witness :
    FileSorter.mergeRunAccesses demoCxx demoGlobals
        (FileSorter.ctor (demoFile [1, 4, 2, 3]) 2 1) 0 [2, 2] 2 0 4 =
      [MergeAccess.read 0 0, MergeAccess.read 2 1, MergeAccess.pop 0, MergeAccess.read 1 0,
        MergeAccess.pop 1, MergeAccess.read 3 1, MergeAccess.pop 1, MergeAccess.pop 0] ∧
    ((FileSorter.mergeRunAccesses demoCxx demoGlobals
        (FileSorter.ctor (demoFile [1, 4, 2, 3]) 2 1) 0 [2, 2] 2 0 4).filterMap
      MergeAccess.readIndex).Nodup :=
  ⟨by decide,
    (FileSorter.TwoPassMergeSort_merge_reads demoCxx demoGlobals
      (refCxx_conforms true ⟨[0, 0]⟩ demoGlobals)
      (FileSorter.ctor (demoFile [1, 4, 2, 3]) 2 1) 0 [2, 2] 2 0 4 (by decide) (by decide)
      (by intro b _ h2; interval_cases b <;> decide) (by decide)).2.1⟩

end ExtSort
